import Mathlib

/-!
# simplelung: lexer, recursive-descent parser and stack-code generator

A shallow embedding of `src/simplelung.cpp`.

* A C++ `std::string` is a `List Char`; one `Char` stands for one C++ `char`.
  The `<cctype>` classifiers are the ones of the "C" locale (ASCII only).
* `Lexer` is the pair of the source text and the scan cursor; the three scanning
  loops recurse on a counter initialised to the number of characters left.
* `Parser` is the pair of its lexer and the one-token lookahead.  The two
  parsing loops recurse on a counter as well; running out of it is reported as
  `Failure.out_of_fuel`, and `Simplelung.parse_never_out_of_fuel` shows that this never
  happens with the counter that `Parser.parse` supplies.
* `CodeGenerator.generate` returns the lines handed to `emit`, in order,
  together with the exception that stopped it, if any.
-/

namespace Simplelung

/-! ## Characters -/

/-- The `isalpha` of the C locale: the 52 ASCII letters. -/
def isalpha (c : Char) : Bool :=
  (65 ≤ c.toNat && c.toNat ≤ 90) || (97 ≤ c.toNat && c.toNat ≤ 122)

/-- The `isdigit` of the C locale: the ten ASCII digits. -/
def isdigit (c : Char) : Bool :=
  48 ≤ c.toNat && c.toNat ≤ 57

/-- The `isalnum` of the C locale: a letter or a digit. -/
def isalnum (c : Char) : Bool :=
  isalpha c || isdigit c

/-- The `isspace` of the C locale: space, `\t`, `\n`, `\v`, `\f`, `\r`. -/
def isspace (c : Char) : Bool :=
  c.toNat = 32 || (9 ≤ c.toNat && c.toNat ≤ 13)

/-! ## Tokens -/

/-- The `enum TokenType` of the source. -/
inductive TokenType where
  | IDENTIFIER
  | NUMBER
  | ASSIGN
  | PLUS
  | MINUS
  | MULT
  | DIV
  | SEMICOLON
  | END_OF_FILE
  | UNKNOWN
  deriving DecidableEq, Repr

/-- The `struct Token` of the source. -/
structure Token where
  type : TokenType
  value : List Char
  deriving DecidableEq, Repr

/-! ## Lexer -/

/-- The state of a `Lexer`: the source text and the scan cursor. -/
structure Lexer where
  input : List Char
  position : Nat
  deriving DecidableEq, Repr

/-- The loop of `Lexer::skipWhitespace`:
`while (position < input.size() && isspace(input[position])) position++;`.
`input[position]?` is `some c` exactly when `position < input.size()`. -/
def Lexer.skipWhitespaceLoop : Nat → Lexer → Lexer
  | 0, lx => lx
  | fuel + 1, lx =>
    match lx.input[lx.position]? with
    | some c =>
      if isspace c then Lexer.skipWhitespaceLoop fuel ⟨lx.input, lx.position + 1⟩ else lx
    | none => lx

/-- The function `Lexer::skipWhitespace`. -/
def Lexer.skipWhitespace (lx : Lexer) : Lexer :=
  Lexer.skipWhitespaceLoop (lx.input.length - lx.position) lx

/-- The loop of `Lexer::tokenizeIdentifier`:
`while (position < input.size() && isalnum(input[position])) result += input[position++];`. -/
def Lexer.tokenizeIdentifierLoop : Nat → List Char → Lexer → List Char × Lexer
  | 0, result, lx => (result, lx)
  | fuel + 1, result, lx =>
    match lx.input[lx.position]? with
    | some c =>
      if isalnum c then
        Lexer.tokenizeIdentifierLoop fuel (result ++ [c]) ⟨lx.input, lx.position + 1⟩
      else (result, lx)
    | none => (result, lx)

/-- The function `Lexer::tokenizeIdentifier`. -/
def Lexer.tokenizeIdentifier (lx : Lexer) : Token × Lexer :=
  let r := Lexer.tokenizeIdentifierLoop (lx.input.length - lx.position) [] lx
  (⟨TokenType.IDENTIFIER, r.1⟩, r.2)

/-- The loop of `Lexer::tokenizeNumber`:
`while (position < input.size() && isdigit(input[position])) result += input[position++];`. -/
def Lexer.tokenizeNumberLoop : Nat → List Char → Lexer → List Char × Lexer
  | 0, result, lx => (result, lx)
  | fuel + 1, result, lx =>
    match lx.input[lx.position]? with
    | some c =>
      if isdigit c then
        Lexer.tokenizeNumberLoop fuel (result ++ [c]) ⟨lx.input, lx.position + 1⟩
      else (result, lx)
    | none => (result, lx)

/-- The function `Lexer::tokenizeNumber`. -/
def Lexer.tokenizeNumber (lx : Lexer) : Token × Lexer :=
  let r := Lexer.tokenizeNumberLoop (lx.input.length - lx.position) [] lx
  (⟨TokenType.NUMBER, r.1⟩, r.2)

/-- The `switch (current)` of `Lexer::getNextToken`. -/
def singleCharToken (current : Char) : Token :=
  if current = '=' then ⟨TokenType.ASSIGN, ['=']⟩
  else if current = '+' then ⟨TokenType.PLUS, ['+']⟩
  else if current = '-' then ⟨TokenType.MINUS, ['-']⟩
  else if current = '*' then ⟨TokenType.MULT, ['*']⟩
  else if current = '/' then ⟨TokenType.DIV, ['/']⟩
  else if current = ';' then ⟨TokenType.SEMICOLON, [';']⟩
  else ⟨TokenType.UNKNOWN, [current]⟩

/-- The function `Lexer::getNextToken`: the token and the lexer after the call. -/
def Lexer.getNextToken (lx : Lexer) : Token × Lexer :=
  let lx := lx.skipWhitespace
  match lx.input[lx.position]? with
  | none => (⟨TokenType.END_OF_FILE, []⟩, lx)
  | some current =>
    if isalpha current then lx.tokenizeIdentifier
    else if isdigit current then lx.tokenizeNumber
    else (singleCharToken current, ⟨lx.input, lx.position + 1⟩)

/-! ## AST -/

/-- The `struct ASTNode` of the source: a text and a list of children. -/
inductive ASTNode where
  | mk (value : List Char) (children : List ASTNode)

/-- The `value` member. -/
def ASTNode.value : ASTNode → List Char
  | .mk v _ => v

/-- The `children` member. -/
def ASTNode.children : ASTNode → List ASTNode
  | .mk _ cs => cs

/-! ## Failures -/

/-- How a call can fail to return.  The source throws `std::runtime_error` only;
the other two constructors belong to the embedding. -/
inductive Failure where
  /-- A `throw runtime_error(what)`. -/
  | runtime_error (what : List Char)
  /-- The access `children[1]` on a node with exactly one child (undefined behaviour in C++). -/
  | out_of_bounds
  /-- The counter of a parsing loop ran out (never happens, `parse_never_out_of_fuel`). -/
  | out_of_fuel
  deriving DecidableEq, Repr

/-- The message of the exception thrown by `Parser::parseStatement`. -/
def ExpectedSemicolon : Failure :=
  .runtime_error "Expected ';' at the end of the statement".toList

/-- The message of the exception thrown by `Parser::parseFactor`. -/
def UnexpectedToken (text : List Char) : Failure :=
  .runtime_error ("Unexpected token: ".toList ++ text)

/-- The message of the exception thrown by `CodeGenerator::generate`. -/
def UnknownOperator (text : List Char) : Failure :=
  .runtime_error ("Unknown operator: ".toList ++ text)

/-! ## Parser -/

/-- The state of a `Parser`: its lexer and the lookahead token. -/
structure Parser where
  lexer : Lexer
  currentToken : Token
  deriving DecidableEq, Repr

/-- The constructor `Parser(Lexer &lexer)`, which primes the lookahead. -/
def Parser.new (lexer : Lexer) : Parser :=
  let r := lexer.getNextToken
  ⟨r.2, r.1⟩

/-- The function `Parser::advance`. -/
def Parser.advance (p : Parser) : Parser :=
  let r := p.lexer.getNextToken
  ⟨r.2, r.1⟩

/-- The function `Parser::parseFactor`. -/
def Parser.parseFactor (p : Parser) : Except Failure (ASTNode × Parser) :=
  if p.currentToken.type = TokenType.NUMBER ∨ p.currentToken.type = TokenType.IDENTIFIER then
    .ok (ASTNode.mk p.currentToken.value [], p.advance)
  else
    .error (UnexpectedToken p.currentToken.value)

/-- The `while` loop of `Parser::parseTerm`, entered with `node`. -/
def Parser.parseTermLoop : Nat → ASTNode → Parser → Except Failure (ASTNode × Parser)
  | fuel, node, p =>
    if p.currentToken.type = TokenType.MULT ∨ p.currentToken.type = TokenType.DIV then
      match fuel with
      | 0 => .error Failure.out_of_fuel
      | fuel + 1 =>
        let op := p.currentToken.value
        match p.advance.parseFactor with
        | .error e => .error e
        | .ok (rhs, p) => Parser.parseTermLoop fuel (ASTNode.mk op [node, rhs]) p
    else .ok (node, p)

/-- The function `Parser::parseTerm`. -/
def Parser.parseTerm (fuel : Nat) (p : Parser) : Except Failure (ASTNode × Parser) :=
  match p.parseFactor with
  | .error e => .error e
  | .ok (node, p) => Parser.parseTermLoop fuel node p

/-- The `while` loop of `Parser::parseExpression`, entered with `node`. -/
def Parser.parseExpressionLoop : Nat → ASTNode → Parser → Except Failure (ASTNode × Parser)
  | fuel, node, p =>
    if p.currentToken.type = TokenType.PLUS ∨ p.currentToken.type = TokenType.MINUS then
      match fuel with
      | 0 => .error Failure.out_of_fuel
      | fuel + 1 =>
        let op := p.currentToken.value
        match p.advance.parseTerm fuel with
        | .error e => .error e
        | .ok (rhs, p) => Parser.parseExpressionLoop fuel (ASTNode.mk op [node, rhs]) p
    else .ok (node, p)

/-- The function `Parser::parseExpression`. -/
def Parser.parseExpression (fuel : Nat) (p : Parser) : Except Failure (ASTNode × Parser) :=
  match p.parseTerm fuel with
  | .error e => .error e
  | .ok (node, p) => Parser.parseExpressionLoop fuel node p

/-- The function `Parser::parseStatement`. -/
def Parser.parseStatement (fuel : Nat) (p : Parser) : Except Failure (ASTNode × Parser) :=
  match p.parseExpression fuel with
  | .error e => .error e
  | .ok (node, p) =>
    if p.currentToken.type ≠ TokenType.SEMICOLON then .error ExpectedSemicolon
    else .ok (node, p.advance)

/-- The function `Parser::parse`.  Every turn of a parsing loop consumes at least two characters
of the source, so its length bounds the number of turns. -/
def Parser.parse (p : Parser) : Except Failure (ASTNode × Parser) :=
  p.parseStatement p.lexer.input.length

/-! ## Code generator -/

/-- The function `CodeGenerator::generate`: the lines passed to `emit`, in order, and the
failure that ended the call, if any.  The three cases are `children.empty()`,
a single child (where `children[1]` is out of bounds after `children[0]` has been
generated), and at least two children. -/
def CodeGenerator.generate : ASTNode → List (List Char) × Option Failure
  | .mk value [] => (["LOAD ".toList ++ value], none)
  | .mk _ [left] =>
    match CodeGenerator.generate left with
    | (out0, some e) => (out0, some e)
    | (out0, none) => (out0, some Failure.out_of_bounds)
  | .mk value (left :: right :: _) =>
    match CodeGenerator.generate left with
    | (out0, some e) => (out0, some e)
    | (out0, none) =>
      match CodeGenerator.generate right with
      | (out1, some e) => (out0 ++ out1, some e)
      | (out1, none) =>
        if value = "+".toList then (out0 ++ out1 ++ ["ADD".toList], none)
        else if value = "-".toList then (out0 ++ out1 ++ ["SUB".toList], none)
        else if value = "*".toList then (out0 ++ out1 ++ ["MUL".toList], none)
        else if value = "/".toList then (out0 ++ out1 ++ ["DIV".toList], none)
        else (out0 ++ out1, some (UnknownOperator value))

/-! ## Driver -/

/-- The body of `main` for a given `input`, up to printing: the instruction lines
emitted and the exception caught, if any. -/
def compile (input : List Char) : List (List Char) × Option Failure :=
  match (Parser.new ⟨input, 0⟩).parse with
  | .error e => ([], some e)
  | .ok (ast, _) => CodeGenerator.generate ast

/-! ## The token sequence of a source -/

/-- Repeated `getNextToken` up to, and without, the first `END_OF_FILE`. -/
def Lexer.tokensAux : Nat → Lexer → List Token
  | 0, _ => []
  | fuel + 1, lx =>
    if lx.getNextToken.1.type = TokenType.END_OF_FILE then []
    else lx.getNextToken.1 :: Lexer.tokensAux fuel lx.getNextToken.2

/-- The tokens that successive calls of `getNextToken` return before the first
`END_OF_FILE`.  A token other than `END_OF_FILE` moves the cursor forward, so
there are at most as many as characters are left. -/
def Lexer.tokens (lx : Lexer) : List Token :=
  Lexer.tokensAux (lx.input.length - lx.position) lx

/-- The token sequence of a source text. -/
def tokenize (input : List Char) : List Token :=
  Lexer.tokens ⟨input, 0⟩

/-! ## Lexing, read off the unread part of the input -/

/-- What `getNextToken` does, as a function of the unread characters: the token
and the number of characters consumed. -/
def scan (s : List Char) : Token × Nat :=
  let ws := (s.takeWhile isspace).length
  match s.dropWhile isspace with
  | [] => (⟨TokenType.END_OF_FILE, []⟩, ws)
  | c :: r =>
    if isalpha c then
      (⟨TokenType.IDENTIFIER, (c :: r).takeWhile isalnum⟩, ws + ((c :: r).takeWhile isalnum).length)
    else if isdigit c then
      (⟨TokenType.NUMBER, (c :: r).takeWhile isdigit⟩, ws + ((c :: r).takeWhile isdigit).length)
    else (singleCharToken c, ws + 1)

/-! ## Parsing, read off the token sequence

The same five procedures as `Parser`, run on the list of the tokens still to be
read (lookahead first) instead of on a lexer.  `peek` is the lookahead; past the
end of the list it is the `END_OF_FILE` token. -/

/-- The lookahead of a token list. -/
def peek (ts : List Token) : Token :=
  ts.headD ⟨TokenType.END_OF_FILE, []⟩

/-- The function `Parser::parseFactor` on a token list. -/
def factorL (ts : List Token) : Except Failure (ASTNode × List Token) :=
  if (peek ts).type = TokenType.NUMBER ∨ (peek ts).type = TokenType.IDENTIFIER then
    .ok (ASTNode.mk (peek ts).value [], ts.tail)
  else
    .error (UnexpectedToken (peek ts).value)

/-- The loop of `Parser::parseTerm` on a token list. -/
def termLoopL : Nat → ASTNode → List Token → Except Failure (ASTNode × List Token)
  | fuel, node, ts =>
    if (peek ts).type = TokenType.MULT ∨ (peek ts).type = TokenType.DIV then
      match fuel with
      | 0 => .error Failure.out_of_fuel
      | fuel + 1 =>
        match factorL ts.tail with
        | .error e => .error e
        | .ok (rhs, ts1) => termLoopL fuel (ASTNode.mk (peek ts).value [node, rhs]) ts1
    else .ok (node, ts)

/-- The function `Parser::parseTerm` on a token list. -/
def termL (fuel : Nat) (ts : List Token) : Except Failure (ASTNode × List Token) :=
  match factorL ts with
  | .error e => .error e
  | .ok (node, ts1) => termLoopL fuel node ts1

/-- The loop of `Parser::parseExpression` on a token list. -/
def expressionLoopL : Nat → ASTNode → List Token → Except Failure (ASTNode × List Token)
  | fuel, node, ts =>
    if (peek ts).type = TokenType.PLUS ∨ (peek ts).type = TokenType.MINUS then
      match fuel with
      | 0 => .error Failure.out_of_fuel
      | fuel + 1 =>
        match termL fuel ts.tail with
        | .error e => .error e
        | .ok (rhs, ts1) => expressionLoopL fuel (ASTNode.mk (peek ts).value [node, rhs]) ts1
    else .ok (node, ts)

/-- The function `Parser::parseExpression` on a token list. -/
def expressionL (fuel : Nat) (ts : List Token) : Except Failure (ASTNode × List Token) :=
  match termL fuel ts with
  | .error e => .error e
  | .ok (node, ts1) => expressionLoopL fuel node ts1

/-- The function `Parser::parseStatement` on a token list. -/
def statementL (fuel : Nat) (ts : List Token) : Except Failure (ASTNode × List Token) :=
  match expressionL fuel ts with
  | .error e => .error e
  | .ok (node, ts1) =>
    if (peek ts1).type ≠ TokenType.SEMICOLON then .error ExpectedSemicolon
    else .ok (node, ts1.tail)

/-- A parser state stands for a token list: the lookahead is its head, the lexer
yields its tail, and `END_OF_FILE` is not in it. -/
def Rep (p : Parser) (ts : List Token) : Prop :=
  p.currentToken = peek ts ∧ p.lexer.tokens = ts.tail ∧
    ∀ t ∈ ts, t.type ≠ TokenType.END_OF_FILE

/-- Two results agree: the same failure, or the same tree in corresponding states. -/
def Sim : Except Failure (ASTNode × Parser) → Except Failure (ASTNode × List Token) → Prop
  | .error e, .error e1 => e = e1
  | .ok (n, p), .ok (n1, ts) => n = n1 ∧ Rep p ts
  | _, _ => False

/-! ## Vocabulary of the specification -/

/-- An operand token: `Identifier` or `Number`. -/
def Token.isOperand (t : Token) : Bool :=
  decide (t.type = TokenType.IDENTIFIER ∨ t.type = TokenType.NUMBER)

/-- A multiplicative operator token: `Mult` or `Div`. -/
def Token.isMulDiv (t : Token) : Bool :=
  decide (t.type = TokenType.MULT ∨ t.type = TokenType.DIV)

/-- An additive operator token: `Plus` or `Minus`. -/
def Token.isAddSub (t : Token) : Bool :=
  decide (t.type = TokenType.PLUS ∨ t.type = TokenType.MINUS)

/-- A binary operator token: `Plus`, `Minus`, `Mult` or `Div`. -/
def Token.isBinop (t : Token) : Bool :=
  t.isAddSub || t.isMulDiv

/-- One of the four operator symbols `+`, `-`, `*`, `/`. -/
def isOperatorSymbol (v : List Char) : Bool :=
  decide (v = ['+'] ∨ v = ['-'] ∨ v = ['*'] ∨ v = ['/'])

/-- The text of an operator token is the symbol of its type, as the lexer makes it. -/
def Token.WellLexed (t : Token) : Prop :=
  (t.type = TokenType.PLUS → t.value = ['+']) ∧ (t.type = TokenType.MINUS → t.value = ['-']) ∧
  (t.type = TokenType.MULT → t.value = ['*']) ∧ (t.type = TokenType.DIV → t.value = ['/'])

/-- The token form `operand (binop operand)*`. -/
inductive OperandChain : List Token → Prop where
  | single (t : Token) : t.isOperand = true → OperandChain [t]
  | cons (t o : Token) (rest : List Token) :
      t.isOperand = true → o.isBinop = true → OperandChain rest → OperandChain (t :: o :: rest)

/-- The token sequence begins with a prefix `operand (binop operand)* Semicolon`. -/
def BeginsWithStatement (ts : List Token) : Prop :=
  ∃ chain semi rest, OperandChain chain ∧ semi.type = TokenType.SEMICOLON ∧
    ts = chain ++ semi :: rest

/-- Recognises `(binop operand)* Semicolon` at the head of a token list. -/
def afterOperand : List Token → Bool
  | [] => false
  | [t] => decide (t.type = TokenType.SEMICOLON)
  | t :: f :: ts =>
    if t.type = TokenType.SEMICOLON then true
    else t.isBinop && f.isOperand && afterOperand ts

/-- Recognises `operand (binop operand)* Semicolon` at the head of a token list. -/
def beginsStatement : List Token → Bool
  | [] => false
  | t :: ts => t.isOperand && afterOperand ts

/-- The tree `node` is a reading of the tokens `ts`: a leaf for an operand token,
an operator node over the readings of what stands left and right of an operator
token. -/
inductive Parses : ASTNode → List Token → Prop where
  | leaf (t : Token) : t.isOperand = true → Parses (ASTNode.mk t.value []) [t]
  | node (o : Token) (l r : ASTNode) (cl cr : List Token) :
      o.isBinop = true → isOperatorSymbol o.value = true → Parses l cl → Parses r cr →
      Parses (ASTNode.mk o.value [l, r]) (cl ++ o :: cr)

/-- The tokens before the first `Semicolon` token. -/
def beforeSemicolon (ts : List Token) : List Token :=
  ts.takeWhile (fun t => decide (t.type ≠ TokenType.SEMICOLON))

/-- The line `LOAD <text>`. -/
def LOAD (text : List Char) : List Char :=
  "LOAD ".toList ++ text

/-- The instruction of an operator character. -/
def instr (op : Char) : List Char :=
  if op = '+' then "ADD".toList
  else if op = '-' then "SUB".toList
  else if op = '*' then "MUL".toList
  else "DIV".toList

/-- The text a `LOAD` line carries; `none` for a line that is not a `LOAD`. -/
def loadText (line : List Char) : Option (List Char) :=
  if line.take 5 = "LOAD ".toList then some (line.drop 5) else none

/-- A `LOAD` line. -/
def isLoad (line : List Char) : Bool :=
  (loadText line).isSome

/-- One of the lines `ADD`, `SUB`, `MUL`, `DIV`. -/
def isOperatorLine (line : List Char) : Bool :=
  decide (line = "ADD".toList ∨ line = "SUB".toList ∨ line = "MUL".toList ∨ line = "DIV".toList)

/-- One step of the stack machine on the stack depth: `LOAD` pushes, an operator
needs two values and leaves one; anything else is not an instruction. -/
def stackStep (depth : Nat) (line : List Char) : Option Nat :=
  if isLoad line then some (depth + 1)
  else if isOperatorLine line then (if 2 ≤ depth then some (depth - 1) else none)
  else none

/-- The stack depth after running the lines from the given depth; `none` when
an operator finds fewer than two values. -/
def stackRun : List (List Char) → Nat → Option Nat
  | [], depth => some depth
  | line :: rest, depth =>
    match stackStep depth line with
    | some d => stackRun rest d
    | none => none

/-- An operand text: a non-empty digit string, or a letter followed by letters
and digits. -/
def isOperandText : List Char → Bool
  | [] => false
  | c :: r => (isdigit c && r.all isdigit) || (isalpha c && r.all isalnum)

/-- The token the lexer makes of an operand text. -/
def operandToken (a : List Char) : Token :=
  ⟨if a.head?.any isalpha then TokenType.IDENTIFIER else TokenType.NUMBER, a⟩

mutual
/-- Every node with children, anywhere in the tree, carries one of the operator
symbols `+`, `-`, `*`, `/`. -/
def ASTNode.operatorsKnown : ASTNode → Bool
  | .mk value children =>
    (children.isEmpty || isOperatorSymbol value) && ASTNode.operatorsKnownAll children
/-- All trees of a child list satisfy `operatorsKnown`. -/
def ASTNode.operatorsKnownAll : List ASTNode → Bool
  | [] => true
  | c :: cs => c.operatorsKnown && ASTNode.operatorsKnownAll cs
end

/-- The instruction line of an operator symbol. -/
def instrOfSymbol (value : List Char) : List Char :=
  match value with
  | [op] => instr op
  | _ => []

/-- The lexer after `n` calls of `getNextToken`. -/
def Lexer.calls : Nat → Lexer → Lexer
  | 0, lx => lx
  | n + 1, lx => Lexer.calls n lx.getNextToken.2

/-- The token types of the `switch` of `getNextToken`: the six single-character
tokens and `Unknown`. -/
def TokenType.isSingleChar (t : TokenType) : Bool :=
  decide (t = TokenType.ASSIGN ∨ t = TokenType.PLUS ∨ t = TokenType.MINUS ∨
    t = TokenType.MULT ∨ t = TokenType.DIV ∨ t = TokenType.SEMICOLON ∨ t = TokenType.UNKNOWN)

mutual
/-- Every node of the tree has no child or exactly two children. -/
def ASTNode.arityOk : ASTNode → Bool
  | .mk _ children =>
    (decide (children.length = 0) || decide (children.length = 2)) &&
      ASTNode.arityOkAll children
/-- All trees of a child list satisfy `arityOk`. -/
def ASTNode.arityOkAll : List ASTNode → Bool
  | [] => true
  | c :: cs => c.arityOk && ASTNode.arityOkAll cs
end

/-- A well-formed tree: a leaf, or an operator symbol over two well-formed trees. -/
inductive WellFormed : ASTNode → Prop where
  | leaf (value : List Char) : WellFormed (ASTNode.mk value [])
  | node (value : List Char) (l r : ASTNode) :
      isOperatorSymbol value = true → WellFormed l → WellFormed r →
      WellFormed (ASTNode.mk value [l, r])

/-- What `emit` writes to `cout` for one instruction: the line and `endl`. -/
def emit (instruction : List Char) : List Char :=
  instruction ++ [Char.ofNat 10]

/-- The text on `cout` after the given lines have been emitted. -/
def printed (lines : List (List Char)) : List Char :=
  lines.foldr (fun line text => emit line ++ text) []

/-! ## The parser object after a call

A `throw` leaves the members of the `Parser` object as they are.  The procedures
below are the five procedures of `Parser` once more, returning the state of the
object in every case, so that the lookahead at the point of a failure can be
read off. -/

/-- The function `Parser::parseFactor`, with the parser state it leaves. -/
def Parser.runFactor (p : Parser) : Parser × Except Failure ASTNode :=
  if p.currentToken.type = TokenType.NUMBER ∨ p.currentToken.type = TokenType.IDENTIFIER then
    (p.advance, .ok (ASTNode.mk p.currentToken.value []))
  else
    (p, .error (UnexpectedToken p.currentToken.value))

/-- The loop of `Parser::parseTerm`, with the parser state it leaves. -/
def Parser.runTermLoop : Nat → ASTNode → Parser → Parser × Except Failure ASTNode
  | fuel, node, p =>
    if p.currentToken.type = TokenType.MULT ∨ p.currentToken.type = TokenType.DIV then
      match fuel with
      | 0 => (p, .error Failure.out_of_fuel)
      | fuel + 1 =>
        match p.advance.runFactor with
        | (p1, .error e) => (p1, .error e)
        | (p1, .ok rhs) =>
          Parser.runTermLoop fuel (ASTNode.mk p.currentToken.value [node, rhs]) p1
    else (p, .ok node)

/-- The function `Parser::parseTerm`, with the parser state it leaves. -/
def Parser.runTerm (fuel : Nat) (p : Parser) : Parser × Except Failure ASTNode :=
  match p.runFactor with
  | (p1, .error e) => (p1, .error e)
  | (p1, .ok node) => Parser.runTermLoop fuel node p1

/-- The loop of `Parser::parseExpression`, with the parser state it leaves. -/
def Parser.runExpressionLoop : Nat → ASTNode → Parser → Parser × Except Failure ASTNode
  | fuel, node, p =>
    if p.currentToken.type = TokenType.PLUS ∨ p.currentToken.type = TokenType.MINUS then
      match fuel with
      | 0 => (p, .error Failure.out_of_fuel)
      | fuel + 1 =>
        match p.advance.runTerm fuel with
        | (p1, .error e) => (p1, .error e)
        | (p1, .ok rhs) =>
          Parser.runExpressionLoop fuel (ASTNode.mk p.currentToken.value [node, rhs]) p1
    else (p, .ok node)

/-- The function `Parser::parseExpression`, with the parser state it leaves. -/
def Parser.runExpression (fuel : Nat) (p : Parser) : Parser × Except Failure ASTNode :=
  match p.runTerm fuel with
  | (p1, .error e) => (p1, .error e)
  | (p1, .ok node) => Parser.runExpressionLoop fuel node p1

/-- The function `Parser::parseStatement`, with the parser state it leaves. -/
def Parser.runStatement (fuel : Nat) (p : Parser) : Parser × Except Failure ASTNode :=
  match p.runExpression fuel with
  | (p1, .error e) => (p1, .error e)
  | (p1, .ok node) =>
    if p1.currentToken.type ≠ TokenType.SEMICOLON then (p1, .error ExpectedSemicolon)
    else (p1.advance, .ok node)

/-- The function `Parser::parse`, with the parser state it leaves. -/
def Parser.run (p : Parser) : Parser × Except Failure ASTNode :=
  p.runStatement p.lexer.input.length

/-- The call of `parseExpression` that `Parser::parse` makes through
`parseStatement`, with the parser state it leaves. -/
def Parser.runExpressionOfParse (p : Parser) : Parser × Except Failure ASTNode :=
  p.runExpression p.lexer.input.length

/-- The result of a call without the state left after a failure. -/
def toExcept : Parser × Except Failure ASTNode → Except Failure (ASTNode × Parser)
  | (p, .ok node) => .ok (node, p)
  | (_, .error e) => .error e

/-! # Lemmas -/

theorem drop_length_takeWhile (p : Char → Bool) (s : List Char) :
    s.drop (s.takeWhile p).length = s.dropWhile p := by
  induction s with
  | nil => simp
  | cons c s ih =>
    by_cases h : p c = true
    · simp [List.takeWhile_cons, List.dropWhile_cons, h, ih]
    · simp [List.takeWhile_cons, List.dropWhile_cons, h]

theorem length_takeWhile_le (p : Char → Bool) (s : List Char) :
    (s.takeWhile p).length ≤ s.length := by
  induction s with
  | nil => simp
  | cons c s ih =>
    by_cases h : p c = true
    · simp [List.takeWhile_cons, h, ih]
    · simp [List.takeWhile_cons, h]

theorem getElem?_eq_none_drop {input : List Char} {pos : Nat} (h : input[pos]? = none) :
    input.drop pos = [] := by
  apply List.drop_of_length_le
  by_contra hc
  rw [List.getElem?_eq_getElem (by omega)] at h
  exact absurd h (by simp)

theorem getElem?_eq_some_drop {input : List Char} {pos : Nat} {c : Char}
    (h : input[pos]? = some c) : input.drop pos = c :: input.drop (pos + 1) := by
  obtain ⟨hlt, hc⟩ := List.getElem?_eq_some.1 h
  rw [List.drop_eq_getElem_cons hlt, hc]

theorem skipWhitespaceLoop_eq (input : List Char) :
    ∀ (fuel pos : Nat), input.length - pos ≤ fuel →
      Lexer.skipWhitespaceLoop fuel ⟨input, pos⟩
        = ⟨input, pos + ((input.drop pos).takeWhile isspace).length⟩ := by
  intro fuel
  induction fuel with
  | zero =>
    intro pos h
    have : input.drop pos = [] := List.drop_of_length_le (by omega)
    simp [Lexer.skipWhitespaceLoop, this]
  | succ fuel ih =>
    intro pos h
    unfold Lexer.skipWhitespaceLoop
    cases hc : input[pos]? with
    | none => simp [getElem?_eq_none_drop hc]
    | some c =>
      simp only []
      rw [getElem?_eq_some_drop hc]
      by_cases hs : isspace c = true
      · have hlt := (List.getElem?_eq_some.1 hc).1
        simp only [hs, if_true, List.takeWhile_cons, List.length_cons]
        rw [ih (pos + 1) (by omega)]
        simp only [Lexer.mk.injEq, true_and]
        omega
      · simp [hs, List.takeWhile_cons]

theorem tokenizeIdentifierLoop_eq (input : List Char) :
    ∀ (fuel : Nat) (result : List Char) (pos : Nat), input.length - pos ≤ fuel →
      Lexer.tokenizeIdentifierLoop fuel result ⟨input, pos⟩
        = (result ++ (input.drop pos).takeWhile isalnum,
            ⟨input, pos + ((input.drop pos).takeWhile isalnum).length⟩) := by
  intro fuel
  induction fuel with
  | zero =>
    intro result pos h
    have : input.drop pos = [] := List.drop_of_length_le (by omega)
    simp [Lexer.tokenizeIdentifierLoop, this]
  | succ fuel ih =>
    intro result pos h
    unfold Lexer.tokenizeIdentifierLoop
    cases hc : input[pos]? with
    | none => simp [getElem?_eq_none_drop hc]
    | some c =>
      simp only []
      rw [getElem?_eq_some_drop hc]
      by_cases hs : isalnum c = true
      · have hlt := (List.getElem?_eq_some.1 hc).1
        simp only [hs, if_true, List.takeWhile_cons, List.length_cons]
        rw [ih (result ++ [c]) (pos + 1) (by omega)]
        simp only [List.append_assoc, List.singleton_append, Prod.mk.injEq, Lexer.mk.injEq,
          true_and]
        omega
      · simp [hs, List.takeWhile_cons]

theorem tokenizeNumberLoop_eq (input : List Char) :
    ∀ (fuel : Nat) (result : List Char) (pos : Nat), input.length - pos ≤ fuel →
      Lexer.tokenizeNumberLoop fuel result ⟨input, pos⟩
        = (result ++ (input.drop pos).takeWhile isdigit,
            ⟨input, pos + ((input.drop pos).takeWhile isdigit).length⟩) := by
  intro fuel
  induction fuel with
  | zero =>
    intro result pos h
    have : input.drop pos = [] := List.drop_of_length_le (by omega)
    simp [Lexer.tokenizeNumberLoop, this]
  | succ fuel ih =>
    intro result pos h
    unfold Lexer.tokenizeNumberLoop
    cases hc : input[pos]? with
    | none => simp [getElem?_eq_none_drop hc]
    | some c =>
      simp only []
      rw [getElem?_eq_some_drop hc]
      by_cases hs : isdigit c = true
      · have hlt := (List.getElem?_eq_some.1 hc).1
        simp only [hs, if_true, List.takeWhile_cons, List.length_cons]
        rw [ih (result ++ [c]) (pos + 1) (by omega)]
        simp only [List.append_assoc, List.singleton_append, Prod.mk.injEq, Lexer.mk.injEq,
          true_and]
        omega
      · simp [hs, List.takeWhile_cons]

/-- The function `getNextToken` is `scan` applied to the unread characters. -/
theorem getNextToken_eq_scan (input : List Char) (pos : Nat) :
    Lexer.getNextToken ⟨input, pos⟩
      = ((scan (input.drop pos)).1, ⟨input, pos + (scan (input.drop pos)).2⟩) := by
  unfold Lexer.getNextToken Lexer.skipWhitespace
  simp only []
  rw [skipWhitespaceLoop_eq input _ pos (le_refl _)]
  simp only []
  have hd : input.drop (pos + ((input.drop pos).takeWhile isspace).length)
      = (input.drop pos).dropWhile isspace := by
    rw [← List.drop_drop, drop_length_takeWhile]
  unfold scan
  simp only []
  cases hw : (input.drop pos).dropWhile isspace with
  | nil =>
    rw [hw] at hd
    have : input[pos + ((input.drop pos).takeWhile isspace).length]? = none := by
      rw [← List.head?_drop, hd]; rfl
    simp [this]
  | cons c r =>
    rw [hw] at hd
    have : input[pos + ((input.drop pos).takeWhile isspace).length]? = some c := by
      rw [← List.head?_drop, hd]; rfl
    simp only [this]
    by_cases ha : isalpha c = true
    · simp only [ha, if_true]
      unfold Lexer.tokenizeIdentifier
      simp only []
      rw [tokenizeIdentifierLoop_eq input _ [] _ (le_refl _), hd]
      simp [Nat.add_assoc]
    · by_cases hg : isdigit c = true
      · simp only [ha, hg, if_true]
        unfold Lexer.tokenizeNumber
        simp only []
        rw [tokenizeNumberLoop_eq input _ [] _ (le_refl _), hd]
        simp [Nat.add_assoc]
      · simp [ha, hg, Nat.add_assoc]

/-! ## Facts about `scan` -/

theorem singleCharToken_type_ne_eof (c : Char) :
    (singleCharToken c).type ≠ TokenType.END_OF_FILE := by
  unfold singleCharToken
  repeat' split
  all_goals simp

theorem scan_nil : scan [] = (⟨TokenType.END_OF_FILE, []⟩, 0) := by
  simp [scan]

/-- The function `scan` returns `END_OF_FILE` exactly when only whitespace is left, and then the
token text is empty and all of the input is consumed. -/
theorem scan_eof {s : List Char} (h : (scan s).1.type = TokenType.END_OF_FILE) :
    (scan s).1 = ⟨TokenType.END_OF_FILE, []⟩ ∧ s.drop (scan s).2 = [] := by
  unfold scan at h ⊢
  simp only [] at h ⊢
  have hd := drop_length_takeWhile isspace s
  cases hw : s.dropWhile isspace with
  | nil => rw [hw] at hd; simp [hd]
  | cons c r =>
    rw [hw] at h
    simp only [] at h
    by_cases ha : isalpha c = true
    · simp [ha] at h
    · by_cases hg : isdigit c = true
      · simp [ha, hg] at h
      · simp only [ha, hg, if_false, Bool.false_eq_true] at h
        exact absurd h (singleCharToken_type_ne_eof c)

/-- A token other than `END_OF_FILE` consumes at least one character, and no
more than there are. -/
theorem scan_consumed {s : List Char} (h : (scan s).1.type ≠ TokenType.END_OF_FILE) :
    0 < (scan s).2 ∧ (scan s).2 ≤ s.length := by
  unfold scan at h ⊢
  simp only [] at h ⊢
  have hd := drop_length_takeWhile isspace s
  have hlen : ((s.takeWhile isspace).length) + (s.dropWhile isspace).length = s.length := by
    rw [← List.length_append, List.takeWhile_append_dropWhile]
  cases hw : s.dropWhile isspace with
  | nil => rw [hw] at h; simp at h
  | cons c r =>
    rw [hw] at hlen
    simp only [List.length_cons] at hlen
    simp only []
    by_cases ha : isalpha c = true
    · have hn : isalnum c = true := by simp [isalnum, ha]
      have := length_takeWhile_le isalnum r
      simp only [ha, if_true, List.takeWhile_cons, hn, List.length_cons]
      omega
    · by_cases hg : isdigit c = true
      · have := length_takeWhile_le isdigit r
        simp only [ha, hg, if_true, if_false, Bool.false_eq_true, List.takeWhile_cons,
          List.length_cons]
        omega
      · simp only [ha, hg, if_false, Bool.false_eq_true]
        omega

/-! ## Facts about the token sequence -/

theorem tokensAux_congr : ∀ (fuel fuel1 : Nat) (input input1 : List Char) (pos pos1 : Nat),
    input.drop pos = input1.drop pos1 → input.length - pos ≤ fuel →
    input1.length - pos1 ≤ fuel1 →
    Lexer.tokensAux fuel ⟨input, pos⟩ = Lexer.tokensAux fuel1 ⟨input1, pos1⟩ := by
  intro fuel
  induction fuel with
  | zero =>
    intro fuel1 input input1 pos pos1 hd h h1
    have hnil : input.drop pos = [] := List.drop_of_length_le (by omega)
    cases fuel1 with
    | zero => rfl
    | succ fuel1 =>
      simp only [Lexer.tokensAux, getNextToken_eq_scan, ← hd, hnil, scan_nil, if_true]
  | succ fuel ih =>
    intro fuel1 input input1 pos pos1 hd h h1
    by_cases he : (scan (input.drop pos)).1.type = TokenType.END_OF_FILE
    · cases fuel1 with
      | zero => simp [Lexer.tokensAux, getNextToken_eq_scan, he]
      | succ fuel1 => simp [Lexer.tokensAux, getNextToken_eq_scan, ← hd, he]
    · have hc := scan_consumed he
      have hl : (input.drop pos).length = input.length - pos := List.length_drop _ _
      have hl1 : (input1.drop pos1).length = input1.length - pos1 := List.length_drop _ _
      cases fuel1 with
      | zero =>
        rw [hd] at hc
        omega
      | succ fuel1 =>
        simp only [Lexer.tokensAux, getNextToken_eq_scan, ← hd, he, if_false]
        congr 1
        apply ih
        · rw [← List.drop_drop, ← List.drop_drop, hd]
        · omega
        · rw [hd] at hl; omega

theorem tokens_eq_tokenize (lx : Lexer) : lx.tokens = tokenize (lx.input.drop lx.position) := by
  unfold tokenize Lexer.tokens
  apply tokensAux_congr
  · simp
  · exact le_refl _
  · simp

/-- The token sequence unfolds one `scan` at a time. -/
theorem tokenize_unfold (s : List Char) :
    tokenize s = if (scan s).1.type = TokenType.END_OF_FILE then []
      else (scan s).1 :: tokenize (s.drop (scan s).2) := by
  by_cases he : (scan s).1.type = TokenType.END_OF_FILE
  · simp only [he, if_true]
    unfold tokenize Lexer.tokens
    cases hn : s.length - 0 with
    | zero => rfl
    | succ n => simp [Lexer.tokensAux, getNextToken_eq_scan, he]
  · simp only [he, if_false]
    have hc := scan_consumed he
    conv_lhs => unfold tokenize Lexer.tokens
    cases hn : s.length - 0 with
    | zero => omega
    | succ n =>
      simp only [Lexer.tokensAux, getNextToken_eq_scan, List.drop_zero, he, if_false, zero_add]
      congr 1
      unfold tokenize Lexer.tokens
      apply tokensAux_congr
      · simp
      · show s.length - _ ≤ n; omega
      · exact le_refl _

theorem tokenize_nil : tokenize [] = [] := by
  rw [tokenize_unfold]; simp [scan_nil]

theorem tokenize_no_eof (s : List Char) : ∀ t ∈ tokenize s, t.type ≠ TokenType.END_OF_FILE := by
  generalize h : s.length = n
  induction n using Nat.strong_induction_on generalizing s with
  | _ n ih =>
    rw [tokenize_unfold]
    by_cases he : (scan s).1.type = TokenType.END_OF_FILE
    · simp [he]
    · have hc := scan_consumed he
      intro t ht
      simp only [he, if_false, List.mem_cons] at ht
      rcases ht with rfl | ht
      · exact he
      · exact ih _ (by simp only [List.length_drop]; omega) _ rfl t ht

theorem tokenize_length_le (s : List Char) : (tokenize s).length ≤ s.length := by
  generalize h : s.length = n
  induction n using Nat.strong_induction_on generalizing s with
  | _ n ih =>
    rw [tokenize_unfold]
    by_cases he : (scan s).1.type = TokenType.END_OF_FILE
    · simp [he]
    · have hc := scan_consumed he
      simp only [he, if_false, List.length_cons]
      have := ih _ (by simp only [List.length_drop]; omega) (s.drop (scan s).2) rfl
      simp only [List.length_drop] at this
      omega

/-! ## The parser reads the token sequence -/

theorem getNextToken_input (lx : Lexer) : lx.getNextToken.2.input = lx.input := by
  cases lx with
  | mk input pos => rw [getNextToken_eq_scan]

theorem getNextToken_tokens (lx : Lexer) :
    lx.tokens = if lx.getNextToken.1.type = TokenType.END_OF_FILE then []
      else lx.getNextToken.1 :: lx.getNextToken.2.tokens := by
  cases lx with
  | mk input pos =>
    rw [tokens_eq_tokenize, tokenize_unfold, getNextToken_eq_scan, tokens_eq_tokenize]
    simp only [List.drop_drop]

theorem Rep_of_getNextToken (lx : Lexer) :
    Rep ⟨lx.getNextToken.2, lx.getNextToken.1⟩ lx.tokens := by
  have hne := tokenize_no_eof (lx.input.drop lx.position)
  rw [← tokens_eq_tokenize] at hne
  have hu := getNextToken_tokens lx
  by_cases he : lx.getNextToken.1.type = TokenType.END_OF_FILE
  · simp only [he, if_true] at hu
    cases lx with
    | mk input pos =>
      rw [getNextToken_eq_scan] at he ⊢
      simp only [] at he
      obtain ⟨h1, h2⟩ := scan_eof he
      refine ⟨?_, ?_, ?_⟩
      · rw [hu]; exact h1
      · rw [hu, tokens_eq_tokenize]
        show tokenize (List.drop (pos + (scan (List.drop pos input)).2) input) = []
        rw [← List.drop_drop, h2, tokenize_nil]
      · rw [hu]; simp
  · simp only [he, if_false] at hu
    refine ⟨?_, ?_, hne⟩
    · rw [hu]; rfl
    · rw [hu]; rfl

theorem Rep_new (input : List Char) : Rep (Parser.new ⟨input, 0⟩) (tokenize input) := by
  have := Rep_of_getNextToken ⟨input, 0⟩
  rw [tokens_eq_tokenize] at this
  exact this

theorem Rep_advance {p : Parser} {ts : List Token} (h : Rep p ts) : Rep p.advance ts.tail := by
  have := Rep_of_getNextToken p.lexer
  rw [h.2.1] at this
  exact this

theorem advance_input (p : Parser) : p.advance.lexer.input = p.lexer.input :=
  getNextToken_input p.lexer

theorem sim_factor {p : Parser} {ts : List Token} (h : Rep p ts) :
    Sim p.parseFactor (factorL ts) := by
  unfold Parser.parseFactor factorL
  rw [h.1]
  split
  · exact ⟨rfl, Rep_advance h⟩
  · rfl

theorem sim_termLoop : ∀ (fuel : Nat) (node : ASTNode) (p : Parser) (ts : List Token),
    Rep p ts → Sim (Parser.parseTermLoop fuel node p) (termLoopL fuel node ts) := by
  intro fuel
  induction fuel with
  | zero =>
    intro node p ts h
    unfold Parser.parseTermLoop termLoopL
    rw [h.1]
    split
    · rfl
    · exact ⟨rfl, h⟩
  | succ fuel ih =>
    intro node p ts h
    unfold Parser.parseTermLoop termLoopL
    rw [h.1]
    split
    · have hf := sim_factor (Rep_advance h)
      simp only []
      cases h1 : p.advance.parseFactor with
      | error e =>
        cases h2 : factorL ts.tail with
        | error e1 => rw [h1, h2] at hf; exact hf
        | ok r => rw [h1, h2] at hf; exact absurd hf (by simp [Sim])
      | ok r =>
        cases h2 : factorL ts.tail with
        | error e1 => rw [h1, h2] at hf; exact absurd hf (by simp [Sim])
        | ok r1 =>
          rw [h1, h2] at hf
          obtain ⟨hn, hr⟩ := hf
          simp only []
          rw [hn]
          exact ih _ _ _ hr
    · exact ⟨rfl, h⟩

theorem sim_term (fuel : Nat) {p : Parser} {ts : List Token} (h : Rep p ts) :
    Sim (p.parseTerm fuel) (termL fuel ts) := by
  unfold Parser.parseTerm termL
  have hf := sim_factor h
  cases h1 : p.parseFactor with
  | error e =>
    cases h2 : factorL ts with
    | error e1 => rw [h1, h2] at hf; exact hf
    | ok r => rw [h1, h2] at hf; exact absurd hf (by simp [Sim])
  | ok r =>
    cases h2 : factorL ts with
    | error e1 => rw [h1, h2] at hf; exact absurd hf (by simp [Sim])
    | ok r1 =>
      rw [h1, h2] at hf
      obtain ⟨hn, hr⟩ := hf
      simp only []
      rw [hn]
      exact sim_termLoop _ _ _ _ hr

theorem sim_expressionLoop : ∀ (fuel : Nat) (node : ASTNode) (p : Parser) (ts : List Token),
    Rep p ts → Sim (Parser.parseExpressionLoop fuel node p) (expressionLoopL fuel node ts) := by
  intro fuel
  induction fuel with
  | zero =>
    intro node p ts h
    unfold Parser.parseExpressionLoop expressionLoopL
    rw [h.1]
    split
    · rfl
    · exact ⟨rfl, h⟩
  | succ fuel ih =>
    intro node p ts h
    unfold Parser.parseExpressionLoop expressionLoopL
    rw [h.1]
    split
    · have hf := sim_term fuel (Rep_advance h)
      simp only []
      cases h1 : p.advance.parseTerm fuel with
      | error e =>
        cases h2 : termL fuel ts.tail with
        | error e1 => rw [h1, h2] at hf; exact hf
        | ok r => rw [h1, h2] at hf; exact absurd hf (by simp [Sim])
      | ok r =>
        cases h2 : termL fuel ts.tail with
        | error e1 => rw [h1, h2] at hf; exact absurd hf (by simp [Sim])
        | ok r1 =>
          rw [h1, h2] at hf
          obtain ⟨hn, hr⟩ := hf
          simp only []
          rw [hn]
          exact ih _ _ _ hr
    · exact ⟨rfl, h⟩

theorem sim_expression (fuel : Nat) {p : Parser} {ts : List Token} (h : Rep p ts) :
    Sim (p.parseExpression fuel) (expressionL fuel ts) := by
  unfold Parser.parseExpression expressionL
  have hf := sim_term fuel h
  cases h1 : p.parseTerm fuel with
  | error e =>
    cases h2 : termL fuel ts with
    | error e1 => rw [h1, h2] at hf; exact hf
    | ok r => rw [h1, h2] at hf; exact absurd hf (by simp [Sim])
  | ok r =>
    cases h2 : termL fuel ts with
    | error e1 => rw [h1, h2] at hf; exact absurd hf (by simp [Sim])
    | ok r1 =>
      rw [h1, h2] at hf
      obtain ⟨hn, hr⟩ := hf
      simp only []
      rw [hn]
      exact sim_expressionLoop _ _ _ _ hr

theorem sim_statement (fuel : Nat) {p : Parser} {ts : List Token} (h : Rep p ts) :
    Sim (p.parseStatement fuel) (statementL fuel ts) := by
  unfold Parser.parseStatement statementL
  have hf := sim_expression fuel h
  cases h1 : p.parseExpression fuel with
  | error e =>
    cases h2 : expressionL fuel ts with
    | error e1 => rw [h1, h2] at hf; exact hf
    | ok r => rw [h1, h2] at hf; exact absurd hf (by simp [Sim])
  | ok r =>
    cases h2 : expressionL fuel ts with
    | error e1 => rw [h1, h2] at hf; exact absurd hf (by simp [Sim])
    | ok r1 =>
      rw [h1, h2] at hf
      obtain ⟨hn, hr⟩ := hf
      simp only []
      rw [hn, hr.1]
      split
      · rfl
      · exact ⟨rfl, Rep_advance hr⟩

/-- The function `Parser::parse` on a freshly constructed parser is `statementL` on the token
sequence of the source. -/
theorem sim_parse (input : List Char) :
    Sim (Parser.new ⟨input, 0⟩).parse (statementL input.length (tokenize input)) := by
  unfold Parser.parse
  have : (Parser.new ⟨input, 0⟩).lexer.input.length = input.length := by
    unfold Parser.new
    simp only []
    rw [getNextToken_input]
  rw [this]
  exact sim_statement _ (Rep_new input)

theorem parse_eq_ok {input : List Char} {ast : ASTNode} {p : Parser}
    (h : (Parser.new ⟨input, 0⟩).parse = .ok (ast, p)) :
    ∃ ts, statementL input.length (tokenize input) = .ok (ast, ts) := by
  have hs := sim_parse input
  rw [h] at hs
  cases h2 : statementL input.length (tokenize input) with
  | error e => rw [h2] at hs; exact absurd hs (by simp [Sim])
  | ok r =>
    rw [h2] at hs
    exact ⟨r.2, by rw [hs.1]⟩

theorem parse_eq_error {input : List Char} {e : Failure} :
    (Parser.new ⟨input, 0⟩).parse = .error e ↔
      statementL input.length (tokenize input) = .error e := by
  have hs := sim_parse input
  constructor
  · intro h
    rw [h] at hs
    cases h2 : statementL input.length (tokenize input) with
    | error e1 => rw [h2] at hs; rw [show e = e1 from hs]
    | ok r => rw [h2] at hs; exact absurd hs (by simp [Sim])
  · intro h
    rw [h] at hs
    cases h2 : (Parser.new ⟨input, 0⟩).parse with
    | error e1 => rw [h2] at hs; rw [show e1 = e from hs]
    | ok r => rw [h2] at hs; exact absurd hs (by simp [Sim])

theorem parse_ok_of_statementL {input : List Char} {ast : ASTNode} {ts : List Token}
    (h : statementL input.length (tokenize input) = .ok (ast, ts)) :
    ∃ p, (Parser.new ⟨input, 0⟩).parse = .ok (ast, p) := by
  have hs := sim_parse input
  rw [h] at hs
  cases h2 : (Parser.new ⟨input, 0⟩).parse with
  | error e1 => rw [h2] at hs; exact absurd hs (by simp [Sim])
  | ok r =>
    rw [h2] at hs
    exact ⟨r.2, by rw [← hs.1]⟩

/-- The driver, read off the token sequence. -/
theorem compile_eq (input : List Char) :
    compile input = match statementL input.length (tokenize input) with
      | .error e => ([], some e)
      | .ok (ast, _) => CodeGenerator.generate ast := by
  unfold compile
  cases h2 : statementL input.length (tokenize input) with
  | error e => rw [parse_eq_error.2 h2]
  | ok r =>
    obtain ⟨p, hp⟩ := @parse_ok_of_statementL input r.1 r.2 h2
    rw [hp]

/-! ## What a successful list-level parse returns -/

@[simp] theorem peek_nil : peek [] = ⟨TokenType.END_OF_FILE, []⟩ := rfl

@[simp] theorem peek_cons (t : Token) (ts : List Token) : peek (t :: ts) = t := rfl

theorem afterOperand_cons_binop {o : Token} (ho : o.isBinop = true) (ts : List Token) :
    afterOperand (o :: ts) = beginsStatement ts := by
  have hs : o.type ≠ TokenType.SEMICOLON := by
    intro h
    simp [Token.isBinop, Token.isAddSub, Token.isMulDiv, h] at ho
  cases ts with
  | nil => simp [afterOperand, beginsStatement, hs]
  | cons f r => simp [afterOperand, beginsStatement, hs, ho]

theorem afterOperand_stop {ts : List Token} (hb : (peek ts).isBinop = false)
    (hs : (peek ts).type ≠ TokenType.SEMICOLON) : afterOperand ts = false := by
  cases ts with
  | nil => rfl
  | cons t r =>
    simp only [peek_cons] at hb hs
    cases r with
    | nil => simp [afterOperand, hs]
    | cons f r => simp [afterOperand, hs, hb]

theorem isBinop_of_isMulDiv {t : Token} (h : t.isMulDiv = true) : t.isBinop = true := by
  simp [Token.isBinop, h]

theorem isBinop_of_isAddSub {t : Token} (h : t.isAddSub = true) : t.isBinop = true := by
  simp [Token.isBinop, h]

theorem isOperatorSymbol_of_wellLexed {t : Token} (hw : t.WellLexed) (hb : t.isBinop = true) :
    isOperatorSymbol t.value = true := by
  obtain ⟨h1, h2, h3, h4⟩ := hw
  simp only [Token.isBinop, Token.isAddSub, Token.isMulDiv, Bool.or_eq_true,
    decide_eq_true_eq] at hb
  rcases hb with (h | h) | (h | h)
  · simp [isOperatorSymbol, h1 h]
  · simp [isOperatorSymbol, h2 h]
  · simp [isOperatorSymbol, h3 h]
  · simp [isOperatorSymbol, h4 h]

theorem factorL_ok {ts ts1 : List Token} {n : ASTNode} (h : factorL ts = .ok (n, ts1)) :
    ∃ t, ts = t :: ts1 ∧ t.isOperand = true ∧ n = ASTNode.mk t.value [] := by
  unfold factorL at h
  cases ts with
  | nil => simp at h
  | cons t r =>
    simp only [peek_cons, List.tail_cons] at h
    split at h
    · rename_i hc
      simp only [Except.ok.injEq, Prod.mk.injEq] at h
      refine ⟨t, by rw [h.2], ?_, h.1.symm⟩
      simp only [Token.isOperand, decide_eq_true_eq]
      tauto
    · simp at h

theorem factorL_error {ts : List Token} {e : Failure} (h : factorL ts = .error e) :
    e = UnexpectedToken (peek ts).value ∧ (peek ts).isOperand = false := by
  unfold factorL at h
  split at h
  · simp at h
  · rename_i hc
    simp only [Except.error.injEq] at h
    refine ⟨h.symm, ?_⟩
    simp only [Token.isOperand, decide_eq_false_iff_not]
    tauto

theorem cons_tail_of_peek {ts : List Token} (h : (peek ts).type ≠ TokenType.END_OF_FILE) :
    ts = peek ts :: ts.tail := by
  cases ts with
  | nil => simp at h
  | cons t r => rfl

theorem termLoopL_ok : ∀ (fuel : Nat) (node : ASTNode) (ts : List Token) (n1 : ASTNode)
    (ts1 c0 : List Token), termLoopL fuel node ts = .ok (n1, ts1) →
    (∀ t ∈ ts, t.WellLexed) → Parses node c0 →
    ∃ c, ts = c ++ ts1 ∧ Parses n1 (c0 ++ c) ∧ (peek ts1).isMulDiv = false ∧
      afterOperand ts1 = afterOperand ts := by
  intro fuel
  induction fuel with
  | zero =>
    intro node ts n1 ts1 c0 h hw hp
    unfold termLoopL at h
    split at h
    · simp at h
    · rename_i hc
      simp only [Except.ok.injEq, Prod.mk.injEq] at h
      obtain ⟨rfl, rfl⟩ := h
      refine ⟨[], by simp, by simpa using hp, ?_, rfl⟩
      simpa [Token.isMulDiv] using hc
  | succ fuel ih =>
    intro node ts n1 ts1 c0 h hw hp
    unfold termLoopL at h
    split at h
    · rename_i hc
      simp only [] at h
      have hmd : (peek ts).isMulDiv = true := by simpa [Token.isMulDiv] using hc
      have hts : ts = peek ts :: ts.tail := by
        apply cons_tail_of_peek
        rcases hc with hc | hc <;> rw [hc] <;> simp
      cases hf : factorL ts.tail with
      | error e => rw [hf] at h; simp at h
      | ok r =>
        obtain ⟨rhs, ts2⟩ := r
        rw [hf] at h
        simp only [] at h
        obtain ⟨f, hf1, hf2, hf3⟩ := factorL_ok hf
        have hwo : (peek ts).WellLexed := hw _ (by rw [hts]; simp)
        have hp2 : Parses (ASTNode.mk (peek ts).value [node, rhs]) (c0 ++ peek ts :: [f]) := by
          rw [hf3]
          exact Parses.node _ _ _ _ _ (isBinop_of_isMulDiv hmd)
            (isOperatorSymbol_of_wellLexed hwo (isBinop_of_isMulDiv hmd)) hp (Parses.leaf f hf2)
        have hw2 : ∀ t ∈ ts2, t.WellLexed := by
          intro t ht
          apply hw
          rw [hts, hf1]
          simp [ht]
        obtain ⟨c, hc1, hc2, hc3, hc4⟩ := ih _ _ _ _ _ h hw2 hp2
        refine ⟨peek ts :: f :: c, ?_, ?_, hc3, ?_⟩
        · rw [hts, hf1, hc1]; simp
        · simpa using hc2
        · rw [hc4, hts, hf1, afterOperand_cons_binop (isBinop_of_isMulDiv hmd)]
          simp [beginsStatement, hf2]
    · rename_i hc
      simp only [Except.ok.injEq, Prod.mk.injEq] at h
      obtain ⟨rfl, rfl⟩ := h
      refine ⟨[], by simp, by simpa using hp, ?_, rfl⟩
      simpa [Token.isMulDiv] using hc

theorem termL_ok {fuel : Nat} {ts ts1 : List Token} {n1 : ASTNode}
    (h : termL fuel ts = .ok (n1, ts1)) (hw : ∀ t ∈ ts, t.WellLexed) :
    ∃ c, ts = c ++ ts1 ∧ Parses n1 c ∧ (peek ts1).isMulDiv = false ∧
      afterOperand ts1 = beginsStatement ts := by
  unfold termL at h
  cases hf : factorL ts with
  | error e => rw [hf] at h; simp at h
  | ok r =>
    obtain ⟨n0, ts0⟩ := r
    rw [hf] at h
    simp only [] at h
    obtain ⟨f, hf1, hf2, hf3⟩ := factorL_ok hf
    have hw0 : ∀ t ∈ ts0, t.WellLexed := by
      intro t ht
      apply hw
      rw [hf1]
      simp [ht]
    have hp0 : Parses n0 [f] := by rw [hf3]; exact Parses.leaf f hf2
    obtain ⟨c, hc1, hc2, hc3, hc4⟩ := termLoopL_ok _ _ _ _ _ _ h hw0 hp0
    refine ⟨f :: c, ?_, by simpa using hc2, hc3, ?_⟩
    · rw [hf1, hc1]; simp
    · rw [hc4, hf1]; simp [beginsStatement, hf2]

theorem expressionLoopL_ok : ∀ (fuel : Nat) (node : ASTNode) (ts : List Token) (n1 : ASTNode)
    (ts1 c0 : List Token), expressionLoopL fuel node ts = .ok (n1, ts1) →
    (∀ t ∈ ts, t.WellLexed) → Parses node c0 → (peek ts).isMulDiv = false →
    ∃ c, ts = c ++ ts1 ∧ Parses n1 (c0 ++ c) ∧ (peek ts1).isBinop = false ∧
      afterOperand ts1 = afterOperand ts := by
  intro fuel
  induction fuel with
  | zero =>
    intro node ts n1 ts1 c0 h hw hp hm
    unfold expressionLoopL at h
    split at h
    · simp at h
    · rename_i hc
      simp only [Except.ok.injEq, Prod.mk.injEq] at h
      obtain ⟨rfl, rfl⟩ := h
      refine ⟨[], by simp, by simpa using hp, ?_, rfl⟩
      have : (peek ts).isAddSub = false := by simpa [Token.isAddSub] using hc
      simp [Token.isBinop, this, hm]
  | succ fuel ih =>
    intro node ts n1 ts1 c0 h hw hp hm
    unfold expressionLoopL at h
    split at h
    · rename_i hc
      simp only [] at h
      have hmd : (peek ts).isAddSub = true := by simpa [Token.isAddSub] using hc
      have hts : ts = peek ts :: ts.tail := by
        apply cons_tail_of_peek
        rcases hc with hc | hc <;> rw [hc] <;> simp
      have hwt : ∀ t ∈ ts.tail, t.WellLexed := by
        intro t ht
        apply hw
        rw [hts]
        simp [ht]
      cases hf : termL fuel ts.tail with
      | error e => rw [hf] at h; simp at h
      | ok r =>
        obtain ⟨rhs, ts2⟩ := r
        rw [hf] at h
        simp only [] at h
        obtain ⟨cr, hr1, hr2, hr3, hr4⟩ := termL_ok hf hwt
        have hwo : (peek ts).WellLexed := hw _ (by rw [hts]; simp)
        have hp2 : Parses (ASTNode.mk (peek ts).value [node, rhs]) (c0 ++ peek ts :: cr) :=
          Parses.node _ _ _ _ _ (isBinop_of_isAddSub hmd)
            (isOperatorSymbol_of_wellLexed hwo (isBinop_of_isAddSub hmd)) hp hr2
        have hw2 : ∀ t ∈ ts2, t.WellLexed := by
          intro t ht
          apply hwt
          rw [hr1]
          simp [ht]
        obtain ⟨c, hc1, hc2, hc3, hc4⟩ := ih _ _ _ _ _ h hw2 hp2 hr3
        refine ⟨peek ts :: (cr ++ c), ?_, ?_, hc3, ?_⟩
        · rw [hts, hr1, hc1]; simp
        · simpa using hc2
        · rw [hc4, hr4, hts, afterOperand_cons_binop (isBinop_of_isAddSub hmd)]
          rfl
    · rename_i hc
      simp only [Except.ok.injEq, Prod.mk.injEq] at h
      obtain ⟨rfl, rfl⟩ := h
      refine ⟨[], by simp, by simpa using hp, ?_, rfl⟩
      have : (peek ts).isAddSub = false := by simpa [Token.isAddSub] using hc
      simp [Token.isBinop, this, hm]

theorem expressionL_ok {fuel : Nat} {ts ts1 : List Token} {n1 : ASTNode}
    (h : expressionL fuel ts = .ok (n1, ts1)) (hw : ∀ t ∈ ts, t.WellLexed) :
    ∃ c, ts = c ++ ts1 ∧ Parses n1 c ∧ (peek ts1).isBinop = false ∧
      afterOperand ts1 = beginsStatement ts := by
  unfold expressionL at h
  cases hf : termL fuel ts with
  | error e => rw [hf] at h; simp at h
  | ok r =>
    obtain ⟨n0, ts0⟩ := r
    rw [hf] at h
    simp only [] at h
    obtain ⟨c0, hr1, hr2, hr3, hr4⟩ := termL_ok hf hw
    have hw0 : ∀ t ∈ ts0, t.WellLexed := by
      intro t ht
      apply hw
      rw [hr1]
      simp [ht]
    obtain ⟨c, hc1, hc2, hc3, hc4⟩ := expressionLoopL_ok _ _ _ _ _ _ h hw0 hr2 hr3
    refine ⟨c0 ++ c, ?_, hc2, hc3, ?_⟩
    · rw [hr1, hc1]; simp
    · rw [hc4, hr4]

/-- A successful parse read a prefix `c ++ [semi]` of the tokens, and the tree
returned is a reading of `c`. -/
theorem statementL_ok {fuel : Nat} {ts ts1 : List Token} {n1 : ASTNode}
    (h : statementL fuel ts = .ok (n1, ts1)) (hw : ∀ t ∈ ts, t.WellLexed) :
    ∃ c semi, ts = c ++ semi :: ts1 ∧ semi.type = TokenType.SEMICOLON ∧ Parses n1 c ∧
      beginsStatement ts = true := by
  unfold statementL at h
  cases hf : expressionL fuel ts with
  | error e => rw [hf] at h; simp at h
  | ok r =>
    obtain ⟨n0, ts0⟩ := r
    rw [hf] at h
    simp only [] at h
    obtain ⟨c, hc1, hc2, hc3, hc4⟩ := expressionL_ok hf hw
    split at h
    · simp at h
    · rename_i hs
      simp only [ne_eq, Decidable.not_not] at hs
      simp only [Except.ok.injEq, Prod.mk.injEq] at h
      obtain ⟨rfl, rfl⟩ := h
      have hts : ts0 = peek ts0 :: ts0.tail := by
        apply cons_tail_of_peek
        rw [hs]; simp
      refine ⟨c, peek ts0, ?_, hs, hc2, ?_⟩
      · rw [← hts]; exact hc1
      · rw [← hc4, hts]
        cases ts0.tail with
        | nil => simp [afterOperand, hs]
        | cons f r => simp [afterOperand, hs]

/-! ## How a list-level parse fails -/

theorem length_le_of_append {ts c ts1 : List Token} (h : ts = c ++ ts1) :
    ts1.length ≤ ts.length := by
  rw [h]; simp

theorem termLoopL_error : ∀ (fuel : Nat) (node : ASTNode) (ts : List Token) (e : Failure),
    ts.length ≤ fuel → termLoopL fuel node ts = .error e →
    afterOperand ts = false ∧ ∃ x, e = UnexpectedToken x := by
  intro fuel
  induction fuel with
  | zero =>
    intro node ts e hl h
    have : ts = [] := List.length_eq_zero.1 (by omega)
    subst this
    simp [termLoopL] at h
  | succ fuel ih =>
    intro node ts e hl h
    unfold termLoopL at h
    split at h
    · rename_i hc
      simp only [] at h
      have hmd : (peek ts).isMulDiv = true := by simpa [Token.isMulDiv] using hc
      have hts : ts = peek ts :: ts.tail := by
        apply cons_tail_of_peek
        rcases hc with hc | hc <;> rw [hc] <;> simp
      have hlt : ts.tail.length ≤ fuel := by
        rw [hts] at hl
        simpa using hl
      rw [hts, afterOperand_cons_binop (isBinop_of_isMulDiv hmd)]
      cases hf : factorL ts.tail with
      | error e1 =>
        rw [hf] at h
        simp only [Except.error.injEq] at h
        obtain ⟨he, hno⟩ := factorL_error hf
        refine ⟨?_, _, by rw [← h, he]⟩
        cases hr : ts.tail with
        | nil => rfl
        | cons f r =>
          rw [hr] at hno
          simp only [peek_cons] at hno
          simp [beginsStatement, hno]
      | ok r =>
        obtain ⟨rhs, ts2⟩ := r
        rw [hf] at h
        simp only [] at h
        obtain ⟨f, hf1, hf2, hf3⟩ := factorL_ok hf
        have hl2 : ts2.length ≤ fuel := by
          rw [hf1] at hlt
          simp only [List.length_cons] at hlt
          omega
        obtain ⟨h1, h2⟩ := ih _ _ _ hl2 h
        refine ⟨?_, h2⟩
        rw [hf1]
        simp [beginsStatement, hf2, h1]
    · simp at h

theorem termL_error {fuel : Nat} {ts : List Token} {e : Failure} (hl : ts.length ≤ fuel)
    (h : termL fuel ts = .error e) :
    beginsStatement ts = false ∧ ∃ x, e = UnexpectedToken x := by
  unfold termL at h
  cases hf : factorL ts with
  | error e1 =>
    rw [hf] at h
    simp only [Except.error.injEq] at h
    obtain ⟨he, hno⟩ := factorL_error hf
    refine ⟨?_, _, by rw [← h, he]⟩
    cases ts with
    | nil => rfl
    | cons f r =>
      simp only [peek_cons] at hno
      simp [beginsStatement, hno]
  | ok r =>
    obtain ⟨n0, ts0⟩ := r
    rw [hf] at h
    simp only [] at h
    obtain ⟨f, hf1, hf2, hf3⟩ := factorL_ok hf
    have hl2 : ts0.length ≤ fuel := by
      rw [hf1] at hl
      simp only [List.length_cons] at hl
      omega
    obtain ⟨h1, h2⟩ := termLoopL_error _ _ _ _ hl2 h
    refine ⟨?_, h2⟩
    rw [hf1]
    simp [beginsStatement, hf2, h1]

theorem expressionLoopL_error : ∀ (fuel : Nat) (node : ASTNode) (ts : List Token) (e : Failure),
    ts.length ≤ fuel → (∀ t ∈ ts, t.WellLexed) → expressionLoopL fuel node ts = .error e →
    afterOperand ts = false ∧ ∃ x, e = UnexpectedToken x := by
  intro fuel
  induction fuel with
  | zero =>
    intro node ts e hl hw h
    have : ts = [] := List.length_eq_zero.1 (by omega)
    subst this
    simp [expressionLoopL] at h
  | succ fuel ih =>
    intro node ts e hl hw h
    unfold expressionLoopL at h
    split at h
    · rename_i hc
      simp only [] at h
      have hmd : (peek ts).isAddSub = true := by simpa [Token.isAddSub] using hc
      have hts : ts = peek ts :: ts.tail := by
        apply cons_tail_of_peek
        rcases hc with hc | hc <;> rw [hc] <;> simp
      have hlt : ts.tail.length ≤ fuel := by
        rw [hts] at hl
        simpa using hl
      have hwt : ∀ t ∈ ts.tail, t.WellLexed := by
        intro t ht
        apply hw
        rw [hts]
        simp [ht]
      rw [hts, afterOperand_cons_binop (isBinop_of_isAddSub hmd)]
      cases hf : termL fuel ts.tail with
      | error e1 =>
        rw [hf] at h
        simp only [Except.error.injEq] at h
        obtain ⟨h1, h2⟩ := termL_error hlt hf
        rw [h] at h2
        exact ⟨h1, h2⟩
      | ok r =>
        obtain ⟨rhs, ts2⟩ := r
        rw [hf] at h
        simp only [] at h
        obtain ⟨cr, hr1, hr2, hr3, hr4⟩ := termL_ok hf hwt
        have hl2 : ts2.length ≤ fuel := le_trans (length_le_of_append hr1) hlt
        have hw2 : ∀ t ∈ ts2, t.WellLexed := by
          intro t ht
          apply hwt
          rw [hr1]
          simp [ht]
        obtain ⟨h1, h2⟩ := ih _ _ _ hl2 hw2 h
        refine ⟨?_, h2⟩
        rw [← hr4, h1]
    · simp at h

theorem expressionL_error {fuel : Nat} {ts : List Token} {e : Failure} (hl : ts.length ≤ fuel)
    (hw : ∀ t ∈ ts, t.WellLexed) (h : expressionL fuel ts = .error e) :
    beginsStatement ts = false ∧ ∃ x, e = UnexpectedToken x := by
  unfold expressionL at h
  cases hf : termL fuel ts with
  | error e1 =>
    rw [hf] at h
    simp only [Except.error.injEq] at h
    obtain ⟨h1, h2⟩ := termL_error hl hf
    rw [h] at h2
    exact ⟨h1, h2⟩
  | ok r =>
    obtain ⟨n0, ts0⟩ := r
    rw [hf] at h
    simp only [] at h
    obtain ⟨c0, hr1, hr2, hr3, hr4⟩ := termL_ok hf hw
    have hl2 : ts0.length ≤ fuel := le_trans (length_le_of_append hr1) hl
    have hw0 : ∀ t ∈ ts0, t.WellLexed := by
      intro t ht
      apply hw
      rw [hr1]
      simp [ht]
    obtain ⟨h1, h2⟩ := expressionLoopL_error _ _ _ _ hl2 hw0 h
    refine ⟨?_, h2⟩
    rw [← hr4, h1]

/-- With enough fuel a failing parse is `ExpectedSemicolon` or `UnexpectedToken`,
and the tokens do not begin with a statement. -/
theorem statementL_error {fuel : Nat} {ts : List Token} {e : Failure} (hl : ts.length ≤ fuel)
    (hw : ∀ t ∈ ts, t.WellLexed) (h : statementL fuel ts = .error e) :
    beginsStatement ts = false ∧ (e = ExpectedSemicolon ∨ ∃ x, e = UnexpectedToken x) := by
  unfold statementL at h
  cases hf : expressionL fuel ts with
  | error e1 =>
    rw [hf] at h
    simp only [Except.error.injEq] at h
    obtain ⟨h1, h2⟩ := expressionL_error hl hw hf
    rw [h] at h2
    exact ⟨h1, Or.inr h2⟩
  | ok r =>
    obtain ⟨n0, ts0⟩ := r
    rw [hf] at h
    simp only [] at h
    obtain ⟨c, hc1, hc2, hc3, hc4⟩ := expressionL_ok hf hw
    split at h
    · rename_i hs
      simp only [Except.error.injEq] at h
      refine ⟨?_, Or.inl h.symm⟩
      rw [← hc4]
      exact afterOperand_stop hc3 hs
    · simp at h

/-! ## The lexer's operator tokens carry their symbol -/

theorem singleCharToken_wellLexed (c : Char) : (singleCharToken c).WellLexed := by
  unfold singleCharToken
  repeat' split
  all_goals simp [Token.WellLexed]

theorem scan_wellLexed (s : List Char) : (scan s).1.WellLexed := by
  unfold scan
  simp only []
  split
  · simp [Token.WellLexed]
  · split
    · simp [Token.WellLexed]
    · split
      · simp [Token.WellLexed]
      · exact singleCharToken_wellLexed _

theorem tokenize_wellLexed (s : List Char) : ∀ t ∈ tokenize s, t.WellLexed := by
  generalize h : s.length = n
  induction n using Nat.strong_induction_on generalizing s with
  | _ n ih =>
    rw [tokenize_unfold]
    by_cases he : (scan s).1.type = TokenType.END_OF_FILE
    · simp [he]
    · have hc := scan_consumed he
      intro t ht
      simp only [he, if_false, List.mem_cons] at ht
      rcases ht with rfl | ht
      · exact scan_wellLexed s
      · exact ih _ (by simp only [List.length_drop]; omega) _ rfl t ht

/-! ## The recogniser and the token form -/

theorem isBinop_type_ne_semicolon {o : Token} (ho : o.isBinop = true) :
    o.type ≠ TokenType.SEMICOLON := by
  intro h
  simp [Token.isBinop, Token.isAddSub, Token.isMulDiv, h] at ho

theorem beginsStatement_of_chain {chain : List Token} (hc : OperandChain chain) (semi : Token)
    (hs : semi.type = TokenType.SEMICOLON) (rest : List Token) :
    beginsStatement (chain ++ semi :: rest) = true := by
  induction hc with
  | single t ht =>
    cases rest with
    | nil => simp [beginsStatement, afterOperand, ht, hs]
    | cons f r => simp [beginsStatement, afterOperand, ht, hs]
  | cons t o rest1 ht ho _ ih =>
    simp only [List.cons_append, beginsStatement, ht, Bool.true_and]
    rw [afterOperand_cons_binop ho]
    exact ih

theorem chain_of_afterOperand : ∀ (n : Nat) (ts : List Token) (t : Token), ts.length ≤ n →
    t.isOperand = true → afterOperand ts = true →
    ∃ chain semi rest, OperandChain chain ∧ semi.type = TokenType.SEMICOLON ∧
      t :: ts = chain ++ semi :: rest := by
  intro n
  induction n with
  | zero =>
    intro ts t hl ht ha
    have : ts = [] := List.length_eq_zero.1 (by omega)
    subst this
    simp [afterOperand] at ha
  | succ n ih =>
    intro ts t hl ht ha
    cases ts with
    | nil => simp [afterOperand] at ha
    | cons o r =>
      by_cases hs : o.type = TokenType.SEMICOLON
      · exact ⟨[t], o, r, OperandChain.single t ht, hs, rfl⟩
      · cases r with
        | nil => simp [afterOperand, hs] at ha
        | cons f r1 =>
          simp only [afterOperand, hs, if_false, Bool.and_eq_true] at ha
          obtain ⟨⟨ho, hf⟩, har⟩ := ha
          have hl1 : r1.length ≤ n := by
            simp only [List.length_cons] at hl
            omega
          obtain ⟨chain, semi, rest, h1, h2, h3⟩ := ih r1 f hl1 hf har
          exact ⟨t :: o :: chain, semi, rest, OperandChain.cons t o chain ht ho h1, h2,
            by rw [h3]; rfl⟩

/-- The recogniser decides the token form of the specification. -/
theorem beginsStatement_iff (ts : List Token) :
    beginsStatement ts = true ↔ BeginsWithStatement ts := by
  constructor
  · intro h
    cases ts with
    | nil => simp [beginsStatement] at h
    | cons t r =>
      simp only [beginsStatement, Bool.and_eq_true] at h
      exact chain_of_afterOperand r.length r t (le_refl _) h.1 h.2
  · rintro ⟨chain, semi, rest, hc, hs, rfl⟩
    exact beginsStatement_of_chain hc semi hs rest

/-! ## Code generation on the trees the parser builds -/

theorem LOAD_eq (v : List Char) : LOAD v = 'L' :: 'O' :: 'A' :: 'D' :: ' ' :: v := rfl

theorem loadText_LOAD (v : List Char) : loadText (LOAD v) = some v := by
  simp [loadText, LOAD_eq]

theorem isLoad_LOAD (v : List Char) : isLoad (LOAD v) = true := by
  simp [isLoad, loadText_LOAD]

theorem isOperatorLine_LOAD (v : List Char) : isOperatorLine (LOAD v) = false := by
  simp [isOperatorLine, LOAD_eq]

theorem operatorSymbol_cases {v : List Char} (h : isOperatorSymbol v = true) :
    v = ['+'] ∨ v = ['-'] ∨ v = ['*'] ∨ v = ['/'] := by
  simpa [isOperatorSymbol] using h

theorem loadText_instrOfSymbol {v : List Char} (h : isOperatorSymbol v = true) :
    loadText (instrOfSymbol v) = none := by
  rcases operatorSymbol_cases h with rfl | rfl | rfl | rfl <;> decide

theorem isLoad_instrOfSymbol {v : List Char} (h : isOperatorSymbol v = true) :
    isLoad (instrOfSymbol v) = false := by
  simp [isLoad, loadText_instrOfSymbol h]

theorem isOperatorLine_instrOfSymbol {v : List Char} (h : isOperatorSymbol v = true) :
    isOperatorLine (instrOfSymbol v) = true := by
  rcases operatorSymbol_cases h with rfl | rfl | rfl | rfl <;> decide

theorem generate_leaf (v : List Char) :
    CodeGenerator.generate (ASTNode.mk v []) = ([LOAD v], none) := by
  rw [CodeGenerator.generate]; rfl

theorem generate_node {v : List Char} {l r : ASTNode} {outl outr : List (List Char)}
    (hv : isOperatorSymbol v = true) (hl : CodeGenerator.generate l = (outl, none))
    (hr : CodeGenerator.generate r = (outr, none)) :
    CodeGenerator.generate (ASTNode.mk v [l, r]) = (outl ++ outr ++ [instrOfSymbol v], none) := by
  rw [CodeGenerator.generate, hl]
  simp only []
  rw [hr]
  rcases operatorSymbol_cases hv with rfl | rfl | rfl | rfl <;> rfl

theorem isOperand_not_isBinop {t : Token} (h : t.isOperand = true) : t.isBinop = false := by
  simp only [Token.isOperand, decide_eq_true_eq] at h
  rcases h with h | h <;> simp [Token.isBinop, Token.isAddSub, Token.isMulDiv, h]

theorem isBinop_not_isOperand {t : Token} (h : t.isBinop = true) : t.isOperand = false := by
  cases ho : t.isOperand with
  | false => rfl
  | true => rw [isOperand_not_isBinop ho] at h; exact absurd h (by simp)

theorem stackRun_append (l1 l2 : List (List Char)) (d : Nat) :
    stackRun (l1 ++ l2) d = (stackRun l1 d).bind (stackRun l2) := by
  induction l1 generalizing d with
  | nil => rfl
  | cons x xs ih =>
    simp only [List.cons_append, stackRun]
    cases stackStep d x with
    | none => rfl
    | some d1 => exact ih d1

theorem stackRun_LOAD (v : List Char) (d : Nat) : stackRun [LOAD v] d = some (d + 1) := by
  simp [stackRun, stackStep, isLoad_LOAD]

theorem stackRun_instrOfSymbol {v : List Char} (h : isOperatorSymbol v = true) (d : Nat) :
    stackRun [instrOfSymbol v] (d + 2) = some (d + 1) := by
  simp [stackRun, stackStep, isLoad_instrOfSymbol h, isOperatorLine_instrOfSymbol h]

/-- What `generate` emits for a tree that is a reading of the tokens `c`. -/
theorem generate_of_parses {n : ASTNode} {c : List Token} (h : Parses n c) :
    ∃ out, CodeGenerator.generate n = (out, none) ∧
      out.filterMap loadText = (c.filter Token.isOperand).map Token.value ∧
      (out.filter isLoad).length = (c.filter Token.isOperand).length ∧
      (out.filter isOperatorLine).length = (c.filter Token.isBinop).length ∧
      (∀ d, stackRun out d = some (d + 1)) ∧
      n.operatorsKnown = true := by
  induction h with
  | leaf t ht =>
    refine ⟨[LOAD t.value], generate_leaf _, ?_, ?_, ?_, ?_, ?_⟩
    · simp [loadText_LOAD, ht]
    · simp [isLoad_LOAD, ht]
    · simp [isOperatorLine_LOAD, isOperand_not_isBinop ht]
    · intro d; exact stackRun_LOAD _ d
    · simp [ASTNode.operatorsKnown, ASTNode.operatorsKnownAll]
  | node o l r cl cr ho hv _ _ ihl ihr =>
    obtain ⟨outl, hl1, hl2, hl3, hl4, hl5, hl6⟩ := ihl
    obtain ⟨outr, hr1, hr2, hr3, hr4, hr5, hr6⟩ := ihr
    refine ⟨outl ++ outr ++ [instrOfSymbol o.value], generate_node hv hl1 hr1, ?_, ?_, ?_, ?_, ?_⟩
    · simp [List.filterMap_append, hl2, hr2, loadText_instrOfSymbol hv, List.filter_cons,
        isBinop_not_isOperand ho]
    · simp [List.filter_cons, hl3, hr3, isLoad_instrOfSymbol hv, isBinop_not_isOperand ho]
    · simp [List.filter_cons, hl4, hr4, isOperatorLine_instrOfSymbol hv, ho]
    · intro d
      rw [stackRun_append, stackRun_append, hl5 d]
      simp only [Option.some_bind]
      rw [hr5 (d + 1)]
      exact stackRun_instrOfSymbol hv d
    · simp [ASTNode.operatorsKnown, ASTNode.operatorsKnownAll, hv, hl6, hr6]

/-- A reading has one operand more than it has operators, and nothing else. -/
theorem parses_counts {n : ASTNode} {c : List Token} (h : Parses n c) :
    (c.filter Token.isOperand).length = (c.filter Token.isBinop).length + 1 ∧
      ∀ t ∈ c, t.isOperand = true ∨ t.isBinop = true := by
  induction h with
  | leaf t ht => simp [ht, isOperand_not_isBinop ht]
  | node o l r cl cr ho hv _ _ ihl ihr =>
    constructor
    · simp [List.filter_cons, isBinop_not_isOperand ho, ho, ihl.1, ihr.1]
      omega
    · intro t ht
      simp only [List.mem_append, List.mem_cons] at ht
      rcases ht with ht | rfl | ht
      · exact ihl.2 t ht
      · exact Or.inr ho
      · exact ihr.2 t ht

theorem isOperand_type_ne_semicolon {t : Token} (h : t.isOperand = true) :
    t.type ≠ TokenType.SEMICOLON := by
  intro hs
  simp [Token.isOperand, hs] at h

theorem beforeSemicolon_of_parses {n : ASTNode} {c : List Token} (h : Parses n c)
    {semi : Token} (hs : semi.type = TokenType.SEMICOLON) (rest : List Token) :
    beforeSemicolon (c ++ semi :: rest) = c := by
  unfold beforeSemicolon
  rw [List.takeWhile_append_of_pos]
  · simp [List.takeWhile_cons, hs]
  · intro t ht
    rcases (parses_counts h).2 t ht with ho | hb
    · simpa using isOperand_type_ne_semicolon ho
    · simpa using isBinop_type_ne_semicolon hb

/-- A compilation without failure, read off the token sequence. -/
theorem compile_ok {input : List Char} {out : List (List Char)}
    (h : compile input = (out, none)) :
    ∃ ast c semi rest, tokenize input = c ++ semi :: rest ∧
      semi.type = TokenType.SEMICOLON ∧ Parses ast c ∧
      CodeGenerator.generate ast = (out, none) := by
  rw [compile_eq] at h
  cases hs : statementL input.length (tokenize input) with
  | error e => rw [hs] at h; simp at h
  | ok r =>
    obtain ⟨ast, ts1⟩ := r
    rw [hs] at h
    simp only [] at h
    obtain ⟨c, semi, h1, h2, h3, _⟩ := statementL_ok hs (tokenize_wellLexed input)
    exact ⟨ast, c, semi, ts1, h1, h2, h3, h⟩

/-! ## Claims about every source -/

/-- C3 (grammar acceptance): for every source, `Parser::parse` on a freshly
constructed parser succeeds if and only if the lexer's token sequence begins with
`operand (binop operand)* Semicolon`; in every other case it fails with
`ExpectedSemicolon` or `UnexpectedToken`. -/
theorem C3_grammar_acceptance (input : List Char) :
    ((∃ ast p, (Parser.new ⟨input, 0⟩).parse = .ok (ast, p)) ↔
        BeginsWithStatement (tokenize input)) ∧
      (¬ BeginsWithStatement (tokenize input) →
        ∃ e, (Parser.new ⟨input, 0⟩).parse = .error e ∧
          (e = ExpectedSemicolon ∨ ∃ text, e = UnexpectedToken text)) := by
  cases hs : statementL input.length (tokenize input) with
  | error e =>
    have hp := parse_eq_error.2 hs
    obtain ⟨h1, h2⟩ := statementL_error (tokenize_length_le input) (tokenize_wellLexed input) hs
    have hnb : ¬ BeginsWithStatement (tokenize input) := by
      rw [← beginsStatement_iff, h1]; simp
    refine ⟨⟨?_, fun h => absurd h hnb⟩, fun _ => ⟨e, hp, h2⟩⟩
    rintro ⟨ast, p, h⟩
    rw [hp] at h
    exact absurd h (by simp)
  | ok r =>
    obtain ⟨ast, ts1⟩ := r
    obtain ⟨p, hp⟩ := parse_ok_of_statementL hs
    obtain ⟨c, semi, _, _, _, hb⟩ := statementL_ok hs (tokenize_wellLexed input)
    have hbs : BeginsWithStatement (tokenize input) := (beginsStatement_iff _).1 hb
    exact ⟨⟨fun _ => hbs, fun _ => ⟨ast, p, hp⟩⟩, fun h => absurd hbs h⟩

/-- C4 (operands pass through in source order): when compilation succeeds, the
texts of the emitted `LOAD` lines, in emission order, are the texts of the
`Identifier` and `Number` tokens before the terminating semicolon, in source
order and unchanged. -/
theorem C4_operands_in_source_order (input : List Char) (out : List (List Char))
    (h : compile input = (out, none)) :
    out.filterMap loadText =
      ((beforeSemicolon (tokenize input)).filter Token.isOperand).map Token.value := by
  obtain ⟨ast, c, semi, rest, h1, h2, h3, h4⟩ := compile_ok h
  obtain ⟨out1, g1, g2, _⟩ := generate_of_parses h3
  rw [h4] at g1
  simp only [Prod.mk.injEq, and_true] at g1
  rw [h1, beforeSemicolon_of_parses h3 h2, g1, g2]

/-- C4 at the source `x+y;`, which emits `LOAD x`, `LOAD y`, `ADD`. -/
theorem C4_operands_in_source_order_witness :
    compile "x+y;".toList = (["LOAD x".toList, "LOAD y".toList, "ADD".toList], none) ∧
      ["LOAD x".toList, "LOAD y".toList, "ADD".toList].filterMap loadText =
        ((beforeSemicolon (tokenize "x+y;".toList)).filter Token.isOperand).map Token.value :=
  ⟨by decide, C4_operands_in_source_order "x+y;".toList _ (by decide)⟩

/-- C5 (count match): when compilation succeeds, there are as many `LOAD` lines as
operand tokens before the terminating semicolon, as many operator lines as
operator tokens before it, and one `LOAD` line more than operator lines. -/
theorem C5_count_match (input : List Char) (out : List (List Char))
    (h : compile input = (out, none)) :
    (out.filter isLoad).length =
        ((beforeSemicolon (tokenize input)).filter Token.isOperand).length ∧
      (out.filter isOperatorLine).length =
        ((beforeSemicolon (tokenize input)).filter Token.isBinop).length ∧
      (out.filter isLoad).length = (out.filter isOperatorLine).length + 1 := by
  obtain ⟨ast, c, semi, rest, h1, h2, h3, h4⟩ := compile_ok h
  obtain ⟨out1, g1, _, g3, g4, _⟩ := generate_of_parses h3
  rw [h4] at g1
  simp only [Prod.mk.injEq, and_true] at g1
  subst g1
  rw [h1, beforeSemicolon_of_parses h3 h2, g3, g4]
  exact ⟨rfl, rfl, (parses_counts h3).1⟩

/-- C5 at the source `3+4*5;`: three `LOAD` lines, two operator lines. -/
theorem C5_count_match_witness :
    compile "3+4*5;".toList =
        (["LOAD 3".toList, "LOAD 4".toList, "LOAD 5".toList, "MUL".toList, "ADD".toList], none) ∧
      ((["LOAD 3".toList, "LOAD 4".toList, "LOAD 5".toList, "MUL".toList,
          "ADD".toList].filter isLoad).length =
        ((beforeSemicolon (tokenize "3+4*5;".toList)).filter Token.isOperand).length ∧
      (["LOAD 3".toList, "LOAD 4".toList, "LOAD 5".toList, "MUL".toList,
          "ADD".toList].filter isOperatorLine).length =
        ((beforeSemicolon (tokenize "3+4*5;".toList)).filter Token.isBinop).length ∧
      (["LOAD 3".toList, "LOAD 4".toList, "LOAD 5".toList, "MUL".toList,
          "ADD".toList].filter isLoad).length =
        (["LOAD 3".toList, "LOAD 4".toList, "LOAD 5".toList, "MUL".toList,
          "ADD".toList].filter isOperatorLine).length + 1) :=
  ⟨by decide, C5_count_match "3+4*5;".toList _ (by decide)⟩

/-- C6 (legal post-order sequence): when compilation succeeds, the emitted lines
run on the stack machine from the empty stack without an operator ever finding
fewer than two values, in any initial segment, and leave exactly one value. -/
theorem C6_legal_stack_program (input : List Char) (out : List (List Char))
    (h : compile input = (out, none)) :
    stackRun out 0 = some 1 ∧ ∀ k, ∃ depth, stackRun (out.take k) 0 = some depth := by
  obtain ⟨ast, c, semi, rest, h1, h2, h3, h4⟩ := compile_ok h
  obtain ⟨out1, g1, _, _, _, g5, _⟩ := generate_of_parses h3
  rw [h4] at g1
  simp only [Prod.mk.injEq, and_true] at g1
  subst g1
  refine ⟨g5 0, fun k => ?_⟩
  have hrun := g5 0
  rw [← List.take_append_drop k out, stackRun_append] at hrun
  cases hk : stackRun (out.take k) 0 with
  | none => rw [hk] at hrun; simp at hrun
  | some d => exact ⟨d, rfl⟩

/-- C6 at the source `3-4-5;`. -/
theorem C6_legal_stack_program_witness :
    compile "3-4-5;".toList =
        (["LOAD 3".toList, "LOAD 4".toList, "SUB".toList, "LOAD 5".toList, "SUB".toList], none) ∧
      (stackRun ["LOAD 3".toList, "LOAD 4".toList, "SUB".toList, "LOAD 5".toList,
          "SUB".toList] 0 = some 1 ∧
        ∀ k, ∃ depth, stackRun (["LOAD 3".toList, "LOAD 4".toList, "SUB".toList,
          "LOAD 5".toList, "SUB".toList].take k) 0 = some depth) :=
  ⟨by decide, C6_legal_stack_program "3-4-5;".toList _ (by decide)⟩

/-- C10 (`UnknownOperator` is unreachable through the parser): when `Parser::parse`
succeeds, `CodeGenerator::generate` on the returned tree completes without any
failure, in particular without `UnknownOperator`, and every node with children
in that tree carries one of the symbols `+`, `-`, `*`, `/`. -/
theorem C10_unknown_operator_unreachable (input : List Char) (ast : ASTNode) (p : Parser)
    (h : (Parser.new ⟨input, 0⟩).parse = .ok (ast, p)) :
    (CodeGenerator.generate ast).2 = none ∧
      (∀ text, (CodeGenerator.generate ast).2 ≠ some (UnknownOperator text)) ∧
      ast.operatorsKnown = true := by
  obtain ⟨ts, hs⟩ := parse_eq_ok h
  obtain ⟨c, semi, _, _, h3, _⟩ := statementL_ok hs (tokenize_wellLexed input)
  obtain ⟨out, g1, _, _, _, _, g6⟩ := generate_of_parses h3
  refine ⟨by rw [g1], fun text => by rw [g1]; simp, g6⟩

/-- C10 at the source `3+4*5;`, whose tree is `+(3, *(4, 5))`. -/
theorem C10_unknown_operator_unreachable_witness :
    (Parser.new ⟨"3+4*5;".toList, 0⟩).parse =
        .ok (ASTNode.mk ['+'] [ASTNode.mk ['3'] [],
              ASTNode.mk ['*'] [ASTNode.mk ['4'] [], ASTNode.mk ['5'] []]],
            ⟨⟨"3+4*5;".toList, 6⟩, ⟨TokenType.END_OF_FILE, []⟩⟩) ∧
      ((CodeGenerator.generate (ASTNode.mk ['+'] [ASTNode.mk ['3'] [],
              ASTNode.mk ['*'] [ASTNode.mk ['4'] [], ASTNode.mk ['5'] []]])).2 = none ∧
        (∀ text, (CodeGenerator.generate (ASTNode.mk ['+'] [ASTNode.mk ['3'] [],
              ASTNode.mk ['*'] [ASTNode.mk ['4'] [], ASTNode.mk ['5'] []]])).2
            ≠ some (UnknownOperator text)) ∧
        (ASTNode.mk ['+'] [ASTNode.mk ['3'] [],
              ASTNode.mk ['*'] [ASTNode.mk ['4'] [], ASTNode.mk ['5'] []]]).operatorsKnown
          = true) :=
  ⟨rfl, C10_unknown_operator_unreachable "3+4*5;".toList _ _ rfl⟩

/-! ## Lexing an operand text and an operator character -/

theorem isspace_of_isalnum {c : Char} (h : isalnum c = true) : isspace c = false := by
  simp only [isalnum, isalpha, isdigit, Bool.or_eq_true, Bool.and_eq_true,
    decide_eq_true_eq] at h
  simp only [isspace, Bool.or_eq_false_iff, Bool.and_eq_false_iff, decide_eq_false_iff_not]
  omega

theorem isdigit_of_isalpha {c : Char} (h : isalpha c = true) : isdigit c = false := by
  simp only [isalpha, Bool.or_eq_true, Bool.and_eq_true, decide_eq_true_eq] at h
  simp only [isdigit, Bool.and_eq_false_iff, decide_eq_false_iff_not]
  omega

theorem takeWhile_eq_nil_of_head {p : Char → Bool} {rest : List Char}
    (h : ∀ x, rest.head? = some x → p x = false) : rest.takeWhile p = [] := by
  cases rest with
  | nil => rfl
  | cons x r => simp [List.takeWhile_cons, h x rfl]

theorem takeWhile_append_stop {p : Char → Bool} {l rest : List Char}
    (hl : ∀ x ∈ l, p x = true) (h : ∀ x, rest.head? = some x → p x = false) :
    (l ++ rest).takeWhile p = l := by
  rw [List.takeWhile_append_of_pos hl, takeWhile_eq_nil_of_head h, List.append_nil]

theorem operandToken_isOperand (a : List Char) : (operandToken a).isOperand = true := by
  unfold operandToken Token.isOperand
  split <;> simp

theorem operandToken_value (a : List Char) : (operandToken a).value = a := rfl

/-- The lexer turns an operand text, followed by something that does not
continue it, into one `Identifier` or `Number` token with that text. -/
theorem scan_operand {a rest : List Char} (ha : isOperandText a = true)
    (hr : ∀ x, rest.head? = some x → isalnum x = false) :
    scan (a ++ rest) = (operandToken a, a.length) := by
  cases a with
  | nil => simp [isOperandText] at ha
  | cons c r =>
    simp only [isOperandText, Bool.or_eq_true, Bool.and_eq_true, List.all_eq_true] at ha
    have hn : isalnum c = true := by
      rcases ha with ha | ha <;> simp [isalnum, ha.1]
    have hsp : isspace c = false := isspace_of_isalnum hn
    have hrd : ∀ x, rest.head? = some x → isdigit x = false := by
      intro x hx
      have := hr x hx
      simp only [isalnum, Bool.or_eq_false_iff] at this
      exact this.2
    unfold scan
    simp only [List.cons_append, List.takeWhile_cons, List.dropWhile_cons, hsp,
      Bool.false_eq_true, if_false, List.length_nil, zero_add]
    by_cases hal : isalpha c = true
    · have hr1 : ∀ x ∈ r, isalnum x = true := by
        rcases ha with ha | ha
        · rw [isdigit_of_isalpha hal] at ha
          exact absurd ha.1 (by simp)
        · exact ha.2
      simp only [hal, if_true, hn]
      rw [takeWhile_append_stop hr1 hr]
      simp [operandToken, hal]
    · have hd : isdigit c = true ∧ ∀ x ∈ r, isdigit x = true := by
        rcases ha with ha | ha
        · exact ha
        · exact absurd ha.1 hal
      simp only [hal, hd.1, if_true, if_false, Bool.false_eq_true]
      rw [takeWhile_append_stop hd.2 hrd]
      simp [operandToken, hal]

theorem tokenize_operand {a rest : List Char} (ha : isOperandText a = true)
    (hr : ∀ x, rest.head? = some x → isalnum x = false) :
    tokenize (a ++ rest) = operandToken a :: tokenize rest := by
  rw [tokenize_unfold, scan_operand ha hr]
  have : (operandToken a).type ≠ TokenType.END_OF_FILE := by
    unfold operandToken
    split <;> simp
  simp [this]

/-- A character that is neither whitespace nor a letter nor a digit is a token of
its own. -/
theorem scan_single {c : Char} (rest : List Char) (h1 : isspace c = false)
    (h2 : isalnum c = false) : scan (c :: rest) = (singleCharToken c, 1) := by
  simp only [isalnum, Bool.or_eq_false_iff] at h2
  unfold scan
  simp [List.takeWhile_cons, List.dropWhile_cons, h1, h2.1, h2.2]

theorem tokenize_single {c : Char} (rest : List Char) (h1 : isspace c = false)
    (h2 : isalnum c = false) : tokenize (c :: rest) = singleCharToken c :: tokenize rest := by
  rw [tokenize_unfold, scan_single rest h1 h2]
  simp [singleCharToken_type_ne_eof]

/-- An additive operator character: `+` or `-`. -/
theorem addsub_char {p : Char} (hp : p = '+' ∨ p = '-') :
    isspace p = false ∧ isalnum p = false ∧ (singleCharToken p).isAddSub = true ∧
      (singleCharToken p).isMulDiv = false ∧ (singleCharToken p).value = [p] ∧
      isOperatorSymbol [p] = true := by
  rcases hp with rfl | rfl <;> decide

/-- A multiplicative operator character: `*` or `/`. -/
theorem muldiv_char {m : Char} (hm : m = '*' ∨ m = '/') :
    isspace m = false ∧ isalnum m = false ∧ (singleCharToken m).isMulDiv = true ∧
      (singleCharToken m).isAddSub = false ∧ (singleCharToken m).value = [m] ∧
      isOperatorSymbol [m] = true := by
  rcases hm with rfl | rfl <;> decide

theorem semicolon_char :
    isspace ';' = false ∧ isalnum ';' = false ∧
      singleCharToken ';' = ⟨TokenType.SEMICOLON, [';']⟩ := by
  decide

theorem head_cons_not_alnum {c : Char} (rest : List Char) (h : isalnum c = false) :
    ∀ x, (c :: rest).head? = some x → isalnum x = false := by
  intro x hx
  simp only [List.head?_cons, Option.some.injEq] at hx
  rw [← hx]; exact h

/-! ## Single steps of the list-level parser -/

theorem factorL_operand {f : Token} (ts : List Token) (hf : f.isOperand = true) :
    factorL (f :: ts) = .ok (ASTNode.mk f.value [], ts) := by
  have : f.type = TokenType.NUMBER ∨ f.type = TokenType.IDENTIFIER := by
    simp only [Token.isOperand, decide_eq_true_eq] at hf
    tauto
  simp [factorL, this]

theorem factorL_not_operand {ts : List Token} (hf : (peek ts).isOperand = false) :
    factorL ts = .error (UnexpectedToken (peek ts).value) := by
  have : ¬ ((peek ts).type = TokenType.NUMBER ∨ (peek ts).type = TokenType.IDENTIFIER) := by
    simp only [Token.isOperand, decide_eq_false_iff_not] at hf
    tauto
  simp [factorL, this]

theorem termLoopL_stop (fuel : Nat) (node : ASTNode) {ts : List Token}
    (h : (peek ts).isMulDiv = false) : termLoopL fuel node ts = .ok (node, ts) := by
  have : ¬ ((peek ts).type = TokenType.MULT ∨ (peek ts).type = TokenType.DIV) := by
    simpa [Token.isMulDiv] using h
  unfold termLoopL
  simp [this]

theorem termLoopL_step (fuel : Nat) (node : ASTNode) {o : Token} (ts : List Token)
    (h : o.isMulDiv = true) :
    termLoopL (fuel + 1) node (o :: ts) =
      match factorL ts with
      | .error e => .error e
      | .ok (rhs, ts1) => termLoopL fuel (ASTNode.mk o.value [node, rhs]) ts1 := by
  have : o.type = TokenType.MULT ∨ o.type = TokenType.DIV := by
    simpa [Token.isMulDiv] using h
  rw [termLoopL]
  simp [this]

theorem termL_operand (fuel : Nat) {f : Token} (ts : List Token) (hf : f.isOperand = true) :
    termL fuel (f :: ts) = termLoopL fuel (ASTNode.mk f.value []) ts := by
  simp [termL, factorL_operand ts hf]

theorem expressionLoopL_stop (fuel : Nat) (node : ASTNode) {ts : List Token}
    (h : (peek ts).isAddSub = false) : expressionLoopL fuel node ts = .ok (node, ts) := by
  have : ¬ ((peek ts).type = TokenType.PLUS ∨ (peek ts).type = TokenType.MINUS) := by
    simpa [Token.isAddSub] using h
  unfold expressionLoopL
  simp [this]

theorem expressionLoopL_step (fuel : Nat) (node : ASTNode) {o : Token} (ts : List Token)
    (h : o.isAddSub = true) :
    expressionLoopL (fuel + 1) node (o :: ts) =
      match termL fuel ts with
      | .error e => .error e
      | .ok (rhs, ts1) => expressionLoopL fuel (ASTNode.mk o.value [node, rhs]) ts1 := by
  have : o.type = TokenType.PLUS ∨ o.type = TokenType.MINUS := by
    simpa [Token.isAddSub] using h
  rw [expressionLoopL]
  simp [this]

theorem semicolon_token_facts {t : Token} (h : t.type = TokenType.SEMICOLON) :
    t.isMulDiv = false ∧ t.isAddSub = false ∧ t.isOperand = false := by
  simp [Token.isMulDiv, Token.isAddSub, Token.isOperand, h]

theorem statementL_of_expressionL {fuel : Nat} {ts rest : List Token} {n : ASTNode}
    {semi : Token} (h : expressionL fuel ts = .ok (n, semi :: rest))
    (hs : semi.type = TokenType.SEMICOLON) : statementL fuel ts = .ok (n, rest) := by
  simp [statementL, h, hs]

/-- The parse of `A P B M C ;` with `P` additive and `M` multiplicative. -/
theorem statementL_precedence (fuel : Nat) {A P B M C S : Token} (rest : List Token)
    (hA : A.isOperand = true) (hB : B.isOperand = true) (hC : C.isOperand = true)
    (hP : P.isAddSub = true) (hP1 : P.isMulDiv = false) (hM : M.isMulDiv = true)
    (hS : S.type = TokenType.SEMICOLON) :
    statementL (fuel + 2) (A :: P :: B :: M :: C :: S :: rest) =
      .ok (ASTNode.mk P.value [ASTNode.mk A.value [],
        ASTNode.mk M.value [ASTNode.mk B.value [], ASTNode.mk C.value []]], rest) := by
  obtain ⟨hS1, hS2, _⟩ := semicolon_token_facts hS
  apply statementL_of_expressionL _ hS
  unfold expressionL
  rw [termL_operand _ _ hA, termLoopL_stop _ _ (by simpa using hP1)]
  simp only []
  rw [expressionLoopL_step _ _ _ hP, termL_operand _ _ hB, termLoopL_step _ _ _ hM,
    factorL_operand _ hC]
  simp only []
  rw [termLoopL_stop _ _ (by simpa using hS1)]
  simp only []
  rw [expressionLoopL_stop _ _ (by simpa using hS2)]

/-- The parse of `A O1 B O2 C ;` with `O1` and `O2` both additive. -/
theorem statementL_addsub_addsub (fuel : Nat) {A O1 B O2 C S : Token} (rest : List Token)
    (hA : A.isOperand = true) (hB : B.isOperand = true) (hC : C.isOperand = true)
    (h1 : O1.isAddSub = true) (h1m : O1.isMulDiv = false)
    (h2 : O2.isAddSub = true) (h2m : O2.isMulDiv = false)
    (hS : S.type = TokenType.SEMICOLON) :
    statementL (fuel + 2) (A :: O1 :: B :: O2 :: C :: S :: rest) =
      .ok (ASTNode.mk O2.value [ASTNode.mk O1.value [ASTNode.mk A.value [],
        ASTNode.mk B.value []], ASTNode.mk C.value []], rest) := by
  obtain ⟨hS1, hS2, _⟩ := semicolon_token_facts hS
  apply statementL_of_expressionL _ hS
  unfold expressionL
  rw [termL_operand _ _ hA, termLoopL_stop _ _ (by simpa using h1m)]
  simp only []
  rw [expressionLoopL_step _ _ _ h1, termL_operand _ _ hB,
    termLoopL_stop _ _ (by simpa using h2m)]
  simp only []
  rw [expressionLoopL_step _ _ _ h2, termL_operand _ _ hC,
    termLoopL_stop _ _ (by simpa using hS1)]
  simp only []
  rw [expressionLoopL_stop _ _ (by simpa using hS2)]

/-- The parse of `A O1 B O2 C ;` with `O1` and `O2` both multiplicative. -/
theorem statementL_muldiv_muldiv (fuel : Nat) {A O1 B O2 C S : Token} (rest : List Token)
    (hA : A.isOperand = true) (hB : B.isOperand = true) (hC : C.isOperand = true)
    (h1 : O1.isMulDiv = true) (h2 : O2.isMulDiv = true)
    (hS : S.type = TokenType.SEMICOLON) :
    statementL (fuel + 2) (A :: O1 :: B :: O2 :: C :: S :: rest) =
      .ok (ASTNode.mk O2.value [ASTNode.mk O1.value [ASTNode.mk A.value [],
        ASTNode.mk B.value []], ASTNode.mk C.value []], rest) := by
  obtain ⟨hS1, hS2, _⟩ := semicolon_token_facts hS
  apply statementL_of_expressionL _ hS
  unfold expressionL
  rw [termL_operand _ _ hA, termLoopL_step _ _ _ h1, factorL_operand _ hB]
  simp only []
  rw [termLoopL_step _ _ _ h2, factorL_operand _ hC]
  simp only []
  rw [termLoopL_stop _ _ (by simpa using hS1)]
  simp only []
  rw [expressionLoopL_stop _ _ (by simpa using hS2)]

/-- The token sequence of `a o1 b o2 c ;`. -/
theorem tokenize_three_operands {a b c : List Char} {o1 o2 : Char}
    (ha : isOperandText a = true) (hb : isOperandText b = true) (hc : isOperandText c = true)
    (h1 : isspace o1 = false ∧ isalnum o1 = false)
    (h2 : isspace o2 = false ∧ isalnum o2 = false) :
    tokenize (a ++ o1 :: (b ++ o2 :: (c ++ [';']))) =
      [operandToken a, singleCharToken o1, operandToken b, singleCharToken o2,
        operandToken c, ⟨TokenType.SEMICOLON, [';']⟩] := by
  rw [tokenize_operand ha (head_cons_not_alnum _ h1.2), tokenize_single _ h1.1 h1.2,
    tokenize_operand hb (head_cons_not_alnum _ h2.2), tokenize_single _ h2.1 h2.2,
    tokenize_operand hc (head_cons_not_alnum _ semicolon_char.2.1),
    tokenize_single _ semicolon_char.1 semicolon_char.2.1, tokenize_nil, semicolon_char.2.2]

theorem length_three_operands (a b c : List Char) (o1 o2 : Char) :
    (a ++ o1 :: (b ++ o2 :: (c ++ [';']))).length =
      (a.length + b.length + c.length + 1) + 2 := by
  simp only [List.length_append, List.length_cons, List.length_nil]
  omega

/-! ## Claims about sources of a given shape -/

/-- C1 (precedence): for operand texts `a`, `b`, `c`, an additive operator `p`
and a multiplicative operator `m`, compiling `a p b m c ;` succeeds and emits
exactly `LOAD a`, `LOAD b`, `LOAD c`, `instr m`, `instr p`. -/
theorem C1_precedence (a b c : List Char) (p m : Char)
    (ha : isOperandText a = true) (hb : isOperandText b = true) (hc : isOperandText c = true)
    (hp : p = '+' ∨ p = '-') (hm : m = '*' ∨ m = '/') :
    compile (a ++ p :: (b ++ m :: (c ++ [';']))) =
      ([LOAD a, LOAD b, LOAD c, instr m, instr p], none) := by
  obtain ⟨p1, p2, p3, p4, p5, p6⟩ := addsub_char hp
  obtain ⟨m1, m2, m3, m4, m5, m6⟩ := muldiv_char hm
  rw [compile_eq, tokenize_three_operands ha hb hc ⟨p1, p2⟩ ⟨m1, m2⟩, length_three_operands,
    statementL_precedence _ [] (operandToken_isOperand a) (operandToken_isOperand b)
      (operandToken_isOperand c) p3 p4 m3 rfl]
  simp only [p5, m5, operandToken_value]
  rw [generate_node p6 (generate_leaf a) (generate_node m6 (generate_leaf b) (generate_leaf c))]
  rfl

/-- C1 at `3+4*5;`, which emits `LOAD 3`, `LOAD 4`, `LOAD 5`, `MUL`, `ADD`. -/
theorem C1_precedence_witness :
    (isOperandText "3".toList = true ∧ isOperandText "4".toList = true ∧
      isOperandText "5".toList = true) ∧
    compile "3+4*5;".toList =
      (["LOAD 3".toList, "LOAD 4".toList, "LOAD 5".toList, "MUL".toList, "ADD".toList], none) :=
  ⟨by decide, C1_precedence "3".toList "4".toList "5".toList '+' '*' (by decide) (by decide)
    (by decide) (by decide) (by decide)⟩

/-- C2 (left-associativity): for operand texts `a`, `b`, `c` and two operators
`o1`, `o2` of the same tier, compiling `a o1 b o2 c ;` succeeds and emits exactly
`LOAD a`, `LOAD b`, `instr o1`, `LOAD c`, `instr o2`. -/
theorem C2_left_associativity (a b c : List Char) (o1 o2 : Char)
    (ha : isOperandText a = true) (hb : isOperandText b = true) (hc : isOperandText c = true)
    (ho : ((o1 = '+' ∨ o1 = '-') ∧ (o2 = '+' ∨ o2 = '-')) ∨
      ((o1 = '*' ∨ o1 = '/') ∧ (o2 = '*' ∨ o2 = '/'))) :
    compile (a ++ o1 :: (b ++ o2 :: (c ++ [';']))) =
      ([LOAD a, LOAD b, instr o1, LOAD c, instr o2], none) := by
  rcases ho with ⟨h1, h2⟩ | ⟨h1, h2⟩
  · obtain ⟨p1, p2, p3, p4, p5, p6⟩ := addsub_char h1
    obtain ⟨q1, q2, q3, q4, q5, q6⟩ := addsub_char h2
    rw [compile_eq, tokenize_three_operands ha hb hc ⟨p1, p2⟩ ⟨q1, q2⟩, length_three_operands,
      statementL_addsub_addsub _ [] (operandToken_isOperand a) (operandToken_isOperand b)
        (operandToken_isOperand c) p3 p4 q3 q4 rfl]
    simp only [p5, q5, operandToken_value]
    rw [generate_node q6 (generate_node p6 (generate_leaf a) (generate_leaf b))
      (generate_leaf c)]
    rfl
  · obtain ⟨p1, p2, p3, p4, p5, p6⟩ := muldiv_char h1
    obtain ⟨q1, q2, q3, q4, q5, q6⟩ := muldiv_char h2
    rw [compile_eq, tokenize_three_operands ha hb hc ⟨p1, p2⟩ ⟨q1, q2⟩, length_three_operands,
      statementL_muldiv_muldiv _ [] (operandToken_isOperand a) (operandToken_isOperand b)
        (operandToken_isOperand c) p3 q3 rfl]
    simp only [p5, q5, operandToken_value]
    rw [generate_node q6 (generate_node p6 (generate_leaf a) (generate_leaf b))
      (generate_leaf c)]
    rfl

/-- C2 at `3-4-5;`, which emits `LOAD 3`, `LOAD 4`, `SUB`, `LOAD 5`, `SUB`. -/
theorem C2_left_associativity_witness :
    (isOperandText "3".toList = true ∧ isOperandText "4".toList = true ∧
      isOperandText "5".toList = true) ∧
    compile "3-4-5;".toList =
      (["LOAD 3".toList, "LOAD 4".toList, "SUB".toList, "LOAD 5".toList, "SUB".toList], none) :=
  ⟨by decide, C2_left_associativity "3".toList "4".toList "5".toList '-' '-' (by decide)
    (by decide) (by decide) (by decide)⟩

/-- C9 (single leaf): for an operand text `t`, compiling `t ;` succeeds and emits
exactly one line, `LOAD t`. -/
theorem C9_single_leaf (t : List Char) (ht : isOperandText t = true) :
    compile (t ++ [';']) = ([LOAD t], none) := by
  rw [compile_eq, tokenize_operand ht (head_cons_not_alnum _ semicolon_char.2.1),
    tokenize_single _ semicolon_char.1 semicolon_char.2.1, tokenize_nil, semicolon_char.2.2]
  have hS : (⟨TokenType.SEMICOLON, [';']⟩ : Token).type = TokenType.SEMICOLON := rfl
  obtain ⟨hS1, hS2, _⟩ := semicolon_token_facts hS
  have he : expressionL (t ++ [';']).length
      [operandToken t, ⟨TokenType.SEMICOLON, [';']⟩] =
      .ok (ASTNode.mk t [], [⟨TokenType.SEMICOLON, [';']⟩]) := by
    unfold expressionL
    rw [termL_operand _ _ (operandToken_isOperand t), termLoopL_stop _ _ (by simpa using hS1)]
    simp only []
    rw [expressionLoopL_stop _ _ (by simpa using hS2)]
    rfl
  rw [statementL_of_expressionL he hS]
  exact generate_leaf t

/-- C9 at `42;`, which emits exactly `LOAD 42`. -/
theorem C9_single_leaf_witness :
    isOperandText "42".toList = true ∧ compile "42;".toList = (["LOAD 42".toList], none) :=
  ⟨by decide, C9_single_leaf "42".toList (by decide)⟩

/-- C8 (invalid factor): for an operand text `a` and an operator `o`, compiling
`a o ;` fails with `UnexpectedToken` carrying the text `;`, whose message is
`Unexpected token: ;`, and emits no line. -/
theorem C8_invalid_factor (a : List Char) (o : Char) (ha : isOperandText a = true)
    (ho : o = '+' ∨ o = '-' ∨ o = '*' ∨ o = '/') :
    compile (a ++ o :: [';']) = ([], some (UnexpectedToken [';'])) ∧
      UnexpectedToken [';'] = Failure.runtime_error "Unexpected token: ;".toList := by
  refine ⟨?_, rfl⟩
  have hS : (⟨TokenType.SEMICOLON, [';']⟩ : Token).type = TokenType.SEMICOLON := rfl
  obtain ⟨hS1, hS2, hS3⟩ := semicolon_token_facts hS
  have hlen : (a ++ o :: [';']).length = a.length + 1 + 1 := by simp
  have hf : factorL [(⟨TokenType.SEMICOLON, [';']⟩ : Token)] =
      .error (UnexpectedToken [';']) := factorL_not_operand (by simpa using hS3)
  have hcases : (o = '+' ∨ o = '-') ∨ (o = '*' ∨ o = '/') := by tauto
  rcases hcases with h | h
  · obtain ⟨p1, p2, p3, p4, p5, p6⟩ := addsub_char h
    rw [compile_eq, tokenize_operand ha (head_cons_not_alnum _ p2), tokenize_single _ p1 p2,
      tokenize_single _ semicolon_char.1 semicolon_char.2.1, tokenize_nil, semicolon_char.2.2,
      hlen]
    unfold statementL expressionL
    rw [termL_operand _ _ (operandToken_isOperand a), termLoopL_stop _ _ (by simpa using p4)]
    simp only []
    rw [expressionLoopL_step _ _ _ p3]
    unfold termL
    rw [hf]
  · obtain ⟨p1, p2, p3, p4, p5, p6⟩ := muldiv_char h
    rw [compile_eq, tokenize_operand ha (head_cons_not_alnum _ p2), tokenize_single _ p1 p2,
      tokenize_single _ semicolon_char.1 semicolon_char.2.1, tokenize_nil, semicolon_char.2.2,
      hlen]
    unfold statementL expressionL
    rw [termL_operand _ _ (operandToken_isOperand a), termLoopL_step _ _ _ p3, hf]

/-- C8 at `3+;`. -/
theorem C8_invalid_factor_witness :
    isOperandText "3".toList = true ∧
      (compile "3+;".toList = ([], some (UnexpectedToken [';'])) ∧
        UnexpectedToken [';'] = Failure.runtime_error "Unexpected token: ;".toList) :=
  ⟨by decide, C8_invalid_factor "3".toList '+' (by decide) (by decide)⟩

/-! ## Appending the semicolon -/

theorem takeWhile_append_singleton_neg {p : Char → Bool} {y : Char} (hy : p y = false)
    (xs : List Char) : (xs ++ [y]).takeWhile p = xs.takeWhile p := by
  induction xs with
  | nil => simp [List.takeWhile_cons, hy]
  | cons x xs ih =>
    by_cases hx : p x = true
    · simp [List.takeWhile_cons, hx, ih]
    · simp [List.takeWhile_cons, hx]

theorem dropWhile_append_of_ne_nil {p : Char → Bool} {xs : List Char} {c : Char}
    {r : List Char} (h : xs.dropWhile p = c :: r) (ys : List Char) :
    (xs ++ ys).dropWhile p = c :: (r ++ ys) := by
  rw [List.dropWhile_append, h]
  simp

theorem dropWhile_append_of_eq_nil {p : Char → Bool} {xs : List Char}
    (h : xs.dropWhile p = []) (ys : List Char) :
    (xs ++ ys).dropWhile p = ys.dropWhile p ∧ (xs ++ ys).takeWhile p = xs ++ ys.takeWhile p := by
  have hall : ∀ a ∈ xs, p a = true := by
    have := List.takeWhile_append_dropWhile p xs
    rw [h, List.append_nil] at this
    intro a ha
    rw [← this] at ha
    exact List.mem_takeWhile_imp ha
  exact ⟨List.dropWhile_append_of_pos hall, List.takeWhile_append_of_pos hall⟩

/-- Appending `;` to a text whose next token is not `END_OF_FILE` leaves that
token and its extent as they are. -/
theorem scan_append_semicolon {e : List Char}
    (h : (scan e).1.type ≠ TokenType.END_OF_FILE) : scan (e ++ [';']) = scan e := by
  have hsp : isspace ';' = false := by decide
  have han : isalnum ';' = false := by decide
  have hdg : isdigit ';' = false := by decide
  unfold scan at h ⊢
  simp only [] at h ⊢
  rw [takeWhile_append_singleton_neg hsp]
  cases hw : e.dropWhile isspace with
  | nil => rw [hw] at h; simp at h
  | cons c r =>
    rw [dropWhile_append_of_ne_nil hw]
    simp only []
    rw [← List.cons_append, takeWhile_append_singleton_neg han,
      takeWhile_append_singleton_neg hdg]

/-- Appending `;` to a text of whitespace only gives the `Semicolon` token. -/
theorem scan_append_semicolon_eof {e : List Char}
    (h : (scan e).1.type = TokenType.END_OF_FILE) :
    scan (e ++ [';']) = (⟨TokenType.SEMICOLON, [';']⟩, e.length + 1) := by
  have hw : e.dropWhile isspace = [] := by
    unfold scan at h
    simp only [] at h
    cases hw : e.dropWhile isspace with
    | nil => rfl
    | cons c r =>
      rw [hw] at h
      simp only [] at h
      by_cases ha : isalpha c = true
      · simp [ha] at h
      · by_cases hg : isdigit c = true
        · simp [ha, hg] at h
        · simp only [ha, hg, if_false, Bool.false_eq_true] at h
          exact absurd h (singleCharToken_type_ne_eof c)
  obtain ⟨h1, h2⟩ := dropWhile_append_of_eq_nil hw [';']
  have hsp : isspace ';' = false := by decide
  unfold scan
  simp only []
  rw [h1, h2]
  simp only [List.dropWhile_cons, List.takeWhile_cons, hsp, Bool.false_eq_true, if_false,
    List.dropWhile_nil, List.append_nil]
  rfl

theorem tokenize_append_semicolon (e : List Char) :
    tokenize (e ++ [';']) = tokenize e ++ [⟨TokenType.SEMICOLON, [';']⟩] := by
  generalize h : e.length = n
  induction n using Nat.strong_induction_on generalizing e with
  | _ n ih =>
    by_cases he : (scan e).1.type = TokenType.END_OF_FILE
    · rw [tokenize_unfold (e ++ [';']), scan_append_semicolon_eof he, tokenize_unfold e]
      simp only [he, if_true, List.nil_append]
      have : List.drop (e.length + 1) (e ++ [';']) = [] :=
        List.drop_of_length_le (by simp)
      rw [this, tokenize_nil]
      simp
    · have hc := scan_consumed he
      rw [tokenize_unfold (e ++ [';']), scan_append_semicolon he, tokenize_unfold e]
      simp only [he, if_false, List.cons_append]
      congr 1
      rw [List.drop_append_of_le_length hc.2]
      exact ih _ (by simp only [List.length_drop]; omega) _ rfl

theorem singleCharToken_semicolon {c : Char}
    (h : (singleCharToken c).type = TokenType.SEMICOLON) : c = ';' := by
  unfold singleCharToken at h
  by_contra hne
  repeat' split at h
  all_goals simp_all

theorem scan_semicolon_mem {s : List Char} (h : (scan s).1.type = TokenType.SEMICOLON) :
    ';' ∈ s := by
  unfold scan at h
  simp only [] at h
  have hs := List.takeWhile_append_dropWhile isspace s
  cases hw : s.dropWhile isspace with
  | nil => rw [hw] at h; simp at h
  | cons c r =>
    rw [hw] at h hs
    simp only [] at h
    by_cases ha : isalpha c = true
    · simp [ha] at h
    · by_cases hg : isdigit c = true
      · simp [ha, hg] at h
      · simp only [ha, hg, if_false, Bool.false_eq_true] at h
        rw [← hs, ← singleCharToken_semicolon h]
        simp

/-- A `Semicolon` token comes from a `;` character. -/
theorem tokenize_semicolon_mem (s : List Char) :
    ∀ t ∈ tokenize s, t.type = TokenType.SEMICOLON → ';' ∈ s := by
  generalize h : s.length = n
  induction n using Nat.strong_induction_on generalizing s with
  | _ n ih =>
    rw [tokenize_unfold]
    by_cases he : (scan s).1.type = TokenType.END_OF_FILE
    · simp [he]
    · have hc := scan_consumed he
      intro t ht hsemi
      simp only [he, if_false, List.mem_cons] at ht
      rcases ht with rfl | ht
      · exact scan_semicolon_mem hsemi
      · exact List.mem_of_mem_drop
          (ih _ (by simp only [List.length_drop]; omega) _ rfl t ht hsemi)

theorem termLoopL_zero (node : ASTNode) {o : Token} (ts : List Token) (h : o.isMulDiv = true) :
    termLoopL 0 node (o :: ts) = .error Failure.out_of_fuel := by
  have : o.type = TokenType.MULT ∨ o.type = TokenType.DIV := by
    simpa [Token.isMulDiv] using h
  rw [termLoopL]
  simp [this]

theorem expressionLoopL_zero (node : ASTNode) {o : Token} (ts : List Token)
    (h : o.isAddSub = true) : expressionLoopL 0 node (o :: ts) = .error Failure.out_of_fuel := by
  have : o.type = TokenType.PLUS ∨ o.type = TokenType.MINUS := by
    simpa [Token.isAddSub] using h
  rw [expressionLoopL]
  simp [this]

theorem termLoopL_append_semi {S : Token} (hS : S.type = TokenType.SEMICOLON) :
    ∀ (fuel : Nat) (node : ASTNode) (ts : List Token) (n : ASTNode) (r1 : List Token)
      (fuel1 : Nat), termLoopL fuel node (ts ++ [S]) = .ok (n, r1) → ts.length ≤ fuel1 →
      ∃ r, r1 = r ++ [S] ∧ termLoopL fuel1 node ts = .ok (n, r) ∧ r.length ≤ ts.length := by
  obtain ⟨hS1, hS2, hS3⟩ := semicolon_token_facts hS
  intro fuel
  induction fuel with
  | zero =>
    intro node ts n r1 fuel1 h hl
    cases ts with
    | nil =>
      rw [List.nil_append, termLoopL_stop _ _ (by simpa using hS1)] at h
      simp only [Except.ok.injEq, Prod.mk.injEq] at h
      exact ⟨[], by simp [h.2], by rw [termLoopL_stop _ _ (by simp [Token.isMulDiv]), h.1],
        le_refl _⟩
    | cons t ts1 =>
      cases hmd : t.isMulDiv with
      | true => rw [List.cons_append, termLoopL_zero _ _ hmd] at h; simp at h
      | false =>
        rw [List.cons_append, termLoopL_stop _ _ (by simpa using hmd)] at h
        simp only [Except.ok.injEq, Prod.mk.injEq] at h
        exact ⟨t :: ts1, by simp [h.2], by rw [termLoopL_stop _ _ (by simpa using hmd), h.1],
          le_refl _⟩
  | succ fuel ih =>
    intro node ts n r1 fuel1 h hl
    cases ts with
    | nil =>
      rw [List.nil_append, termLoopL_stop _ _ (by simpa using hS1)] at h
      simp only [Except.ok.injEq, Prod.mk.injEq] at h
      exact ⟨[], by simp [h.2], by rw [termLoopL_stop _ _ (by simp [Token.isMulDiv]), h.1],
        le_refl _⟩
    | cons t ts1 =>
      cases hmd : t.isMulDiv with
      | true =>
        rw [List.cons_append, termLoopL_step _ _ _ hmd] at h
        cases ts1 with
        | nil =>
          rw [List.nil_append, factorL_not_operand (by simpa using hS3)] at h
          simp at h
        | cons f ts2 =>
          cases hfo : f.isOperand with
          | false =>
            rw [List.cons_append, factorL_not_operand (by simpa using hfo)] at h
            simp at h
          | true =>
            rw [List.cons_append, factorL_operand _ hfo] at h
            simp only [] at h
            simp only [List.length_cons] at hl
            obtain ⟨k, rfl⟩ : ∃ k, fuel1 = k + 1 := ⟨fuel1 - 1, by omega⟩
            obtain ⟨r, hr1, hr2, hr3⟩ := ih _ _ _ _ k h (by omega)
            refine ⟨r, hr1, ?_, ?_⟩
            · rw [termLoopL_step _ _ _ hmd, factorL_operand _ hfo]
              exact hr2
            · simp only [List.length_cons]; omega
      | false =>
        rw [List.cons_append, termLoopL_stop _ _ (by simpa using hmd)] at h
        simp only [Except.ok.injEq, Prod.mk.injEq] at h
        exact ⟨t :: ts1, by simp [h.2], by rw [termLoopL_stop _ _ (by simpa using hmd), h.1],
          le_refl _⟩

theorem termL_append_semi {S : Token} (hS : S.type = TokenType.SEMICOLON) {fuel : Nat}
    {ts : List Token} {n : ASTNode} {r1 : List Token} (fuel1 : Nat)
    (h : termL fuel (ts ++ [S]) = .ok (n, r1)) (hl : ts.length ≤ fuel1) :
    ∃ r, r1 = r ++ [S] ∧ termL fuel1 ts = .ok (n, r) ∧ r.length < ts.length := by
  obtain ⟨hS1, hS2, hS3⟩ := semicolon_token_facts hS
  cases ts with
  | nil =>
    unfold termL at h
    rw [List.nil_append, factorL_not_operand (by simpa using hS3)] at h
    simp at h
  | cons f ts1 =>
    cases hfo : f.isOperand with
    | false =>
      unfold termL at h
      rw [List.cons_append, factorL_not_operand (by simpa using hfo)] at h
      simp at h
    | true =>
      rw [List.cons_append, termL_operand _ _ hfo] at h
      simp only [List.length_cons] at hl
      obtain ⟨r, hr1, hr2, hr3⟩ := termLoopL_append_semi hS _ _ _ _ _ fuel1 h (by omega)
      refine ⟨r, hr1, ?_, ?_⟩
      · rw [termL_operand _ _ hfo]; exact hr2
      · simp only [List.length_cons]; omega

theorem expressionLoopL_append_semi {S : Token} (hS : S.type = TokenType.SEMICOLON) :
    ∀ (fuel : Nat) (node : ASTNode) (ts : List Token) (n : ASTNode) (r1 : List Token)
      (fuel1 : Nat), expressionLoopL fuel node (ts ++ [S]) = .ok (n, r1) → ts.length ≤ fuel1 →
      ∃ r, r1 = r ++ [S] ∧ expressionLoopL fuel1 node ts = .ok (n, r) ∧
        r.length ≤ ts.length := by
  obtain ⟨hS1, hS2, hS3⟩ := semicolon_token_facts hS
  intro fuel
  induction fuel with
  | zero =>
    intro node ts n r1 fuel1 h hl
    cases ts with
    | nil =>
      rw [List.nil_append, expressionLoopL_stop _ _ (by simpa using hS2)] at h
      simp only [Except.ok.injEq, Prod.mk.injEq] at h
      exact ⟨[], by simp [h.2],
        by rw [expressionLoopL_stop _ _ (by simp [Token.isAddSub]), h.1], le_refl _⟩
    | cons t ts1 =>
      cases hmd : t.isAddSub with
      | true => rw [List.cons_append, expressionLoopL_zero _ _ hmd] at h; simp at h
      | false =>
        rw [List.cons_append, expressionLoopL_stop _ _ (by simpa using hmd)] at h
        simp only [Except.ok.injEq, Prod.mk.injEq] at h
        exact ⟨t :: ts1, by simp [h.2],
          by rw [expressionLoopL_stop _ _ (by simpa using hmd), h.1], le_refl _⟩
  | succ fuel ih =>
    intro node ts n r1 fuel1 h hl
    cases ts with
    | nil =>
      rw [List.nil_append, expressionLoopL_stop _ _ (by simpa using hS2)] at h
      simp only [Except.ok.injEq, Prod.mk.injEq] at h
      exact ⟨[], by simp [h.2],
        by rw [expressionLoopL_stop _ _ (by simp [Token.isAddSub]), h.1], le_refl _⟩
    | cons t ts1 =>
      cases hmd : t.isAddSub with
      | true =>
        rw [List.cons_append, expressionLoopL_step _ _ _ hmd] at h
        simp only [List.length_cons] at hl
        obtain ⟨k, rfl⟩ : ∃ k, fuel1 = k + 1 := ⟨fuel1 - 1, by omega⟩
        cases hf : termL fuel (ts1 ++ [S]) with
        | error e => rw [hf] at h; simp at h
        | ok x =>
          obtain ⟨rhs, x1⟩ := x
          rw [hf] at h
          simp only [] at h
          obtain ⟨r0, hr01, hr02, hr03⟩ := termL_append_semi hS k hf (by omega)
          rw [hr01] at h
          obtain ⟨r, hr1, hr2, hr3⟩ := ih _ _ _ _ k h (by omega)
          refine ⟨r, hr1, ?_, ?_⟩
          · rw [expressionLoopL_step _ _ _ hmd, hr02]
            exact hr2
          · simp only [List.length_cons]; omega
      | false =>
        rw [List.cons_append, expressionLoopL_stop _ _ (by simpa using hmd)] at h
        simp only [Except.ok.injEq, Prod.mk.injEq] at h
        exact ⟨t :: ts1, by simp [h.2],
          by rw [expressionLoopL_stop _ _ (by simpa using hmd), h.1], le_refl _⟩

theorem expressionL_append_semi {S : Token} (hS : S.type = TokenType.SEMICOLON) {fuel : Nat}
    {ts : List Token} {n : ASTNode} {r1 : List Token} (fuel1 : Nat)
    (h : expressionL fuel (ts ++ [S]) = .ok (n, r1)) (hl : ts.length ≤ fuel1) :
    ∃ r, r1 = r ++ [S] ∧ expressionL fuel1 ts = .ok (n, r) := by
  unfold expressionL at h
  cases hf : termL fuel (ts ++ [S]) with
  | error e => rw [hf] at h; simp at h
  | ok x =>
    obtain ⟨n0, x1⟩ := x
    rw [hf] at h
    simp only [] at h
    obtain ⟨r0, hr01, hr02, hr03⟩ := termL_append_semi hS fuel1 hf hl
    rw [hr01] at h
    obtain ⟨r, hr1, hr2, _⟩ := expressionLoopL_append_semi hS _ _ _ _ _ fuel1 h (by omega)
    refine ⟨r, hr1, ?_⟩
    unfold expressionL
    rw [hr02]
    exact hr2

/-- C7 (missing semicolon): for a text `e` without the character `;` such that
compiling `e ;` succeeds, compiling `e` alone fails with `ExpectedSemicolon`, whose
message is `Expected ';' at the end of the statement`, and emits no line. -/
theorem C7_missing_semicolon (e : List Char) (hsemi : ';' ∉ e)
    (h : (compile (e ++ [';'])).2 = none) :
    compile e = ([], some ExpectedSemicolon) ∧
      ExpectedSemicolon =
        Failure.runtime_error "Expected ';' at the end of the statement".toList := by
  refine ⟨?_, rfl⟩
  have hS : (⟨TokenType.SEMICOLON, [';']⟩ : Token).type = TokenType.SEMICOLON := rfl
  rw [compile_eq, tokenize_append_semicolon] at h
  rw [compile_eq]
  cases hs : statementL (e ++ [';']).length (tokenize e ++ [⟨TokenType.SEMICOLON, [';']⟩]) with
  | error err => rw [hs] at h; simp at h
  | ok x =>
    obtain ⟨ast, ts1⟩ := x
    unfold statementL at hs
    cases he : expressionL (e ++ [';']).length
        (tokenize e ++ [⟨TokenType.SEMICOLON, [';']⟩]) with
    | error err => rw [he] at hs; simp at hs
    | ok y =>
      obtain ⟨n, r1⟩ := y
      rw [he] at hs
      simp only [] at hs
      obtain ⟨r, hr1, hr2⟩ := expressionL_append_semi hS e.length he (tokenize_length_le e)
      obtain ⟨c, hc1, _, _, _⟩ := expressionL_ok hr2 (tokenize_wellLexed e)
      have hr : r = [] := by
        cases r with
        | nil => rfl
        | cons t r0 =>
          exfalso
          rw [hr1] at hs
          simp only [List.cons_append, peek_cons] at hs
          split at hs
          · simp at hs
          · rename_i hsem
            simp only [ne_eq, Decidable.not_not] at hsem
            exact hsemi (tokenize_semicolon_mem e t (by rw [hc1]; simp) hsem)
      subst hr
      unfold statementL
      rw [hr2]
      simp

/-- C7 at `3+4`, which fails with `ExpectedSemicolon` and emits nothing. -/
theorem C7_missing_semicolon_witness :
    ';' ∉ "3+4".toList ∧ (compile ("3+4".toList ++ [';'])).2 = none ∧
      compile "3+4".toList = ([], some ExpectedSemicolon) ∧
      ExpectedSemicolon =
        Failure.runtime_error "Expected ';' at the end of the statement".toList :=
  ⟨by decide, by decide, C7_missing_semicolon "3+4".toList (by decide) (by decide)⟩

/-- The counter that `Parser::parse` supplies is never used up: the loops of
the model end the way the loops of the source do. -/
theorem parse_never_out_of_fuel (input : List Char) :
    (Parser.new ⟨input, 0⟩).parse ≠ .error Failure.out_of_fuel := by
  intro h
  have hs := parse_eq_error.1 h
  obtain ⟨_, h2⟩ := statementL_error (tokenize_length_le input) (tokenize_wellLexed input) hs
  rcases h2 with h2 | ⟨x, h2⟩
  · exact absurd h2 (by simp [ExpectedSemicolon])
  · exact absurd h2 (by simp [UnexpectedToken])

/-! ## The lexer, call by call -/

theorem scan_le (s : List Char) : (scan s).2 ≤ s.length := by
  by_cases he : (scan s).1.type = TokenType.END_OF_FILE
  · have h2 := (scan_eof he).2
    by_contra hc
    have hlt : (scan s).2 > s.length := by omega
    unfold scan at hlt he
    simp only [] at hlt he
    cases hw : s.dropWhile isspace with
    | nil =>
      rw [hw] at hlt
      simp only [] at hlt
      have := length_takeWhile_le isspace s
      omega
    | cons c r =>
      rw [hw] at he
      simp only [] at he
      by_cases ha : isalpha c = true
      · simp [ha] at he
      · by_cases hg : isdigit c = true
        · simp [ha, hg] at he
        · simp only [ha, hg, if_false, Bool.false_eq_true] at he
          exact absurd he (singleCharToken_type_ne_eof c)
  · exact (scan_consumed he).2

theorem getNextToken_position (lx : Lexer) :
    lx.getNextToken.2.position = lx.position + (scan (lx.input.drop lx.position)).2 := by
  cases lx with
  | mk input pos => rw [getNextToken_eq_scan]

theorem getNextToken_token (lx : Lexer) :
    lx.getNextToken.1 = (scan (lx.input.drop lx.position)).1 := by
  cases lx with
  | mk input pos => rw [getNextToken_eq_scan]

/-- A call keeps the cursor within the input. -/
theorem getNextToken_position_le (lx : Lexer) (h : lx.position ≤ lx.input.length) :
    lx.getNextToken.2.position ≤ lx.getNextToken.2.input.length := by
  rw [getNextToken_input, getNextToken_position]
  have := scan_le (lx.input.drop lx.position)
  simp only [List.length_drop] at this
  omega

/-- Every state that the constructor and `getNextToken` can produce has its
cursor within the input. -/
theorem calls_position_le (input : List Char) (n : Nat) :
    (Lexer.calls n ⟨input, 0⟩).position ≤ (Lexer.calls n ⟨input, 0⟩).input.length := by
  have key : ∀ (n : Nat) (lx : Lexer), lx.position ≤ lx.input.length →
      (Lexer.calls n lx).position ≤ (Lexer.calls n lx).input.length := by
    intro n
    induction n with
    | zero => intro lx h; exact h
    | succ n ih => intro lx h; exact ih _ (getNextToken_position_le lx h)
  exact key n _ (Nat.zero_le _)

/-- After `END_OF_FILE` the lexer is at a fixed point. -/
theorem getNextToken_after_eof (lx : Lexer)
    (h : lx.getNextToken.1.type = TokenType.END_OF_FILE) :
    lx.getNextToken.2.getNextToken = (⟨TokenType.END_OF_FILE, []⟩, lx.getNextToken.2) := by
  cases lx with
  | mk input pos =>
    rw [getNextToken_eq_scan] at h ⊢
    simp only [] at h ⊢
    obtain ⟨_, h2⟩ := scan_eof h
    rw [getNextToken_eq_scan, ← List.drop_drop, h2, scan_nil]
    rfl

theorem calls_of_fixed {lx : Lexer} {t : Token} (h : lx.getNextToken = (t, lx)) (n : Nat) :
    Lexer.calls n lx = lx := by
  induction n with
  | zero => rfl
  | succ n ih => rw [Lexer.calls, h]; exact ih

theorem calls_input (n : Nat) : ∀ (lx : Lexer), (Lexer.calls n lx).input = lx.input := by
  induction n with
  | zero => intro lx; rfl
  | succ n ih =>
    intro lx
    rw [Lexer.calls, ih, getNextToken_input]

/-- In a state with the cursor within the input, an `END_OF_FILE` has empty text,
leaves the cursor within the input, and is returned again by every later call,
with the cursor where it is. -/
theorem eof_absorbing_within (lx : Lexer) (hpos : lx.position ≤ lx.input.length)
    (h : lx.getNextToken.1.type = TokenType.END_OF_FILE) :
    lx.getNextToken.1.value = [] ∧
      lx.getNextToken.2.position ≤ lx.input.length ∧
      ∀ m, (Lexer.calls m lx.getNextToken.2).getNextToken =
        (⟨TokenType.END_OF_FILE, []⟩, lx.getNextToken.2) := by
  refine ⟨?_, ?_, ?_⟩
  · rw [getNextToken_token] at h ⊢
    rw [(scan_eof h).1]
  · have := getNextToken_position_le lx hpos
    rw [getNextToken_input] at this
    exact this
  · intro m
    have hfix := getNextToken_after_eof lx h
    rw [calls_of_fixed hfix m]
    exact hfix

/-- C14 (`EndOfFile` is absorbing): for every input and every lexer state, that
is, the state of a `Lexer` constructed on the input after any number `n` of calls
of `getNextToken`: if the next call returns `END_OF_FILE` then its text is empty,
the cursor after the call is at most the input length, and every later call
returns `END_OF_FILE` with empty text again and leaves the cursor where it is. -/
theorem C14_eof_absorbing (input : List Char) (n : Nat)
    (h : (Lexer.calls n ⟨input, 0⟩).getNextToken.1.type = TokenType.END_OF_FILE) :
    (Lexer.calls n ⟨input, 0⟩).getNextToken.1.value = [] ∧
      (Lexer.calls n ⟨input, 0⟩).getNextToken.2.position ≤ input.length ∧
      ∀ m, (Lexer.calls m (Lexer.calls n ⟨input, 0⟩).getNextToken.2).getNextToken =
        (⟨TokenType.END_OF_FILE, []⟩, (Lexer.calls n ⟨input, 0⟩).getNextToken.2) := by
  have hin : (Lexer.calls n ⟨input, 0⟩).input = input := calls_input n ⟨input, 0⟩
  have hpos := calls_position_le input n
  obtain ⟨h1, h2, h3⟩ := eof_absorbing_within (Lexer.calls n ⟨input, 0⟩) hpos h
  rw [hin] at h2
  exact ⟨h1, h2, h3⟩

/-- C14 at the input `3 ` after one call, which has returned the `3`. -/
theorem C14_eof_absorbing_witness :
    (Lexer.calls 1 ⟨"3 ".toList, 0⟩).getNextToken.1.type = TokenType.END_OF_FILE ∧
    ((Lexer.calls 1 ⟨"3 ".toList, 0⟩).getNextToken.1.value = [] ∧
      (Lexer.calls 1 ⟨"3 ".toList, 0⟩).getNextToken.2.position ≤ "3 ".toList.length ∧
      ∀ m, (Lexer.calls m (Lexer.calls 1 ⟨"3 ".toList, 0⟩).getNextToken.2).getNextToken =
        (⟨TokenType.END_OF_FILE, []⟩, (Lexer.calls 1 ⟨"3 ".toList, 0⟩).getNextToken.2)) :=
  ⟨by decide, C14_eof_absorbing "3 ".toList 1 (by decide)⟩

theorem dropWhile_head_neg (p : Char → Bool) (l : List Char) :
    ∀ x, (l.dropWhile p).head? = some x → p x = false := by
  induction l with
  | nil => intro x hx; simp at hx
  | cons a l ih =>
    intro x hx
    by_cases ha : p a = true
    · rw [List.dropWhile_cons, if_pos ha] at hx
      exact ih x hx
    · rw [List.dropWhile_cons, if_neg ha] at hx
      simp only [List.head?_cons, Option.some.injEq] at hx
      rw [← hx]
      simpa using ha

theorem take_length_takeWhile (p : Char → Bool) (l : List Char) :
    l.take (l.takeWhile p).length = l.takeWhile p := by
  induction l with
  | nil => rfl
  | cons a l ih =>
    by_cases ha : p a = true
    · simp [List.takeWhile_cons, ha, ih]
    · simp [List.takeWhile_cons, ha]

theorem skipWhitespace_eq (input : List Char) (pos : Nat) :
    Lexer.skipWhitespace ⟨input, pos⟩ =
      ⟨input, pos + ((input.drop pos).takeWhile isspace).length⟩ := by
  unfold Lexer.skipWhitespace
  exact skipWhitespaceLoop_eq input _ pos (le_refl _)

theorem singleCharToken_value (c : Char) : (singleCharToken c).value = [c] := by
  unfold singleCharToken
  repeat' split
  all_goals simp_all

/-- C15 (maximal-munch identifiers): when the first character at or after the
cursor that is not whitespace is a letter `c`, the unread input is whitespace
`ws`, then a run `run` of letters and digits that starts with `c` and is followed
by no letter or digit, then `rest`; `getNextToken` returns the `Identifier` token
with text `run`, and the cursor ends right after the run. -/
theorem C15_maximal_munch_identifier (lx : Lexer) (c : Char)
    (h : ((lx.input.drop lx.position).dropWhile isspace).head? = some c)
    (hc : isalpha c = true) :
    ∃ ws run rest, lx.input.drop lx.position = ws ++ run ++ rest ∧
      (∀ x ∈ ws, isspace x = true) ∧ run.head? = some c ∧
      (∀ x ∈ run, isalnum x = true) ∧ (∀ x, rest.head? = some x → isalnum x = false) ∧
      lx.getNextToken =
        (⟨TokenType.IDENTIFIER, run⟩, ⟨lx.input, lx.position + ws.length + run.length⟩) := by
  cases lx with
  | mk input pos =>
    simp only [] at h ⊢
    have hn : isalnum c = true := by simp [isalnum, hc]
    cases hw : (input.drop pos).dropWhile isspace with
    | nil => rw [hw] at h; simp at h
    | cons c1 r =>
      rw [hw] at h
      simp only [List.head?_cons, Option.some.injEq] at h
      subst h
      refine ⟨(input.drop pos).takeWhile isspace, (c1 :: r).takeWhile isalnum,
        (c1 :: r).dropWhile isalnum, ?_, ?_, ?_, ?_, ?_, ?_⟩
      · rw [List.append_assoc, List.takeWhile_append_dropWhile, ← hw,
          List.takeWhile_append_dropWhile]
      · intro x hx
        exact List.mem_takeWhile_imp hx
      · simp [List.takeWhile_cons, hn]
      · intro x hx
        exact List.mem_takeWhile_imp hx
      · exact dropWhile_head_neg isalnum (c1 :: r)
      · rw [getNextToken_eq_scan]
        unfold scan
        simp only [hw, hc, if_true, Nat.add_assoc]

/-- C15 at the input ` ab1+c` with the cursor at 0. -/
theorem C15_maximal_munch_identifier_witness :
    (((" ab1+c".toList.drop 0).dropWhile isspace).head? = some 'a' ∧ isalpha 'a' = true) ∧
    ∃ ws run rest, " ab1+c".toList.drop 0 = ws ++ run ++ rest ∧
      (∀ x ∈ ws, isspace x = true) ∧ run.head? = some 'a' ∧
      (∀ x ∈ run, isalnum x = true) ∧ (∀ x, rest.head? = some x → isalnum x = false) ∧
      Lexer.getNextToken ⟨" ab1+c".toList, 0⟩ =
        (⟨TokenType.IDENTIFIER, run⟩, ⟨" ab1+c".toList, 0 + ws.length + run.length⟩) :=
  ⟨by decide, C15_maximal_munch_identifier ⟨" ab1+c".toList, 0⟩ 'a' (by decide) (by decide)⟩

theorem scan_value (s : List Char) :
    (s.takeWhile isspace).length ≤ (scan s).2 ∧
      (scan s).1.value =
        (s.dropWhile isspace).take ((scan s).2 - (s.takeWhile isspace).length) ∧
      ((scan s).1.type = TokenType.END_OF_FILE → (scan s).1.value = []) ∧
      ((scan s).1.type.isSingleChar = true → (scan s).1.value.length = 1) := by
  unfold scan
  simp only []
  cases hw : s.dropWhile isspace with
  | nil => simp [TokenType.isSingleChar]
  | cons c r =>
    simp only []
    by_cases ha : isalpha c = true
    · simp only [ha, if_true, Nat.add_sub_cancel_left, take_length_takeWhile]
      simp [TokenType.isSingleChar]
    · by_cases hg : isdigit c = true
      · simp only [ha, hg, if_true, if_false, Bool.false_eq_true, Nat.add_sub_cancel_left,
          take_length_takeWhile]
        simp [TokenType.isSingleChar]
      · simp only [ha, hg, if_false, Bool.false_eq_true, Nat.add_sub_cancel_left,
          singleCharToken_value]
        refine ⟨by omega, by simp, ?_, by simp⟩
        intro he
        exact absurd he (singleCharToken_type_ne_eof c)

/-- C16 (token text is the scanned substring): the text of the token that
`getNextToken` returns is the part of the input from the cursor reached by
`skipWhitespace` to the cursor after the call; it is empty for `END_OF_FILE` and one
character long for the single-character tokens and `Unknown`. -/
theorem C16_token_text_is_substring (lx : Lexer) :
    lx.skipWhitespace.position ≤ lx.getNextToken.2.position ∧
      lx.getNextToken.1.value =
        (lx.input.drop lx.skipWhitespace.position).take
          (lx.getNextToken.2.position - lx.skipWhitespace.position) ∧
      (lx.getNextToken.1.type = TokenType.END_OF_FILE → lx.getNextToken.1.value = []) ∧
      (lx.getNextToken.1.type.isSingleChar = true → lx.getNextToken.1.value.length = 1) := by
  cases lx with
  | mk input pos =>
    rw [getNextToken_eq_scan, skipWhitespace_eq]
    simp only []
    obtain ⟨h1, h2, h3, h4⟩ := scan_value (input.drop pos)
    refine ⟨by omega, ?_, h3, h4⟩
    rw [h2, ← List.drop_drop, drop_length_takeWhile]
    congr 1
    omega

theorem calls_succ (n : Nat) (lx : Lexer) :
    Lexer.calls (n + 1) lx = Lexer.calls n lx.getNextToken.2 := rfl

theorem eof_within (n : Nat) : ∀ (lx : Lexer), lx.input.length - lx.position ≤ n →
    ∃ k, k ≤ n ∧ (Lexer.calls k lx).getNextToken.1.type = TokenType.END_OF_FILE ∧
      ∀ j, j < k → (Lexer.calls j lx).getNextToken.1.type ≠ TokenType.END_OF_FILE := by
  induction n with
  | zero =>
    intro lx h
    refine ⟨0, le_refl _, ?_, fun j hj => absurd hj (Nat.not_lt_zero j)⟩
    have : lx.input.drop lx.position = [] := List.drop_of_length_le (by omega)
    show lx.getNextToken.1.type = TokenType.END_OF_FILE
    rw [getNextToken_token, this, scan_nil]
  | succ n ih =>
    intro lx h
    by_cases he : lx.getNextToken.1.type = TokenType.END_OF_FILE
    · exact ⟨0, Nat.zero_le _, he, fun j hj => absurd hj (Nat.not_lt_zero j)⟩
    · have hc : 0 < (scan (lx.input.drop lx.position)).2 := by
        rw [getNextToken_token] at he
        exact (scan_consumed he).1
      have hl : lx.getNextToken.2.input.length - lx.getNextToken.2.position ≤ n := by
        rw [getNextToken_input, getNextToken_position]
        omega
      obtain ⟨k, hk1, hk2, hk3⟩ := ih _ hl
      refine ⟨k + 1, by omega, hk2, ?_⟩
      intro j hj
      cases j with
      | zero => exact he
      | succ j => exact hk3 j (by omega)

/-- C17 (forward-only cursor, finite token stream): in a lexer state with the
cursor within the input, `getNextToken` returns with the same input, a cursor that
is not smaller than before and still within the input, and strictly larger when
the token is not `END_OF_FILE`.  From cursor 0, `END_OF_FILE` comes after at most
`length input` other tokens, and `Parser::parse` returns a tree or throws a
`runtime_error`: neither lexing nor parsing goes on forever. -/
theorem C17_forward_only_cursor (lx : Lexer) (hpos : lx.position ≤ lx.input.length) :
    (lx.getNextToken.2.input = lx.input ∧
      lx.position ≤ lx.getNextToken.2.position ∧
      lx.getNextToken.2.position ≤ lx.input.length ∧
      (lx.getNextToken.1.type ≠ TokenType.END_OF_FILE →
        lx.position < lx.getNextToken.2.position)) ∧
    (∃ k, k ≤ lx.input.length ∧
      (Lexer.calls k ⟨lx.input, 0⟩).getNextToken.1.type = TokenType.END_OF_FILE ∧
      ∀ j, j < k →
        (Lexer.calls j ⟨lx.input, 0⟩).getNextToken.1.type ≠ TokenType.END_OF_FILE) ∧
    ((∃ r, (Parser.new ⟨lx.input, 0⟩).parse = .ok r) ∨
      ∃ what, (Parser.new ⟨lx.input, 0⟩).parse = .error (Failure.runtime_error what)) := by
  refine ⟨⟨getNextToken_input lx, ?_, ?_, ?_⟩, ?_, ?_⟩
  · rw [getNextToken_position]; omega
  · have := getNextToken_position_le lx hpos
    rw [getNextToken_input] at this
    exact this
  · intro he
    rw [getNextToken_token] at he
    rw [getNextToken_position]
    have := (scan_consumed he).1
    omega
  · exact eof_within lx.input.length ⟨lx.input, 0⟩ (by simp)
  · cases hp : (Parser.new ⟨lx.input, 0⟩).parse with
    | ok r => exact Or.inl ⟨r, rfl⟩
    | error e =>
      right
      have hs := parse_eq_error.1 hp
      obtain ⟨_, h2⟩ :=
        statementL_error (tokenize_length_le lx.input) (tokenize_wellLexed lx.input) hs
      rcases h2 with h2 | ⟨x, h2⟩
      · exact ⟨_, by rw [h2]; rfl⟩
      · exact ⟨_, by rw [h2]; rfl⟩

/-- C17 at the input `3+4;` with the cursor after the `3`. -/
theorem C17_forward_only_cursor_witness :
    1 ≤ "3+4;".toList.length ∧
    (((Lexer.getNextToken ⟨"3+4;".toList, 1⟩).2.input = "3+4;".toList ∧
      1 ≤ (Lexer.getNextToken ⟨"3+4;".toList, 1⟩).2.position ∧
      (Lexer.getNextToken ⟨"3+4;".toList, 1⟩).2.position ≤ "3+4;".toList.length ∧
      ((Lexer.getNextToken ⟨"3+4;".toList, 1⟩).1.type ≠ TokenType.END_OF_FILE →
        1 < (Lexer.getNextToken ⟨"3+4;".toList, 1⟩).2.position)) ∧
    (∃ k, k ≤ "3+4;".toList.length ∧
      (Lexer.calls k ⟨"3+4;".toList, 0⟩).getNextToken.1.type = TokenType.END_OF_FILE ∧
      ∀ j, j < k →
        (Lexer.calls j ⟨"3+4;".toList, 0⟩).getNextToken.1.type ≠ TokenType.END_OF_FILE) ∧
    ((∃ r, (Parser.new ⟨"3+4;".toList, 0⟩).parse = .ok r) ∨
      ∃ what, (Parser.new ⟨"3+4;".toList, 0⟩).parse = .error (Failure.runtime_error what))) :=
  ⟨by decide, C17_forward_only_cursor ⟨"3+4;".toList, 1⟩ (by decide)⟩

/-! ## The shape of the trees -/

theorem arityOk_of_parses {n : ASTNode} {c : List Token} (h : Parses n c) :
    n.arityOk = true := by
  induction h with
  | leaf t ht => simp [ASTNode.arityOk, ASTNode.arityOkAll]
  | node o l r cl cr ho hv _ _ ihl ihr =>
    simp [ASTNode.arityOk, ASTNode.arityOkAll, ihl, ihr]

theorem wellFormed_of_parses {n : ASTNode} {c : List Token} (h : Parses n c) :
    WellFormed n := by
  induction h with
  | leaf t ht => exact WellFormed.leaf _
  | node o l r cl cr ho hv _ _ ihl ihr => exact WellFormed.node _ _ _ hv ihl ihr

/-- The two checks on a tree say that it is well-formed. -/
theorem wellFormed_of_checks : ∀ (t : ASTNode), t.arityOk = true → t.operatorsKnown = true →
    WellFormed t
  | .mk v [], _, _ => WellFormed.leaf v
  | .mk v [a], ha, _ => by simp [ASTNode.arityOk] at ha
  | .mk v [l, r], ha, ho => by
    simp only [ASTNode.arityOk, ASTNode.arityOkAll, Bool.and_eq_true, Bool.and_true] at ha
    simp only [ASTNode.operatorsKnown, ASTNode.operatorsKnownAll, Bool.and_eq_true,
      Bool.and_true, List.isEmpty_cons, Bool.false_or] at ho
    exact WellFormed.node v l r ho.1 (wellFormed_of_checks l ha.2.1 ho.2.1)
      (wellFormed_of_checks r ha.2.2 ho.2.2)
  | .mk v (a :: b :: c :: rest), ha, _ => by simp [ASTNode.arityOk] at ha

theorem generate_of_wellFormed {t : ASTNode} (h : WellFormed t) :
    ∃ out, CodeGenerator.generate t = (out, none) := by
  induction h with
  | leaf v => exact ⟨_, generate_leaf v⟩
  | node v l r hv _ _ ihl ihr =>
    obtain ⟨ol, hl⟩ := ihl
    obtain ⟨or1, hr⟩ := ihr
    exact ⟨_, generate_node hv hl hr⟩

theorem LOAD_injective {v1 v2 : List Char} (h : LOAD v1 = LOAD v2) : v1 = v2 := by
  simpa [LOAD_eq] using h

theorem instrOfSymbol_injective {v1 v2 : List Char} (h1 : isOperatorSymbol v1 = true)
    (h2 : isOperatorSymbol v2 = true) (h : instrOfSymbol v1 = instrOfSymbol v2) : v1 = v2 := by
  rcases operatorSymbol_cases h1 with rfl | rfl | rfl | rfl <;>
    rcases operatorSymbol_cases h2 with rfl | rfl | rfl | rfl <;>
    first
      | rfl
      | exact absurd h (by decide)

theorem LOAD_ne_instrOfSymbol {v1 v2 : List Char} (h2 : isOperatorSymbol v2 = true) :
    LOAD v1 ≠ instrOfSymbol v2 := by
  intro h
  have h1 := isOperatorLine_LOAD v1
  rw [h, isOperatorLine_instrOfSymbol h2] at h1
  exact absurd h1 (by simp)

/-- The emitted lines, read from the end, give back the tree: if the lines of
two well-formed trees agree after some lines put in front of each, the trees
and what was put in front agree. -/
theorem generate_suffix_injective {t1 : ASTNode} (h1 : WellFormed t1) :
    ∀ (t2 : ASTNode), WellFormed t2 → ∀ (p1 p2 : List (List Char)),
      p1 ++ (CodeGenerator.generate t1).1 = p2 ++ (CodeGenerator.generate t2).1 →
      p1 = p2 ∧ t1 = t2 := by
  induction h1 with
  | leaf v1 =>
    intro t2 h2 p1 p2 h
    cases h2 with
    | leaf v2 =>
      rw [generate_leaf, generate_leaf] at h
      obtain ⟨hp, hv⟩ := List.append_inj' h rfl
      simp only [List.cons.injEq, and_true] at hv
      rw [LOAD_injective hv]
      exact ⟨hp, rfl⟩
    | node v2 l2 r2 hv2 hl2 hr2 =>
      obtain ⟨ol, hl⟩ := generate_of_wellFormed hl2
      obtain ⟨or1, hr⟩ := generate_of_wellFormed hr2
      rw [generate_leaf, generate_node hv2 hl hr] at h
      simp only [] at h
      rw [← List.append_assoc p2] at h
      obtain ⟨_, hv⟩ := List.append_inj' h rfl
      simp only [List.cons.injEq, and_true] at hv
      exact absurd hv (LOAD_ne_instrOfSymbol hv2)
  | node v1 l1 r1 hv1 hl1 hr1 ihl ihr =>
    intro t2 h2 p1 p2 h
    obtain ⟨ol1, hgl1⟩ := generate_of_wellFormed hl1
    obtain ⟨or1, hgr1⟩ := generate_of_wellFormed hr1
    cases h2 with
    | leaf v2 =>
      rw [generate_leaf, generate_node hv1 hgl1 hgr1] at h
      simp only [] at h
      rw [← List.append_assoc p1] at h
      obtain ⟨_, hv⟩ := List.append_inj' h rfl
      simp only [List.cons.injEq, and_true] at hv
      exact absurd hv.symm (LOAD_ne_instrOfSymbol hv1)
    | node v2 l2 r2 hv2 hl2 hr2 =>
      obtain ⟨ol2, hgl2⟩ := generate_of_wellFormed hl2
      obtain ⟨or2, hgr2⟩ := generate_of_wellFormed hr2
      rw [generate_node hv1 hgl1 hgr1, generate_node hv2 hgl2 hgr2] at h
      simp only [] at h
      rw [← List.append_assoc p1, ← List.append_assoc p2] at h
      obtain ⟨hrest, hv⟩ := List.append_inj' h rfl
      simp only [List.cons.injEq, and_true] at hv
      have hveq := instrOfSymbol_injective hv1 hv2 hv
      have hr' : (p1 ++ ol1) ++ (CodeGenerator.generate r1).1 =
          (p2 ++ ol2) ++ (CodeGenerator.generate r2).1 := by
        rw [hgr1, hgr2]
        simpa [List.append_assoc] using hrest
      obtain ⟨hpl, hreq⟩ := ihr r2 hr2 _ _ hr'
      have hl' : p1 ++ (CodeGenerator.generate l1).1 = p2 ++ (CodeGenerator.generate l2).1 := by
        rw [hgl1, hgl2]
        exact hpl
      obtain ⟨hp, hleq⟩ := ihl l2 hl2 _ _ hl'
      exact ⟨hp, by rw [hveq, hleq, hreq]⟩

/-- C11 (AST arity invariant): when `Parser::parse` succeeds, every node of the
returned tree has no child or exactly two children, and `CodeGenerator::generate`
on that tree makes no access `children[0]` or `children[1]` out of bounds. -/
theorem C11_ast_arity_invariant (input : List Char) (ast : ASTNode) (p : Parser)
    (h : (Parser.new ⟨input, 0⟩).parse = .ok (ast, p)) :
    ast.arityOk = true ∧ (CodeGenerator.generate ast).2 ≠ some Failure.out_of_bounds := by
  obtain ⟨ts, hs⟩ := parse_eq_ok h
  obtain ⟨c, semi, _, _, h3, _⟩ := statementL_ok hs (tokenize_wellLexed input)
  obtain ⟨out, g1, _⟩ := generate_of_parses h3
  exact ⟨arityOk_of_parses h3, by rw [g1]; simp⟩

/-- C11 at the source `3+4*5;`, whose tree is `+(3, *(4, 5))`. -/
theorem C11_ast_arity_invariant_witness :
    (Parser.new ⟨"3+4*5;".toList, 0⟩).parse =
        .ok (ASTNode.mk ['+'] [ASTNode.mk ['3'] [],
              ASTNode.mk ['*'] [ASTNode.mk ['4'] [], ASTNode.mk ['5'] []]],
            ⟨⟨"3+4*5;".toList, 6⟩, ⟨TokenType.END_OF_FILE, []⟩⟩) ∧
      ((ASTNode.mk ['+'] [ASTNode.mk ['3'] [],
              ASTNode.mk ['*'] [ASTNode.mk ['4'] [], ASTNode.mk ['5'] []]]).arityOk = true ∧
        (CodeGenerator.generate (ASTNode.mk ['+'] [ASTNode.mk ['3'] [],
              ASTNode.mk ['*'] [ASTNode.mk ['4'] [], ASTNode.mk ['5'] []]])).2
          ≠ some Failure.out_of_bounds) :=
  ⟨rfl, C11_ast_arity_invariant "3+4*5;".toList _ _ rfl⟩

/-- C20 (code generation is injective on well-formed trees): two trees in which
every node has no child or exactly two and every node with children carries one
of `+`, `-`, `*`, `/`, and for which `generate` emits the same sequence of
instructions, are equal. -/
theorem C20_generate_injective (t1 t2 : ASTNode)
    (h1 : t1.arityOk = true ∧ t1.operatorsKnown = true)
    (h2 : t2.arityOk = true ∧ t2.operatorsKnown = true)
    (h : (CodeGenerator.generate t1).1 = (CodeGenerator.generate t2).1) : t1 = t2 := by
  have w1 := wellFormed_of_checks t1 h1.1 h1.2
  have w2 := wellFormed_of_checks t2 h2.1 h2.2
  exact (generate_suffix_injective w1 t2 w2 [] [] (by simpa using h)).2

/-- C20 at the tree `-(3, 4)`, taken twice. -/
theorem C20_generate_injective_witness :
    ((ASTNode.mk ['-'] [ASTNode.mk ['3'] [], ASTNode.mk ['4'] []]).arityOk = true ∧
      (ASTNode.mk ['-'] [ASTNode.mk ['3'] [], ASTNode.mk ['4'] []]).operatorsKnown = true) ∧
    (CodeGenerator.generate (ASTNode.mk ['-'] [ASTNode.mk ['3'] [], ASTNode.mk ['4'] []])).1 =
      ["LOAD 3".toList, "LOAD 4".toList, "SUB".toList] ∧
    ASTNode.mk ['-'] [ASTNode.mk ['3'] [], ASTNode.mk ['4'] []] =
      ASTNode.mk ['-'] [ASTNode.mk ['3'] [], ASTNode.mk ['4'] []] :=
  ⟨by decide, by decide,
    C20_generate_injective (ASTNode.mk ['-'] [ASTNode.mk ['3'] [], ASTNode.mk ['4'] []])
      (ASTNode.mk ['-'] [ASTNode.mk ['3'] [], ASTNode.mk ['4'] []])
      (by decide) (by decide) rfl⟩

/-- The characters on `cout` do not give back the tree when a leaf text contains
a line break: the leaf whose text is `a`, line break, `LOAD b`, line break, `ADD`
prints the same characters as the tree `+(a, b)`, though the two emit different
sequences of instructions. -/
theorem printed_not_injective :
    printed (CodeGenerator.generate
        (ASTNode.mk ("a".toList ++ [Char.ofNat 10] ++ "LOAD b".toList ++ [Char.ofNat 10]
          ++ "ADD".toList) [])).1 =
      printed (CodeGenerator.generate
        (ASTNode.mk ['+'] [ASTNode.mk ['a'] [], ASTNode.mk ['b'] []])).1 ∧
    (CodeGenerator.generate
        (ASTNode.mk ("a".toList ++ [Char.ofNat 10] ++ "LOAD b".toList ++ [Char.ofNat 10]
          ++ "ADD".toList) [])).1 ≠
      (CodeGenerator.generate
        (ASTNode.mk ['+'] [ASTNode.mk ['a'] [], ASTNode.mk ['b'] []])).1 := by
  decide

/-! ## Lexing a text in two parts -/

theorem takeWhile_append_of_head_neg {p : Char → Bool} {d : List Char}
    (hd : ∀ x, d.head? = some x → p x = false) (xs : List Char) :
    (xs ++ d).takeWhile p = xs.takeWhile p := by
  induction xs with
  | nil => simpa using takeWhile_eq_nil_of_head hd
  | cons x xs ih =>
    by_cases hx : p x = true
    · simp [List.takeWhile_cons, hx, ih]
    · simp [List.takeWhile_cons, hx]

theorem takeWhile_append_of_dropWhile_cons {p : Char → Bool} {xs : List Char} {c : Char}
    {r : List Char} (h : xs.dropWhile p = c :: r) (ys : List Char) :
    (xs ++ ys).takeWhile p = xs.takeWhile p := by
  have hlen : (xs.takeWhile p).length + (xs.dropWhile p).length = xs.length := by
    rw [← List.length_append, List.takeWhile_append_dropWhile]
  rw [h, List.length_cons] at hlen
  rw [List.takeWhile_append, if_neg (by omega)]

theorem scan_eof_all_space {s : List Char} (h : (scan s).1.type = TokenType.END_OF_FILE) :
    ∀ x ∈ s, isspace x = true := by
  have hw : s.dropWhile isspace = [] := by
    unfold scan at h
    simp only [] at h
    cases hw : s.dropWhile isspace with
    | nil => rfl
    | cons c r =>
      rw [hw] at h
      simp only [] at h
      by_cases ha : isalpha c = true
      · simp [ha] at h
      · by_cases hg : isdigit c = true
        · simp [ha, hg] at h
        · simp only [ha, hg, if_false, Bool.false_eq_true] at h
          exact absurd h (singleCharToken_type_ne_eof c)
  have := List.takeWhile_append_dropWhile isspace s
  rw [hw, List.append_nil] at this
  intro x hx
  rw [← this] at hx
  exact List.mem_takeWhile_imp hx

/-- What follows a token that ends before a character that is no letter and no
digit does not change the token. -/
theorem scan_append {u d : List Char} (hne : (scan u).1.type ≠ TokenType.END_OF_FILE)
    (hd : ∀ x, d.head? = some x → isalnum x = false) : scan (u ++ d) = scan u := by
  have hdg : ∀ x, d.head? = some x → isdigit x = false := by
    intro x hx
    have := hd x hx
    simp only [isalnum, Bool.or_eq_false_iff] at this
    exact this.2
  unfold scan at hne ⊢
  simp only [] at hne ⊢
  cases hw : u.dropWhile isspace with
  | nil => rw [hw] at hne; simp at hne
  | cons c r =>
    rw [takeWhile_append_of_dropWhile_cons hw, dropWhile_append_of_ne_nil hw]
    simp only []
    rw [← List.cons_append, takeWhile_append_of_head_neg hd,
      takeWhile_append_of_head_neg hdg]

/-- Whitespace in front is skipped. -/
theorem scan_whitespace_append {w : List Char} (hw : ∀ x ∈ w, isspace x = true)
    (d : List Char) : scan (w ++ d) = ((scan d).1, w.length + (scan d).2) := by
  unfold scan
  simp only []
  rw [List.takeWhile_append_of_pos hw, List.dropWhile_append_of_pos hw]
  cases d.dropWhile isspace with
  | nil => simp
  | cons c r =>
    simp only [List.length_append]
    by_cases ha : isalpha c = true
    · simp [ha, Nat.add_assoc]
    · by_cases hg : isdigit c = true
      · simp [ha, hg, Nat.add_assoc]
      · simp [ha, hg, Nat.add_assoc]

theorem tokenize_whitespace_append {w : List Char} (hw : ∀ x ∈ w, isspace x = true)
    (d : List Char) : tokenize (w ++ d) = tokenize d := by
  rw [tokenize_unfold (w ++ d), tokenize_unfold d, scan_whitespace_append hw]
  simp only [List.drop_append]

/-- The token sequence of a text whose second part does not begin with a letter
or a digit is the token sequence of the first part followed by that of the
second. -/
theorem tokenize_append (u d : List Char) (hd : ∀ x, d.head? = some x → isalnum x = false) :
    tokenize (u ++ d) = tokenize u ++ tokenize d := by
  generalize h : u.length = n
  induction n using Nat.strong_induction_on generalizing u with
  | _ n ih =>
    by_cases he : (scan u).1.type = TokenType.END_OF_FILE
    · rw [tokenize_whitespace_append (scan_eof_all_space he), tokenize_unfold u]
      simp [he]
    · have hc := scan_consumed he
      rw [tokenize_unfold (u ++ d), scan_append he hd, tokenize_unfold u]
      simp only [he, if_false, List.cons_append]
      congr 1
      rw [List.drop_append_of_le_length hc.2]
      exact ih _ (by simp only [List.length_drop]; omega) _ rfl

theorem not_isalnum_of_isspace {x : Char} (h : isspace x = true) : isalnum x = false := by
  cases hx : isalnum x with
  | false => rfl
  | true => rw [isspace_of_isalnum hx] at h; exact absurd h (by simp)

/-- One of the six characters that are tokens of their own. -/
theorem delimiter_char {c : Char}
    (hc : c = '=' ∨ c = '+' ∨ c = '-' ∨ c = '*' ∨ c = '/' ∨ c = ';') :
    isspace c = false ∧ isalnum c = false := by
  rcases hc with rfl | rfl | rfl | rfl | rfl | rfl <;> decide

/-- The token sequence around a delimiter with whitespace on both sides. -/
theorem tokenize_around_delimiter (u v w1 w2 : List Char) {c : Char}
    (hc : isspace c = false ∧ isalnum c = false)
    (h1 : ∀ x ∈ w1, isspace x = true) (h2 : ∀ x ∈ w2, isspace x = true) :
    tokenize (u ++ w1 ++ [c] ++ w2 ++ v) = tokenize u ++ singleCharToken c :: tokenize v := by
  have hhead : ∀ x, (w1 ++ c :: (w2 ++ v)).head? = some x → isalnum x = false := by
    intro x hx
    cases w1 with
    | nil =>
      simp only [List.nil_append, List.head?_cons, Option.some.injEq] at hx
      rw [← hx]; exact hc.2
    | cons y w =>
      simp only [List.cons_append, List.head?_cons, Option.some.injEq] at hx
      rw [← hx]
      exact not_isalnum_of_isspace (h1 y (by simp))
  have hshape : u ++ w1 ++ [c] ++ w2 ++ v = u ++ (w1 ++ c :: (w2 ++ v)) := by simp
  rw [hshape, tokenize_append u _ hhead, tokenize_whitespace_append h1,
    tokenize_single _ hc.1 hc.2, tokenize_whitespace_append h2]

/-! ## The list-level parser does not depend on its fuel -/

theorem termLoopL_fuel : ∀ (f1 f2 : Nat) (node : ASTNode) (ts : List Token),
    ts.length ≤ f1 → ts.length ≤ f2 → termLoopL f1 node ts = termLoopL f2 node ts := by
  intro f1
  induction f1 with
  | zero =>
    intro f2 node ts h1 h2
    have : ts = [] := List.length_eq_zero.1 (by omega)
    subst this
    rw [termLoopL_stop _ _ (by simp [Token.isMulDiv]),
      termLoopL_stop _ _ (by simp [Token.isMulDiv])]
  | succ f1 ih =>
    intro f2 node ts h1 h2
    cases ts with
    | nil =>
      rw [termLoopL_stop _ _ (by simp [Token.isMulDiv]),
        termLoopL_stop _ _ (by simp [Token.isMulDiv])]
    | cons o tail =>
      cases hmd : o.isMulDiv with
      | false =>
        rw [termLoopL_stop _ _ (by simpa using hmd), termLoopL_stop _ _ (by simpa using hmd)]
      | true =>
        simp only [List.length_cons] at h1 h2
        obtain ⟨k, rfl⟩ : ∃ k, f2 = k + 1 := ⟨f2 - 1, by omega⟩
        rw [termLoopL_step _ _ _ hmd, termLoopL_step _ _ _ hmd]
        cases hf : factorL tail with
        | error e => rfl
        | ok x =>
          obtain ⟨rhs, ts1⟩ := x
          obtain ⟨f, hf1, _, _⟩ := factorL_ok hf
          simp only []
          apply ih
          · rw [hf1] at h1; simp only [List.length_cons] at h1; omega
          · rw [hf1] at h2; simp only [List.length_cons] at h2; omega

theorem termL_fuel {f1 f2 : Nat} {ts : List Token} (h1 : ts.length ≤ f1)
    (h2 : ts.length ≤ f2) : termL f1 ts = termL f2 ts := by
  unfold termL
  cases hf : factorL ts with
  | error e => rfl
  | ok x =>
    obtain ⟨n0, ts0⟩ := x
    obtain ⟨f, hf1, _, _⟩ := factorL_ok hf
    simp only []
    apply termLoopL_fuel
    · rw [hf1] at h1; simp only [List.length_cons] at h1; omega
    · rw [hf1] at h2; simp only [List.length_cons] at h2; omega

theorem expressionLoopL_fuel : ∀ (f1 f2 : Nat) (node : ASTNode) (ts : List Token),
    ts.length ≤ f1 → ts.length ≤ f2 → (∀ t ∈ ts, t.WellLexed) →
    expressionLoopL f1 node ts = expressionLoopL f2 node ts := by
  intro f1
  induction f1 with
  | zero =>
    intro f2 node ts h1 h2 _
    have : ts = [] := List.length_eq_zero.1 (by omega)
    subst this
    rw [expressionLoopL_stop _ _ (by simp [Token.isAddSub]),
      expressionLoopL_stop _ _ (by simp [Token.isAddSub])]
  | succ f1 ih =>
    intro f2 node ts h1 h2 hw
    cases ts with
    | nil =>
      rw [expressionLoopL_stop _ _ (by simp [Token.isAddSub]),
        expressionLoopL_stop _ _ (by simp [Token.isAddSub])]
    | cons o tail =>
      cases hmd : o.isAddSub with
      | false =>
        rw [expressionLoopL_stop _ _ (by simpa using hmd),
          expressionLoopL_stop _ _ (by simpa using hmd)]
      | true =>
        simp only [List.length_cons] at h1 h2
        obtain ⟨k, rfl⟩ : ∃ k, f2 = k + 1 := ⟨f2 - 1, by omega⟩
        have hwt : ∀ t ∈ tail, t.WellLexed := fun t ht => hw t (by simp [ht])
        rw [expressionLoopL_step _ _ _ hmd, expressionLoopL_step _ _ _ hmd,
          @termL_fuel f1 k tail (by omega) (by omega)]
        cases hf : termL k tail with
        | error e => rfl
        | ok x =>
          obtain ⟨rhs, ts1⟩ := x
          obtain ⟨c, hc1, _, _, _⟩ := termL_ok hf hwt
          have hl := length_le_of_append hc1
          simp only []
          apply ih
          · omega
          · omega
          · intro t ht
            apply hwt
            rw [hc1]
            simp [ht]

theorem expressionL_fuel {f1 f2 : Nat} {ts : List Token} (h1 : ts.length ≤ f1)
    (h2 : ts.length ≤ f2) (hw : ∀ t ∈ ts, t.WellLexed) :
    expressionL f1 ts = expressionL f2 ts := by
  unfold expressionL
  rw [termL_fuel h1 h2]
  cases hf : termL f2 ts with
  | error e => rfl
  | ok x =>
    obtain ⟨n0, ts0⟩ := x
    obtain ⟨c, hc1, _, _, _⟩ := termL_ok hf hw
    have hl := length_le_of_append hc1
    simp only []
    apply expressionLoopL_fuel
    · omega
    · omega
    · intro t ht
      apply hw
      rw [hc1]
      simp [ht]

theorem statementL_fuel {f1 f2 : Nat} {ts : List Token} (h1 : ts.length ≤ f1)
    (h2 : ts.length ≤ f2) (hw : ∀ t ∈ ts, t.WellLexed) :
    statementL f1 ts = statementL f2 ts := by
  unfold statementL
  rw [expressionL_fuel h1 h2 hw]

/-- Sources with the same token sequence compile to the same result. -/
theorem compile_congr {s1 s2 : List Char} (h : tokenize s1 = tokenize s2) :
    compile s1 = compile s2 := by
  rw [compile_eq, compile_eq, h]
  have h1 := tokenize_length_le s1
  rw [h] at h1
  rw [statementL_fuel h1 (tokenize_length_le s2) (tokenize_wellLexed s2)]

/-- C18 (whitespace around single-character tokens is insignificant): for all
texts `u`, `v`, every character `c` among `= + - * / ;` and all whitespace texts
`w1`, `w2`, the token sequence of `u w1 c w2 v` is that of `u c v`, and so is the
compilation result. -/
theorem C18_whitespace_insignificant (u v w1 w2 : List Char) (c : Char)
    (hc : c = '=' ∨ c = '+' ∨ c = '-' ∨ c = '*' ∨ c = '/' ∨ c = ';')
    (h1 : w1.all isspace = true) (h2 : w2.all isspace = true) :
    tokenize (u ++ w1 ++ [c] ++ w2 ++ v) = tokenize (u ++ [c] ++ v) ∧
      compile (u ++ w1 ++ [c] ++ w2 ++ v) = compile (u ++ [c] ++ v) := by
  have hd := delimiter_char hc
  have h1' : ∀ x ∈ w1, isspace x = true := by simpa using h1
  have h2' : ∀ x ∈ w2, isspace x = true := by simpa using h2
  have hnil : ∀ x ∈ ([] : List Char), isspace x = true := by simp
  have key : tokenize (u ++ w1 ++ [c] ++ w2 ++ v) = tokenize (u ++ [c] ++ v) := by
    rw [tokenize_around_delimiter u v w1 w2 hd h1' h2']
    have := tokenize_around_delimiter u v [] [] hd hnil hnil
    simp only [List.append_nil] at this
    rw [this]
  exact ⟨key, compile_congr key⟩

/-- C18 at ` 3 + 4 * 5;` against ` 3+4 * 5;`, together with the driver's input
` 3 + 4 * 5;` against `3+4*5;`. -/
theorem C18_whitespace_insignificant_witness :
    (" ".toList.all isspace = true ∧ " ".toList.all isspace = true) ∧
    (tokenize (" 3".toList ++ " ".toList ++ ['+'] ++ " ".toList ++ "4 * 5;".toList) =
        tokenize (" 3".toList ++ ['+'] ++ "4 * 5;".toList) ∧
      compile (" 3".toList ++ " ".toList ++ ['+'] ++ " ".toList ++ "4 * 5;".toList) =
        compile (" 3".toList ++ ['+'] ++ "4 * 5;".toList)) ∧
    compile " 3 + 4 * 5;".toList = compile "3+4*5;".toList :=
  ⟨by decide,
    C18_whitespace_insignificant " 3".toList "4 * 5;".toList " ".toList " ".toList '+'
      (by decide) (by decide) (by decide),
    by decide⟩

/-! ## What follows the semicolon -/

theorem exists_first_semicolon {s : List Char} (h : ';' ∈ s) :
    ∃ pre post, s = pre ++ ';' :: post ∧ ';' ∉ pre := by
  induction s with
  | nil => simp at h
  | cons a s ih =>
    by_cases ha : a = ';'
    · exact ⟨[], s, by simp [ha], by simp⟩
    · have hs : ';' ∈ s := by
        rcases List.mem_cons.1 h with h1 | h1
        · exact absurd h1.symm ha
        · exact h1
      obtain ⟨pre, post, h1, h2⟩ := ih hs
      refine ⟨a :: pre, post, by rw [h1]; rfl, ?_⟩
      intro hm
      rcases List.mem_cons.1 hm with h3 | h3
      · exact ha h3.symm
      · exact h2 h3

theorem tokenize_at_semicolon (pre post : List Char) :
    tokenize (pre ++ ';' :: post) =
      tokenize pre ++ ⟨TokenType.SEMICOLON, [';']⟩ :: tokenize post := by
  rw [tokenize_append pre _ (head_cons_not_alnum _ semicolon_char.2.1),
    tokenize_single _ semicolon_char.1 semicolon_char.2.1, semicolon_char.2.2]

theorem tokenize_no_semicolon {pre : List Char} (h : ';' ∉ pre) :
    ∀ t ∈ tokenize pre, t.type ≠ TokenType.SEMICOLON :=
  fun t ht hs => h (tokenize_semicolon_mem pre t ht hs)

theorem beforeSemicolon_append {c : List Token} (hc : ∀ t ∈ c, t.type ≠ TokenType.SEMICOLON)
    {semi : Token} (hs : semi.type = TokenType.SEMICOLON) (rest : List Token) :
    beforeSemicolon (c ++ semi :: rest) = c := by
  unfold beforeSemicolon
  rw [List.takeWhile_append_of_pos]
  · simp [List.takeWhile_cons, hs]
  · intro t ht
    simpa using hc t ht

/-- The split of a token list at its first `Semicolon` token is unique. -/
theorem first_semicolon_unique {c1 c2 r1 r2 : List Token} {s1 s2 : Token}
    (h : c1 ++ s1 :: r1 = c2 ++ s2 :: r2)
    (h1 : ∀ t ∈ c1, t.type ≠ TokenType.SEMICOLON) (h2 : ∀ t ∈ c2, t.type ≠ TokenType.SEMICOLON)
    (hs1 : s1.type = TokenType.SEMICOLON) (hs2 : s2.type = TokenType.SEMICOLON) :
    c1 = c2 ∧ s1 = s2 ∧ r1 = r2 := by
  have hc : c1 = c2 := by
    have := congrArg beforeSemicolon h
    rw [beforeSemicolon_append h1 hs1, beforeSemicolon_append h2 hs2] at this
    exact this
  subst hc
  have := List.append_cancel_left h
  simp only [List.cons.injEq] at this
  exact ⟨rfl, this.1, this.2⟩

theorem parses_no_semicolon {n : ASTNode} {c : List Token} (h : Parses n c) :
    ∀ t ∈ c, t.type ≠ TokenType.SEMICOLON := by
  intro t ht
  rcases (parses_counts h).2 t ht with ho | hb
  · exact isOperand_type_ne_semicolon ho
  · exact isBinop_type_ne_semicolon hb

theorem statementL_ok_expression {fuel : Nat} {ts ts1 : List Token} {n : ASTNode}
    (h : statementL fuel ts = .ok (n, ts1)) :
    ∃ semi, semi.type = TokenType.SEMICOLON ∧ expressionL fuel ts = .ok (n, semi :: ts1) := by
  unfold statementL at h
  cases hf : expressionL fuel ts with
  | error e => rw [hf] at h; simp at h
  | ok x =>
    obtain ⟨n0, ts0⟩ := x
    rw [hf] at h
    simp only [] at h
    split at h
    · simp at h
    · rename_i hs
      simp only [ne_eq, Decidable.not_not] at hs
      simp only [Except.ok.injEq, Prod.mk.injEq] at h
      obtain ⟨rfl, rfl⟩ := h
      have hts : ts0 = peek ts0 :: ts0.tail := by
        apply cons_tail_of_peek
        rw [hs]; simp
      exact ⟨peek ts0, hs, by rw [← hts]⟩

theorem termLoopL_tail {S : Token} (hS : S.type = TokenType.SEMICOLON)
    (rest rest1 : List Token) :
    ∀ (fuel : Nat) (node : ASTNode) (ts : List Token) (n : ASTNode) (r1 : List Token)
      (fuel1 : Nat), termLoopL fuel node (ts ++ S :: rest) = .ok (n, r1) → ts.length ≤ fuel1 →
      ∃ r, r1 = r ++ S :: rest ∧
        termLoopL fuel1 node (ts ++ S :: rest1) = .ok (n, r ++ S :: rest1) ∧
        r.length ≤ ts.length := by
  obtain ⟨hS1, hS2, hS3⟩ := semicolon_token_facts hS
  intro fuel
  induction fuel with
  | zero =>
    intro node ts n r1 fuel1 h hl
    cases ts with
    | nil =>
      rw [List.nil_append, termLoopL_stop _ _ (by simpa using hS1)] at h
      simp only [Except.ok.injEq, Prod.mk.injEq] at h
      exact ⟨[], by simp [h.2],
        by rw [List.nil_append, termLoopL_stop _ _ (by simpa using hS1), h.1], le_refl _⟩
    | cons t ts1 =>
      cases hmd : t.isMulDiv with
      | true => rw [List.cons_append, termLoopL_zero _ _ hmd] at h; simp at h
      | false =>
        rw [List.cons_append, termLoopL_stop _ _ (by simpa using hmd)] at h
        simp only [Except.ok.injEq, Prod.mk.injEq] at h
        exact ⟨t :: ts1, by simp [h.2],
          by rw [List.cons_append, termLoopL_stop _ _ (by simpa using hmd), h.1], le_refl _⟩
  | succ fuel ih =>
    intro node ts n r1 fuel1 h hl
    cases ts with
    | nil =>
      rw [List.nil_append, termLoopL_stop _ _ (by simpa using hS1)] at h
      simp only [Except.ok.injEq, Prod.mk.injEq] at h
      exact ⟨[], by simp [h.2],
        by rw [List.nil_append, termLoopL_stop _ _ (by simpa using hS1), h.1], le_refl _⟩
    | cons t ts1 =>
      cases hmd : t.isMulDiv with
      | true =>
        rw [List.cons_append, termLoopL_step _ _ _ hmd] at h
        cases ts1 with
        | nil =>
          rw [List.nil_append, factorL_not_operand (by simpa using hS3)] at h
          simp at h
        | cons f ts2 =>
          cases hfo : f.isOperand with
          | false =>
            rw [List.cons_append, factorL_not_operand (by simpa using hfo)] at h
            simp at h
          | true =>
            rw [List.cons_append, factorL_operand _ hfo] at h
            simp only [] at h
            simp only [List.length_cons] at hl
            obtain ⟨k, rfl⟩ : ∃ k, fuel1 = k + 1 := ⟨fuel1 - 1, by omega⟩
            obtain ⟨r, hr1, hr2, hr3⟩ := ih _ _ _ _ k h (by omega)
            refine ⟨r, hr1, ?_, ?_⟩
            · rw [List.cons_append, termLoopL_step _ _ _ hmd, List.cons_append,
                factorL_operand _ hfo]
              exact hr2
            · simp only [List.length_cons]; omega
      | false =>
        rw [List.cons_append, termLoopL_stop _ _ (by simpa using hmd)] at h
        simp only [Except.ok.injEq, Prod.mk.injEq] at h
        exact ⟨t :: ts1, by simp [h.2],
          by rw [List.cons_append, termLoopL_stop _ _ (by simpa using hmd), h.1], le_refl _⟩

theorem termL_tail {S : Token} (hS : S.type = TokenType.SEMICOLON) (rest rest1 : List Token)
    {fuel : Nat} {ts : List Token} {n : ASTNode} {r1 : List Token} (fuel1 : Nat)
    (h : termL fuel (ts ++ S :: rest) = .ok (n, r1)) (hl : ts.length ≤ fuel1) :
    ∃ r, r1 = r ++ S :: rest ∧ termL fuel1 (ts ++ S :: rest1) = .ok (n, r ++ S :: rest1) ∧
      r.length < ts.length := by
  obtain ⟨hS1, hS2, hS3⟩ := semicolon_token_facts hS
  cases ts with
  | nil =>
    unfold termL at h
    rw [List.nil_append, factorL_not_operand (by simpa using hS3)] at h
    simp at h
  | cons f ts1 =>
    cases hfo : f.isOperand with
    | false =>
      unfold termL at h
      rw [List.cons_append, factorL_not_operand (by simpa using hfo)] at h
      simp at h
    | true =>
      rw [List.cons_append, termL_operand _ _ hfo] at h
      simp only [List.length_cons] at hl
      obtain ⟨r, hr1, hr2, hr3⟩ :=
        termLoopL_tail hS rest rest1 _ _ _ _ _ fuel1 h (by omega)
      refine ⟨r, hr1, ?_, ?_⟩
      · rw [List.cons_append, termL_operand _ _ hfo]; exact hr2
      · simp only [List.length_cons]; omega

theorem expressionLoopL_tail {S : Token} (hS : S.type = TokenType.SEMICOLON)
    (rest rest1 : List Token) :
    ∀ (fuel : Nat) (node : ASTNode) (ts : List Token) (n : ASTNode) (r1 : List Token)
      (fuel1 : Nat), expressionLoopL fuel node (ts ++ S :: rest) = .ok (n, r1) →
      ts.length ≤ fuel1 →
      ∃ r, r1 = r ++ S :: rest ∧
        expressionLoopL fuel1 node (ts ++ S :: rest1) = .ok (n, r ++ S :: rest1) ∧
        r.length ≤ ts.length := by
  obtain ⟨hS1, hS2, hS3⟩ := semicolon_token_facts hS
  intro fuel
  induction fuel with
  | zero =>
    intro node ts n r1 fuel1 h hl
    cases ts with
    | nil =>
      rw [List.nil_append, expressionLoopL_stop _ _ (by simpa using hS2)] at h
      simp only [Except.ok.injEq, Prod.mk.injEq] at h
      exact ⟨[], by simp [h.2],
        by rw [List.nil_append, expressionLoopL_stop _ _ (by simpa using hS2), h.1],
        le_refl _⟩
    | cons t ts1 =>
      cases hmd : t.isAddSub with
      | true => rw [List.cons_append, expressionLoopL_zero _ _ hmd] at h; simp at h
      | false =>
        rw [List.cons_append, expressionLoopL_stop _ _ (by simpa using hmd)] at h
        simp only [Except.ok.injEq, Prod.mk.injEq] at h
        exact ⟨t :: ts1, by simp [h.2],
          by rw [List.cons_append, expressionLoopL_stop _ _ (by simpa using hmd), h.1],
          le_refl _⟩
  | succ fuel ih =>
    intro node ts n r1 fuel1 h hl
    cases ts with
    | nil =>
      rw [List.nil_append, expressionLoopL_stop _ _ (by simpa using hS2)] at h
      simp only [Except.ok.injEq, Prod.mk.injEq] at h
      exact ⟨[], by simp [h.2],
        by rw [List.nil_append, expressionLoopL_stop _ _ (by simpa using hS2), h.1],
        le_refl _⟩
    | cons t ts1 =>
      cases hmd : t.isAddSub with
      | true =>
        rw [List.cons_append, expressionLoopL_step _ _ _ hmd] at h
        simp only [List.length_cons] at hl
        obtain ⟨k, rfl⟩ : ∃ k, fuel1 = k + 1 := ⟨fuel1 - 1, by omega⟩
        cases hf : termL fuel (ts1 ++ S :: rest) with
        | error e => rw [hf] at h; simp at h
        | ok x =>
          obtain ⟨rhs, x1⟩ := x
          rw [hf] at h
          simp only [] at h
          obtain ⟨r0, hr01, hr02, hr03⟩ := termL_tail hS rest rest1 k hf (by omega)
          rw [hr01] at h
          obtain ⟨r, hr1, hr2, hr3⟩ := ih _ _ _ _ k h (by omega)
          refine ⟨r, hr1, ?_, ?_⟩
          · rw [List.cons_append, expressionLoopL_step _ _ _ hmd, hr02]
            exact hr2
          · simp only [List.length_cons]; omega
      | false =>
        rw [List.cons_append, expressionLoopL_stop _ _ (by simpa using hmd)] at h
        simp only [Except.ok.injEq, Prod.mk.injEq] at h
        exact ⟨t :: ts1, by simp [h.2],
          by rw [List.cons_append, expressionLoopL_stop _ _ (by simpa using hmd), h.1],
          le_refl _⟩

/-- The parse of an expression that ends before a `Semicolon` token does not
depend on what follows that token. -/
theorem expressionL_tail {S : Token} (hS : S.type = TokenType.SEMICOLON)
    (rest rest1 : List Token) {fuel : Nat} {ts : List Token} {n : ASTNode}
    {r1 : List Token} (fuel1 : Nat)
    (h : expressionL fuel (ts ++ S :: rest) = .ok (n, r1)) (hl : ts.length ≤ fuel1) :
    ∃ r, r1 = r ++ S :: rest ∧
      expressionL fuel1 (ts ++ S :: rest1) = .ok (n, r ++ S :: rest1) := by
  unfold expressionL at h
  cases hf : termL fuel (ts ++ S :: rest) with
  | error e => rw [hf] at h; simp at h
  | ok x =>
    obtain ⟨n0, x1⟩ := x
    rw [hf] at h
    simp only [] at h
    obtain ⟨r0, hr01, hr02, hr03⟩ := termL_tail hS rest rest1 fuel1 hf hl
    rw [hr01] at h
    obtain ⟨r, hr1, hr2, _⟩ :=
      expressionLoopL_tail hS rest rest1 _ _ _ _ _ fuel1 h (by omega)
    refine ⟨r, hr1, ?_⟩
    unfold expressionL
    rw [hr02]
    exact hr2

/-- C19 (text after the first statement is ignored): if compiling `s` succeeds,
compiling `s ++ t` succeeds too and emits exactly the same lines. -/
theorem C19_text_after_statement_ignored (s t : List Char) (h : (compile s).2 = none) :
    compile (s ++ t) = compile s := by
  rw [compile_eq s] at h ⊢
  cases hs : statementL s.length (tokenize s) with
  | error e => rw [hs] at h; simp at h
  | ok x =>
    obtain ⟨ast, ts1⟩ := x
    simp only []
    obtain ⟨semi, hsemi, he⟩ := statementL_ok_expression hs
    obtain ⟨c, hc1, hc2, _, _⟩ := expressionL_ok he (tokenize_wellLexed s)
    have hcs := parses_no_semicolon hc2
    have hmem : ';' ∈ s :=
      tokenize_semicolon_mem s semi (by rw [hc1]; simp) hsemi
    obtain ⟨pre, post, hsplit, hpre⟩ := exists_first_semicolon hmem
    have htok := tokenize_at_semicolon pre post
    rw [← hsplit, hc1] at htok
    obtain ⟨hceq, hseq, hreq⟩ :=
      first_semicolon_unique htok hcs (tokenize_no_semicolon hpre) hsemi rfl
    have htok2 : tokenize (s ++ t) = c ++ semi :: tokenize (post ++ t) := by
      rw [hsplit, List.append_assoc, List.cons_append, tokenize_at_semicolon, hceq, hseq]
    have hlen : c.length ≤ (s ++ t).length := by
      have h1 := tokenize_length_le s
      rw [hc1] at h1
      simp only [List.length_append, List.length_cons] at h1 ⊢
      omega
    rw [hc1] at he
    obtain ⟨r, hr1, hr2⟩ :=
      expressionL_tail hsemi ts1 (tokenize (post ++ t)) (s ++ t).length he hlen
    have hr : r = [] := by
      have := congrArg List.length hr1
      simp only [List.length_append, List.length_cons] at this
      exact List.length_eq_zero.1 (by omega)
    subst hr
    rw [compile_eq, htok2, statementL_of_expressionL hr2 hsemi]

/-- C19 at `1;` followed by `2;` and by `+`: both compile to `LOAD 1`. -/
theorem C19_text_after_statement_ignored_witness :
    (compile "1;".toList).2 = none ∧
      compile ("1;".toList ++ "2;".toList) = compile "1;".toList ∧
      compile "1;2;".toList = (["LOAD 1".toList], none) ∧
      compile "1;+".toList = (["LOAD 1".toList], none) :=
  ⟨by decide, C19_text_after_statement_ignored "1;".toList "2;".toList (by decide),
    by decide, by decide⟩

/-! ## The `Assign` token -/

/-- C12 as stated fails twice: `1;=` contains `=` and parses, and `x=1;` fails with
`ExpectedSemicolon`, which is no `UnexpectedToken`. -/
theorem C12_assign_counterexample :
    ('=' ∈ "1;=".toList ∧
      (Parser.new ⟨"1;=".toList, 0⟩).parse =
        .ok (ASTNode.mk ['1'] [], ⟨⟨"1;=".toList, 3⟩, ⟨TokenType.ASSIGN, ['=']⟩⟩)) ∧
    ('=' ∈ "x=1;".toList ∧
      (Parser.new ⟨"x=1;".toList, 0⟩).parse = .error ExpectedSemicolon ∧
      ¬ ∃ text, ExpectedSemicolon = UnexpectedToken text) := by
  refine ⟨⟨by decide, rfl⟩, by decide, rfl, ?_⟩
  rintro ⟨text, h⟩
  simp only [ExpectedSemicolon, UnexpectedToken, Failure.runtime_error.injEq] at h
  have := congrArg (fun l => l.head?) h
  simp at this

/-- C12 as amended: a source in which `=` stands before the first `;` (or that
has no `;` after it at all) does not parse; the failure is `UnexpectedToken` or
`ExpectedSemicolon`. -/
theorem C12_assign_before_semicolon (pre post : List Char) (hpre : ';' ∉ pre) :
    ∃ e, (Parser.new ⟨pre ++ '=' :: post, 0⟩).parse = .error e ∧
      (e = ExpectedSemicolon ∨ ∃ text, e = UnexpectedToken text) := by
  have heq : isspace '=' = false ∧ isalnum '=' = false := by decide
  have htok : tokenize (pre ++ '=' :: post) =
      tokenize pre ++ singleCharToken '=' :: tokenize post := by
    rw [tokenize_append pre _ (head_cons_not_alnum _ heq.2), tokenize_single _ heq.1 heq.2]
  cases hs : statementL (pre ++ '=' :: post).length (tokenize (pre ++ '=' :: post)) with
  | error e =>
    obtain ⟨_, h2⟩ := statementL_error (tokenize_length_le _) (tokenize_wellLexed _) hs
    exact ⟨e, parse_eq_error.2 hs, h2⟩
  | ok x =>
    exfalso
    obtain ⟨ast, ts1⟩ := x
    obtain ⟨c, semi, hc1, hsemi, hc2, _⟩ := statementL_ok hs (tokenize_wellLexed _)
    have hb1 := beforeSemicolon_of_parses hc2 hsemi ts1
    rw [← hc1, htok] at hb1
    have hmem : singleCharToken '=' ∈ c := by
      rw [← hb1]
      unfold beforeSemicolon
      rw [List.takeWhile_append_of_pos]
      · simp [List.takeWhile_cons, singleCharToken]
      · intro t ht
        simpa using tokenize_no_semicolon hpre t ht
    rcases (parses_counts hc2).2 _ hmem with ho | hb
    · exact absurd ho (by decide)
    · exact absurd hb (by decide)

/-- C12 as amended, at `x=1;`. -/
theorem C12_assign_before_semicolon_witness :
    ';' ∉ "x".toList ∧
      ∃ e, (Parser.new ⟨"x".toList ++ '=' :: "1;".toList, 0⟩).parse = .error e ∧
        (e = ExpectedSemicolon ∨ ∃ text, e = UnexpectedToken text) :=
  ⟨by decide, C12_assign_before_semicolon "x".toList "1;".toList (by decide)⟩

/-! ## The lookahead at a failure -/

theorem parseFactor_eq_run (p : Parser) : p.parseFactor = toExcept p.runFactor := by
  unfold Parser.parseFactor Parser.runFactor
  split <;> rfl

theorem parseTermLoop_eq_run : ∀ (fuel : Nat) (node : ASTNode) (p : Parser),
    Parser.parseTermLoop fuel node p = toExcept (Parser.runTermLoop fuel node p) := by
  intro fuel
  induction fuel with
  | zero =>
    intro node p
    unfold Parser.parseTermLoop Parser.runTermLoop
    split <;> rfl
  | succ fuel ih =>
    intro node p
    unfold Parser.parseTermLoop Parser.runTermLoop
    split
    · simp only []
      rw [parseFactor_eq_run]
      cases hr : p.advance.runFactor with
      | mk p1 r =>
        cases r with
        | error e => rfl
        | ok rhs => exact ih _ _
    · rfl

theorem parseTerm_eq_run (fuel : Nat) (p : Parser) :
    p.parseTerm fuel = toExcept (p.runTerm fuel) := by
  unfold Parser.parseTerm Parser.runTerm
  rw [parseFactor_eq_run]
  cases hr : p.runFactor with
  | mk p1 r =>
    cases r with
    | error e => rfl
    | ok node => exact parseTermLoop_eq_run _ _ _

theorem parseExpressionLoop_eq_run : ∀ (fuel : Nat) (node : ASTNode) (p : Parser),
    Parser.parseExpressionLoop fuel node p =
      toExcept (Parser.runExpressionLoop fuel node p) := by
  intro fuel
  induction fuel with
  | zero =>
    intro node p
    unfold Parser.parseExpressionLoop Parser.runExpressionLoop
    split <;> rfl
  | succ fuel ih =>
    intro node p
    unfold Parser.parseExpressionLoop Parser.runExpressionLoop
    split
    · simp only []
      rw [parseTerm_eq_run]
      cases hr : p.advance.runTerm fuel with
      | mk p1 r =>
        cases r with
        | error e => rfl
        | ok rhs => exact ih _ _
    · rfl

theorem parseExpression_eq_run (fuel : Nat) (p : Parser) :
    p.parseExpression fuel = toExcept (p.runExpression fuel) := by
  unfold Parser.parseExpression Parser.runExpression
  rw [parseTerm_eq_run]
  cases hr : p.runTerm fuel with
  | mk p1 r =>
    cases r with
    | error e => rfl
    | ok node => exact parseExpressionLoop_eq_run _ _ _

theorem parseStatement_eq_run (fuel : Nat) (p : Parser) :
    p.parseStatement fuel = toExcept (p.runStatement fuel) := by
  unfold Parser.parseStatement Parser.runStatement
  rw [parseExpression_eq_run]
  cases hr : p.runExpression fuel with
  | mk p1 r =>
    cases r with
    | error e => rfl
    | ok node =>
      simp only [toExcept]
      split <;> rfl

/-- The procedures that return the parser state agree with `Parser::parse`. -/
theorem parse_eq_run (p : Parser) : p.parse = toExcept p.run :=
  parseStatement_eq_run _ p

theorem runFactor_failure (p : Parser) (e : Failure) (h : p.runFactor.2 = .error e) :
    e = UnexpectedToken p.runFactor.1.currentToken.value := by
  unfold Parser.runFactor at h ⊢
  split at h
  · simp at h
  · rename_i hc
    simp only [hc, if_false]
    simp only [Except.error.injEq] at h
    exact h.symm

theorem runTermLoop_failure : ∀ (fuel : Nat) (node : ASTNode) (p : Parser) (e : Failure),
    (Parser.runTermLoop fuel node p).2 = .error e →
    e = Failure.out_of_fuel ∨
      e = UnexpectedToken (Parser.runTermLoop fuel node p).1.currentToken.value := by
  intro fuel
  induction fuel with
  | zero =>
    intro node p e h
    unfold Parser.runTermLoop at h ⊢
    split
    · rename_i hc
      simp only [hc, if_true, Except.error.injEq] at h
      exact Or.inl h.symm
    · rename_i hc
      simp [hc] at h
  | succ fuel ih =>
    intro node p e h
    unfold Parser.runTermLoop at h ⊢
    split
    · rename_i hc
      simp only [hc, if_true] at h
      have hf := runFactor_failure p.advance
      cases hr : p.advance.runFactor with
      | mk p1 r =>
        rw [hr] at h hf
        cases r with
        | error e1 =>
          simp only [Except.error.injEq] at h
          exact Or.inr (by rw [← h]; exact hf e1 rfl)
        | ok rhs => exact ih _ _ _ h
    · rename_i hc
      simp [hc] at h

theorem runTerm_failure (fuel : Nat) (p : Parser) (e : Failure)
    (h : (p.runTerm fuel).2 = .error e) :
    e = Failure.out_of_fuel ∨ e = UnexpectedToken (p.runTerm fuel).1.currentToken.value := by
  unfold Parser.runTerm at h ⊢
  have hf := runFactor_failure p
  cases hr : p.runFactor with
  | mk p1 r =>
    rw [hr] at h hf
    cases r with
    | error e1 =>
      simp only [Except.error.injEq] at h
      exact Or.inr (by rw [← h]; exact hf e1 rfl)
    | ok node => exact runTermLoop_failure _ _ _ _ h

theorem runExpressionLoop_succ (fuel : Nat) (node : ASTNode) (p : Parser)
    (hc : p.currentToken.type = TokenType.PLUS ∨ p.currentToken.type = TokenType.MINUS) :
    Parser.runExpressionLoop (fuel + 1) node p =
      match p.advance.runTerm fuel with
      | (p1, .error e) => (p1, .error e)
      | (p1, .ok rhs) =>
        Parser.runExpressionLoop fuel (ASTNode.mk p.currentToken.value [node, rhs]) p1 := by
  rw [Parser.runExpressionLoop]
  simp only [hc, if_true]

theorem runExpressionLoop_failure : ∀ (fuel : Nat) (node : ASTNode) (p : Parser)
    (e : Failure), (Parser.runExpressionLoop fuel node p).2 = .error e →
    e = Failure.out_of_fuel ∨
      e = UnexpectedToken (Parser.runExpressionLoop fuel node p).1.currentToken.value := by
  intro fuel
  induction fuel with
  | zero =>
    intro node p e h
    unfold Parser.runExpressionLoop at h ⊢
    split
    · rename_i hc
      simp only [hc, if_true, Except.error.injEq] at h
      exact Or.inl h.symm
    · rename_i hc
      simp [hc] at h
  | succ fuel ih =>
    intro node p e h
    by_cases hc : p.currentToken.type = TokenType.PLUS ∨ p.currentToken.type = TokenType.MINUS
    · rw [runExpressionLoop_succ fuel node p hc] at h ⊢
      have hf := runTerm_failure fuel p.advance
      cases hr : p.advance.runTerm fuel with
      | mk p1 r =>
        rw [hr] at h hf
        cases r with
        | error e1 =>
          simp only [Except.error.injEq] at h
          rw [← h]
          exact hf e1 rfl
        | ok rhs => exact ih _ _ _ h
    · rw [Parser.runExpressionLoop] at h
      simp [hc] at h

theorem runExpression_failure (fuel : Nat) (p : Parser) (e : Failure)
    (h : (p.runExpression fuel).2 = .error e) :
    e = Failure.out_of_fuel ∨
      e = UnexpectedToken (p.runExpression fuel).1.currentToken.value := by
  unfold Parser.runExpression at h ⊢
  have hf := runTerm_failure fuel p
  cases hr : p.runTerm fuel with
  | mk p1 r =>
    rw [hr] at h hf
    cases r with
    | error e1 =>
      simp only [Except.error.injEq] at h
      rw [← h]
      exact hf e1 rfl
    | ok node => exact runExpressionLoop_failure _ _ _ _ h

theorem runStatement_failure (fuel : Nat) (p : Parser) (e : Failure)
    (h : (p.runStatement fuel).2 = .error e) :
    e = Failure.out_of_fuel ∨
      e = UnexpectedToken (p.runStatement fuel).1.currentToken.value ∨
      (e = ExpectedSemicolon ∧
        (p.runStatement fuel).1.currentToken.type ≠ TokenType.SEMICOLON) := by
  unfold Parser.runStatement at h ⊢
  have hf := runExpression_failure fuel p
  cases hr : p.runExpression fuel with
  | mk p1 r =>
    rw [hr] at h hf
    cases r with
    | error e1 =>
      simp only [Except.error.injEq] at h
      rw [← h]
      rcases hf e1 rfl with h1 | h1
      · exact Or.inl h1
      · exact Or.inr (Or.inl h1)
    | ok node =>
      dsimp only at h ⊢
      by_cases hc : p1.currentToken.type ≠ TokenType.SEMICOLON
      · rw [if_pos hc] at h ⊢
        simp only [Except.error.injEq] at h
        exact Or.inr (Or.inr ⟨h.symm, hc⟩)
      · rw [if_neg hc] at h
        simp at h

/-- Whatever the lookahead at a failure of `Parser::parse` is, the failure is
`UnexpectedToken` with the text of that lookahead, thrown by `parseFactor`, or
`ExpectedSemicolon`, thrown by `parseStatement` at a lookahead that is no
`Semicolon`. -/
theorem parse_failure_at_lookahead (input : List Char) (e : Failure)
    (h : (Parser.new ⟨input, 0⟩).parse = .error e) :
    (Parser.new ⟨input, 0⟩).run.2 = .error e ∧
      (e = UnexpectedToken (Parser.new ⟨input, 0⟩).run.1.currentToken.value ∨
        (e = ExpectedSemicolon ∧
          (Parser.new ⟨input, 0⟩).run.1.currentToken.type ≠ TokenType.SEMICOLON)) := by
  have hne : e ≠ Failure.out_of_fuel := by
    intro he
    rw [he] at h
    exact parse_never_out_of_fuel input h
  rw [parse_eq_run] at h
  have hrun : (Parser.new ⟨input, 0⟩).run.2 = .error e := by
    cases hr : (Parser.new ⟨input, 0⟩).run with
    | mk p1 r =>
      rw [hr] at h
      cases r with
      | error e1 =>
        simp only [toExcept, Except.error.injEq] at h
        rw [h]
      | ok node => simp [toExcept] at h
  refine ⟨hrun, ?_⟩
  rcases runStatement_failure _ _ e hrun with h1 | h1 | h1
  · exact absurd h1 hne
  · exact Or.inl h1
  · exact Or.inr h1

/-- C13 as stated fails at `3@`: the parse fails with the `Unknown` token `@` as
lookahead, and the failure is `ExpectedSemicolon`, thrown by `parseStatement`. -/
theorem C13_unknown_counterexample :
    (Parser.new ⟨"3@".toList, 0⟩).run =
        (⟨⟨"3@".toList, 2⟩, ⟨TokenType.UNKNOWN, ['@']⟩⟩, .error ExpectedSemicolon) ∧
      (Parser.new ⟨"3@".toList, 0⟩).parse = .error ExpectedSemicolon ∧
      ¬ ∃ text, ExpectedSemicolon = UnexpectedToken text := by
  refine ⟨rfl, rfl, ?_⟩
  rintro ⟨text, h⟩
  simp only [ExpectedSemicolon, UnexpectedToken, Failure.runtime_error.injEq] at h
  have := congrArg (fun l => l.head?) h
  simp at this

/-- The function `parseStatement` after its call of `parseExpression`. -/
theorem run_eq_of_expression (p : Parser) :
    p.run =
      match p.runExpressionOfParse with
      | (p1, .error e) => (p1, .error e)
      | (p1, .ok node) =>
        if p1.currentToken.type ≠ TokenType.SEMICOLON then (p1, .error ExpectedSemicolon)
        else (p1.advance, .ok node) := rfl

/-- C13 as amended: when `Parser::parse` fails with an `Unknown` token as
lookahead, the parser is in the state in which the call of `parseExpression` has
left it, and
* if `parseExpression` has returned (the token follows a complete expression),
  the failure is `ExpectedSemicolon`, thrown by `parseStatement`;
* if `parseExpression` has thrown, the failure is its failure, it is `UnexpectedToken`
  carrying the text of that token, and it is what `parseFactor` throws in that
  state. -/
theorem C13_unknown_lookahead (input : List Char) (e : Failure)
    (h : (Parser.new ⟨input, 0⟩).parse = .error e)
    (hu : (Parser.new ⟨input, 0⟩).run.1.currentToken.type = TokenType.UNKNOWN) :
    (Parser.new ⟨input, 0⟩).run.1 = (Parser.new ⟨input, 0⟩).runExpressionOfParse.1 ∧
      (((∃ node, (Parser.new ⟨input, 0⟩).runExpressionOfParse.2 = .ok node) ∧
          e = ExpectedSemicolon) ∨
        ((Parser.new ⟨input, 0⟩).runExpressionOfParse.2 = .error e ∧
          e = UnexpectedToken (Parser.new ⟨input, 0⟩).run.1.currentToken.value ∧
          (Parser.new ⟨input, 0⟩).run.1.runFactor = ((Parser.new ⟨input, 0⟩).run.1, .error e) ∧
          (Parser.new ⟨input, 0⟩).run.1.parseFactor = .error e)) := by
  obtain ⟨hrun, hkind⟩ := parse_failure_at_lookahead input e h
  have hfac : ∀ (q : Parser), q.currentToken.type = TokenType.UNKNOWN →
      q.runFactor = (q, .error (UnexpectedToken q.currentToken.value)) := by
    intro q hq
    unfold Parser.runFactor
    rw [if_neg (by rw [hq]; simp)]
  have hne : ∀ text, ExpectedSemicolon ≠ UnexpectedToken text := by
    intro text hc
    simp only [ExpectedSemicolon, UnexpectedToken, Failure.runtime_error.injEq] at hc
    have := congrArg (fun l => l.head?) hc
    simp at this
  have hq := run_eq_of_expression (Parser.new ⟨input, 0⟩)
  cases hx : (Parser.new ⟨input, 0⟩).runExpressionOfParse with
  | mk p1 r =>
    rw [hx] at hq
    cases r with
    | error e1 =>
      dsimp only at hq
      rw [hq] at hrun hu hkind ⊢
      simp only [Except.error.injEq] at hrun
      subst hrun
      refine ⟨rfl, Or.inr ⟨rfl, ?_, ?_, ?_⟩⟩
      · rcases hkind with hk | hk
        · exact hk
        · have h1 := runExpression_failure _ _ e1 (by rw [← Parser.runExpressionOfParse, hx])
          rw [← Parser.runExpressionOfParse, hx] at h1
          rcases h1 with h1 | h1
          · rw [h1] at h
            exact absurd h (parse_never_out_of_fuel input)
          · exact h1
      · have h1 := runExpression_failure _ _ e1 (by rw [← Parser.runExpressionOfParse, hx])
        rw [← Parser.runExpressionOfParse, hx] at h1
        rcases h1 with h1 | h1
        · rw [h1] at h
          exact absurd h (parse_never_out_of_fuel input)
        · rw [hfac p1 hu, h1]
      · have h1 := runExpression_failure _ _ e1 (by rw [← Parser.runExpressionOfParse, hx])
        rw [← Parser.runExpressionOfParse, hx] at h1
        rcases h1 with h1 | h1
        · rw [h1] at h
          exact absurd h (parse_never_out_of_fuel input)
        · rw [parseFactor_eq_run, hfac p1 hu, h1]
          rfl
    | ok node =>
      dsimp only at hq
      by_cases hc : p1.currentToken.type ≠ TokenType.SEMICOLON
      · rw [if_pos hc] at hq
        rw [hq] at hrun ⊢
        simp only [Except.error.injEq] at hrun
        exact ⟨rfl, Or.inl ⟨⟨node, rfl⟩, hrun.symm⟩⟩
      · rw [if_neg hc] at hq
        rw [hq] at hrun
        simp at hrun

/-- C13 as amended, at `3+@`, where `parseFactor` meets the `Unknown` token `@`, and
at `3@`, where `parseStatement` meets it after the expression `3`. -/
theorem C13_unknown_lookahead_witness :
    (((Parser.new ⟨"3+@".toList, 0⟩).parse = .error (UnexpectedToken ['@']) ∧
        (Parser.new ⟨"3+@".toList, 0⟩).run.1.currentToken.type = TokenType.UNKNOWN) ∧
      ((Parser.new ⟨"3+@".toList, 0⟩).run.1 =
          (Parser.new ⟨"3+@".toList, 0⟩).runExpressionOfParse.1 ∧
        (((∃ node, (Parser.new ⟨"3+@".toList, 0⟩).runExpressionOfParse.2 = .ok node) ∧
            UnexpectedToken ['@'] = ExpectedSemicolon) ∨
          ((Parser.new ⟨"3+@".toList, 0⟩).runExpressionOfParse.2
              = .error (UnexpectedToken ['@']) ∧
            UnexpectedToken ['@'] =
              UnexpectedToken (Parser.new ⟨"3+@".toList, 0⟩).run.1.currentToken.value ∧
            (Parser.new ⟨"3+@".toList, 0⟩).run.1.runFactor =
              ((Parser.new ⟨"3+@".toList, 0⟩).run.1, .error (UnexpectedToken ['@'])) ∧
            (Parser.new ⟨"3+@".toList, 0⟩).run.1.parseFactor
              = .error (UnexpectedToken ['@']))))) ∧
    (((Parser.new ⟨"3@".toList, 0⟩).parse = .error ExpectedSemicolon ∧
        (Parser.new ⟨"3@".toList, 0⟩).run.1.currentToken.type = TokenType.UNKNOWN) ∧
      ((Parser.new ⟨"3@".toList, 0⟩).run.1 =
          (Parser.new ⟨"3@".toList, 0⟩).runExpressionOfParse.1 ∧
        (((∃ node, (Parser.new ⟨"3@".toList, 0⟩).runExpressionOfParse.2 = .ok node) ∧
            ExpectedSemicolon = ExpectedSemicolon) ∨
          ((Parser.new ⟨"3@".toList, 0⟩).runExpressionOfParse.2 = .error ExpectedSemicolon ∧
            ExpectedSemicolon =
              UnexpectedToken (Parser.new ⟨"3@".toList, 0⟩).run.1.currentToken.value ∧
            (Parser.new ⟨"3@".toList, 0⟩).run.1.runFactor =
              ((Parser.new ⟨"3@".toList, 0⟩).run.1, .error ExpectedSemicolon) ∧
            (Parser.new ⟨"3@".toList, 0⟩).run.1.parseFactor = .error ExpectedSemicolon)))) :=
  ⟨⟨⟨rfl, by decide⟩,
      C13_unknown_lookahead "3+@".toList (UnexpectedToken ['@']) rfl (by decide)⟩,
    ⟨⟨rfl, by decide⟩,
      C13_unknown_lookahead "3@".toList ExpectedSemicolon rfl (by decide)⟩⟩

end Simplelung
